import Mathlib

/-!
# Employee hierarchy and salary: a verification development

Shallow embedding of `RelationManager` (src/src/RelationManager.cpp) and
`SalaryCalculator` (src/src/SalaryCalculator.cpp).

Modelling conventions
* `boost::uuids::uuid` is a value compared only by equality; it is
  embedded as a natural number.
* `boost::unordered_map` / `boost::unordered_multimap` are association lists.
  The iteration order of the unordered containers is unspecified in C++; the
  embedding fixes insertion order.  No statement below depends on that choice
  except where it says so.
* The mutex is not modelled: every operation is one atomic step of a
  sequential state machine.  The one exception is
  `calculate_manager_salary_across`, which splits a salary computation at the
  point where the `add_relation` of a second thread can run.
* Unbounded loops take a fuel argument and return `none` when it runs out.
-/

namespace employee

/-- Unique identifier (`boost::uuids::uuid`). -/
abbrev uuid_t := Nat

/-! ## Containers -/

/-- Lookup `m.find(key)` in `unordered_map<uuid, uuid>`: the mapped value, if any. -/
def map_find : List (uuid_t × uuid_t) → uuid_t → Option uuid_t
  | [], _ => none
  | (k, v) :: m, key => if k = key then some v else map_find m key

/-- Assignment `m[key] = value` in `unordered_map<uuid, uuid>`: overwrite or insert. -/
def map_assign : List (uuid_t × uuid_t) → uuid_t → uuid_t → List (uuid_t × uuid_t)
  | [], key, value => [(key, value)]
  | (k, v) :: m, key, value =>
    if k = key then (k, value) :: m else (k, v) :: map_assign m key value

/-- Erasure `m.erase(it)` with `it = m.find(key)` in `unordered_map<uuid, uuid>`. -/
def map_erase : List (uuid_t × uuid_t) → uuid_t → List (uuid_t × uuid_t)
  | [], _ => []
  | (k, v) :: m, key => if k = key then m else (k, v) :: map_erase m key

/-- Insertion `m.insert({key, value})` in `unordered_multimap<uuid, uuid>`. -/
def multimap_insert (m : List (uuid_t × uuid_t)) (key value : uuid_t) :
    List (uuid_t × uuid_t) :=
  m ++ [(key, value)]

/-- Test `m.find(key) != m.end()` in `unordered_multimap<uuid, uuid>`. -/
def multimap_contains : List (uuid_t × uuid_t) → uuid_t → Bool
  | [], _ => false
  | (k, _) :: m, key => if k = key then true else multimap_contains m key

/-- Values of `m.equal_range(key)` in `unordered_multimap<uuid, uuid>`, in iteration order. -/
def equal_range : List (uuid_t × uuid_t) → uuid_t → List uuid_t
  | [], _ => []
  | (k, v) :: m, key => if k = key then v :: equal_range m key else equal_range m key

/-- The scan of `remove_relation` (RelationManager.cpp:55-64): walk
`equal_range(key)`, erase the first entry whose mapped value is `value`.
`none` is the outcome `found == false`. -/
def multimap_erase_pair :
    List (uuid_t × uuid_t) → uuid_t → uuid_t → Option (List (uuid_t × uuid_t))
  | [], _, _ => none
  | (k, v) :: m, key, value =>
    if k = key ∧ v = value then some m
    else (multimap_erase_pair m key value).map (fun r => (k, v) :: r)

/-! ## RelationManager -/

/-- State of `RelationManager` (RelationManager.h:69-76). -/
structure RelationManager where
  /-- Relation "subordinate --> chief" (one to one). -/
  sub_to_chief_ : List (uuid_t × uuid_t)
  /-- Relation "chief --> subordinates" (one to many). -/
  chief_to_subs_ : List (uuid_t × uuid_t)
deriving DecidableEq, Repr

/-- A freshly constructed `RelationManager`. -/
def RelationManager.empty : RelationManager := ⟨[], []⟩

/-- The `while (true)` walk of `has_hierarchical_cycle`
(RelationManager.cpp:146-163); one unit of fuel per loop iteration. -/
def has_hierarchical_cycle_loop (m : List (uuid_t × uuid_t)) (id : uuid_t) :
    Nat → uuid_t → Option Bool
  | 0, _ => none
  | fuel + 1, current =>
    if current = id then some true
    else
      match map_find m current with
      | none => some false
      | some c => has_hierarchical_cycle_loop m id fuel c

/-- Bound on the iterations of the cycle walk that the embedding grants:
one more than the number of recorded subordinate entries. -/
def cycle_fuel (s : RelationManager) : Nat := s.sub_to_chief_.length + 1

/-- Embedding of `RelationManager::has_hierarchical_cycle`. -/
def has_hierarchical_cycle (s : RelationManager) (id_chief id : uuid_t) : Option Bool :=
  has_hierarchical_cycle_loop s.sub_to_chief_ id (cycle_fuel s) id_chief

/-- Embedding of `RelationManager::add_relation` (RelationManager.cpp:12-37): the
returned flag and the state after the call; `none` when the cycle walk does not
return. -/
def add_relation (s : RelationManager) (id_chief id : uuid_t) :
    Option (Bool × RelationManager) :=
  if id_chief = id then some (false, s)
  else
    match map_find s.sub_to_chief_ id with
    | some _ => some (false, s)
    | none =>
      match has_hierarchical_cycle s id_chief id with
      | none => none
      | some true => some (false, s)
      | some false =>
        some (true,
          { sub_to_chief_ := map_assign s.sub_to_chief_ id id_chief
            chief_to_subs_ := multimap_insert s.chief_to_subs_ id_chief id })

/-- Embedding of `RelationManager::remove_relation` (RelationManager.cpp:40-73). -/
def remove_relation (s : RelationManager) (id_chief id : uuid_t) :
    Bool × RelationManager :=
  if id_chief = id then (false, s)
  else
    match map_find s.sub_to_chief_ id with
    | none => (false, s)
    | some c =>
      if c ≠ id_chief then (false, s)
      else
        match multimap_erase_pair s.chief_to_subs_ id_chief id with
        | none => (false, s)
        | some c2s =>
          (true,
            { sub_to_chief_ := map_erase s.sub_to_chief_ id
              chief_to_subs_ := c2s })

/-- Embedding of `RelationManager::get_chief` (RelationManager.cpp:76-85). -/
def get_chief (s : RelationManager) (id : uuid_t) : Option uuid_t :=
  map_find s.sub_to_chief_ id

/-- Embedding of `RelationManager::get_direct_subordinates` (RelationManager.cpp:88-107). -/
def get_direct_subordinates (s : RelationManager) (id : uuid_t) : List uuid_t :=
  if multimap_contains s.chief_to_subs_ id then equal_range s.chief_to_subs_ id else []

/-- The `while (!tower.empty())` loop of `get_all_subordinates`
(RelationManager.cpp:131-140).  The head of `tower` is the top of the stack;
pushing the entries of an equal range one by one leaves the last of them on
top.  The popped identifier is read once, by `equal_range`, before anything
is pushed.  One unit of fuel per pop. -/
def get_all_subordinates_loop (m : List (uuid_t × uuid_t)) :
    Nat → List uuid_t → List uuid_t → Option (List uuid_t)
  | _, [], all_subordinates => some all_subordinates
  | 0, _ :: _, _ => none
  | fuel + 1, current :: tower, all_subordinates =>
    get_all_subordinates_loop m fuel
      ((equal_range m current).reverse ++ tower)
      (all_subordinates ++ equal_range m current)

/-- Embedding of `RelationManager::get_all_subordinates` (RelationManager.cpp:110-143);
the loop is granted as many pops as there are recorded edges. -/
def get_all_subordinates (s : RelationManager) (id : uuid_t) : Option (List uuid_t) :=
  if multimap_contains s.chief_to_subs_ id then
    get_all_subordinates_loop s.chief_to_subs_ s.chief_to_subs_.length
      (equal_range s.chief_to_subs_ id).reverse
      (equal_range s.chief_to_subs_ id)
  else some []

/-! ## Call sequences -/

/-- One call of a mutating operation of `RelationManager`. -/
inductive Op where
  | add (id_chief id : uuid_t)
  | remove (id_chief id : uuid_t)
deriving DecidableEq, Repr

/-- State after one call, whatever flag it returns; `none` when the call does not return. -/
def apply_op (s : RelationManager) : Op → Option RelationManager
  | .add c i => (add_relation s c i).map Prod.snd
  | .remove c i => some (remove_relation s c i).2

/-- State after a sequence of calls, applied left to right. -/
def run_ops (s : RelationManager) : List Op → Option RelationManager
  | [] => some s
  | op :: ops =>
    match apply_op s op with
    | none => none
    | some s1 => run_ops s1 ops

/-- A state is reachable when some finite call sequence leads to it from the empty graph. -/
def Reachable (s : RelationManager) : Prop :=
  ∃ ops, run_ops RelationManager.empty ops = some s

/-- The chief chain that starts at `x`: `x`, its chief, the chief of that, ...,
ending at the first identifier with no recorded chief.  `none` when the chain
is longer than `fuel`. -/
def chief_chain (m : List (uuid_t × uuid_t)) : Nat → uuid_t → Option (List uuid_t)
  | 0, _ => none
  | fuel + 1, x =>
    match map_find m x with
    | none => some [x]
    | some c => (chief_chain m fuel c).map (fun l => x :: l)

/-- Structural invariant of the two views: one entry per subordinate, the
inverse view holds each recorded edge exactly once and nothing else, and every
chief chain ends. -/
structure Forest (s : RelationManager) : Prop where
  keys_nodup : (s.sub_to_chief_.map Prod.fst).Nodup
  view : ∀ c x, s.chief_to_subs_.count (c, x) =
    if map_find s.sub_to_chief_ x = some c then 1 else 0
  subs_nodup : (s.chief_to_subs_.map Prod.snd).Nodup
  chain : ∀ x, ∃ n l, chief_chain s.sub_to_chief_ n x = some l

/-- The state `add_relation` builds on its accepting path (RelationManager.cpp:32-34). -/
def added (s : RelationManager) (id_chief id : uuid_t) : RelationManager :=
  { sub_to_chief_ := map_assign s.sub_to_chief_ id id_chief
    chief_to_subs_ := multimap_insert s.chief_to_subs_ id_chief id }

/-- The state `remove_relation` builds on its accepting path (RelationManager.cpp:54-70). -/
def removed (s : RelationManager) (id_chief id : uuid_t) : RelationManager :=
  { sub_to_chief_ := map_erase s.sub_to_chief_ id
    chief_to_subs_ := s.chief_to_subs_.erase (id_chief, id) }

/-- Linear scan of the primary map for the subordinates of `id`: the reading of
`get_direct_subordinates` in the spec's words ("all subordinates whose recorded
chief is `id`"). -/
def direct_subordinates_by_scan (s : RelationManager) (id : uuid_t) : List uuid_t :=
  (s.sub_to_chief_.filter (fun p => p.2 = id)).map Prod.fst

/-- A reachable state used to instantiate the statements below: the chain
1 -> 2 -> 3 -> 4 (chief first). -/
def chain_state : RelationManager :=
  ⟨[(2, 1), (3, 2), (4, 3)], [(1, 2), (2, 3), (3, 4)]⟩

/-- A reachable state used to instantiate the statements below: the tree
10 -> {11, 12}, 11 -> {13}, 12 -> {14, 15} (chief first). -/
def tree_state : RelationManager :=
  ⟨[(11, 10), (12, 10), (13, 11), (14, 12), (15, 12)],
   [(10, 11), (10, 12), (11, 13), (12, 14), (12, 15)]⟩

/-- The chief chain of `x` in state `s`, computed with the fuel of the cycle
walk; empty only when the chain does not end within that fuel. -/
def chain_of (s : RelationManager) (x : uuid_t) : List uuid_t :=
  (chief_chain s.sub_to_chief_ (cycle_fuel s) x).getD []

/-- Whether `t` is a strict ancestor of `x`: `t` occurs on the chief chain of
`x` after `x` itself. -/
def strict_ancestor (s : RelationManager) (t x : uuid_t) : Bool :=
  decide (t ∈ (chain_of s x).tail)

/-! ## Employees and SalaryCalculator

Amounts are `double` in the source; they are embedded as rationals, so every
statement about amounts is a statement in exact arithmetic. -/

/-- Employee categories (`enum class EmployeeType`, EmployeeDescr.h:15). -/
inductive EmployeeType where
  | WORKER
  | FOREMAN
  | MANAGER
deriving DecidableEq, Repr

/-- Calendar date (`boost::gregorian::date`), read through `year()`, `month()`
and `day()`. -/
structure date_t where
  year : Int
  month : Int
  day : Int
deriving DecidableEq, Repr

/-- Order of `boost::gregorian::date`: lexicographic on (year, month, day). -/
def date_lt (a b : date_t) : Bool :=
  decide (a.year < b.year ∨ (a.year = b.year ∧ (a.month < b.month ∨
    (a.month = b.month ∧ a.day < b.day))))

/-- The normalisation `date_t{d.year(), d.month(), 1}` (SalaryCalculator.cpp:47-48). -/
def normalized (d : date_t) : date_t := ⟨d.year, d.month, 1⟩

/-- An `Employee` object (Employee.h:54-59); `get_type()` of each subclass
returns the category stored in `type_`. -/
structure Employee where
  hire_date_ : date_t
  base_salary_ : ℚ
  type_ : EmployeeType
  id_ : uuid_t
deriving DecidableEq

/-- Lookup `employees_.find(id)` in `unordered_map<uuid, Employee*>`: `none` is
`end()`, `some none` a null pointer, `some (some e)` a pointer to `e`. -/
def store_find : List (uuid_t × Option Employee) → uuid_t → Option (Option Employee)
  | [], _ => none
  | (k, v) :: m, key => if k = key then some v else store_find m key

/-- State read by `SalaryCalculator` (SalaryCalculator.h:74-75). -/
structure SalaryCalculator where
  employees_ : List (uuid_t × Option Employee)
  relation_manager_ : RelationManager

/-- What a salary computation does: return a pair (amount, success flag), stop
at a failed `assert`, or not return. -/
inductive SalaryResult where
  | value (amount : ℚ) (ok : Bool)
  | assertion_failure
  | no_return
deriving DecidableEq

/-- The expression `12 * (date.year() - hire.year()) + (date.month() - hire.month())`
on the normalised dates (SalaryCalculator.cpp:55-56). -/
def months_diff (hire_date date : date_t) : Int :=
  12 * ((normalized date).year - (normalized hire_date).year) +
    ((normalized date).month - (normalized hire_date).month)

/-- The expression `months_diff / 12` in `int` arithmetic: division truncates
toward zero (SalaryCalculator.cpp:58). -/
def full_years (hire_date date : date_t) : Int :=
  Int.tdiv (months_diff hire_date date) 12

/-- Embedding of `SalaryCalculator::calculate_worker_salary`
(SalaryCalculator.cpp:41-63). -/
def calculate_worker_salary (p_obj : Employee) (date : date_t) : SalaryResult :=
  if date_lt (normalized date) (normalized p_obj.hire_date_) then .value 0 false
  else
    let bonus := min p_obj.base_salary_
      (1 / 10 * (full_years p_obj.hire_date_ date : ℚ) * p_obj.base_salary_)
    .value (p_obj.base_salary_ + bonus) true

/-- The summation loop shared by the foreman and manager rules
(SalaryCalculator.cpp:91-98 and 123-130): add up `salary_of` over the listed
subordinates, leaving at the first one whose flag is false. -/
def sum_subordinates (salary_of : uuid_t → SalaryResult) :
    List uuid_t → ℚ → SalaryResult
  | [], total => .value total true
  | subordinate_id :: rest, total =>
    match salary_of subordinate_id with
    | .value salary ok =>
      if ok then sum_subordinates salary_of rest (total + salary) else .value 0 false
    | .assertion_failure => .assertion_failure
    | .no_return => .no_return

/-- Embedding of `SalaryCalculator::calculate_foreman_salary`
(SalaryCalculator.cpp:66-103); `salary_of` is the recursive call of
`calculate_month_salary` at the same date. -/
def calculate_foreman_salary (relation_manager_ : RelationManager)
    (salary_of : uuid_t → SalaryResult) (p_obj : Employee) (date : date_t) : SalaryResult :=
  if date_lt (normalized date) (normalized p_obj.hire_date_) then .value 0 false
  else
    let bonus_years := min (p_obj.base_salary_ * (4 / 10))
      (5 / 100 * (full_years p_obj.hire_date_ date : ℚ) * p_obj.base_salary_)
    match sum_subordinates salary_of (get_direct_subordinates relation_manager_ p_obj.id_) 0 with
    | .value total ok =>
      if ok then .value (p_obj.base_salary_ + bonus_years + total * (7 / 100)) true
      else .value 0 false
    | .assertion_failure => .assertion_failure
    | .no_return => .no_return

/-- Embedding of `SalaryCalculator::calculate_manager_salary`
(SalaryCalculator.cpp:106-135). -/
def calculate_manager_salary (relation_manager_ : RelationManager)
    (salary_of : uuid_t → SalaryResult) (p_obj : Employee) (date : date_t) : SalaryResult :=
  if date_lt (normalized date) (normalized p_obj.hire_date_) then .value 0 false
  else
    match get_all_subordinates relation_manager_ p_obj.id_ with
    | none => .no_return
    | some all_subordinates =>
      match sum_subordinates salary_of all_subordinates 0 with
      | .value total ok =>
        if ok then .value (p_obj.base_salary_ + total * (3 / 100)) true
        else .value 0 false
      | .assertion_failure => .assertion_failure
      | .no_return => .no_return

/-- Embedding of `SalaryCalculator::calculate_month_salary`
(SalaryCalculator.cpp:14-38); one unit of fuel per level of recursion.  The
`default` branch of the `switch` has no counterpart: `EmployeeType` has three
values. -/
def calculate_month_salary (sc : SalaryCalculator) :
    Nat → uuid_t → date_t → SalaryResult
  | 0, _, _ => .no_return
  | fuel + 1, id, date =>
    match store_find sc.employees_ id with
    | none => .assertion_failure
    | some none => .assertion_failure
    | some (some p_employee) =>
      match p_employee.type_ with
      | .WORKER => calculate_worker_salary p_employee date
      | .FOREMAN =>
        calculate_foreman_salary sc.relation_manager_
          (fun subordinate_id => calculate_month_salary sc fuel subordinate_id date)
          p_employee date
      | .MANAGER =>
        calculate_manager_salary sc.relation_manager_
          (fun subordinate_id => calculate_month_salary sc fuel subordinate_id date)
          p_employee date

/-- A calculator over one WORKER, identifier 1, base pay 100000, hired 2026-01-01
(the `WORKER_DESCR` of test/main.cpp:24), and an empty graph. -/
def worker_calculator : SalaryCalculator :=
  ⟨[(1, some ⟨⟨2026, 1, 1⟩, 100000, .WORKER, 1⟩)], RelationManager.empty⟩

/-- Amount of a returned pair; 0 when the computation does not return a pair. -/
def SalaryResult.amount : SalaryResult → ℚ
  | .value amount _ => amount
  | _ => 0

/-- Whether the computation returned a pair whose success flag is true. -/
def SalaryResult.succeeded : SalaryResult → Bool
  | .value _ ok => ok
  | _ => false

/-- Depth of recursion granted to a salary computation started from outside:
one more than the number of recorded subordinate entries. -/
def salary_fuel (s : RelationManager) : Nat := s.sub_to_chief_.length + 1

/-- A call of `calculate_month_salary` from outside the recursion. -/
def month_salary (sc : SalaryCalculator) (id : uuid_t) (date : date_t) : SalaryResult :=
  calculate_month_salary sc (salary_fuel sc.relation_manager_) id date

/-- The store holds under `id` a record of category `type` with base pay
`base`, hired in month `hm` of year `hy`, whose own identifier is `id`. -/
def has_record (sc : SalaryCalculator) (id : uuid_t) (type : EmployeeType) (base : ℚ)
    (hy hm : Int) : Prop :=
  ∃ e, store_find sc.employees_ id = some (some e) ∧ e.type_ = type ∧
    e.base_salary_ = base ∧ e.hire_date_.year = hy ∧ e.hire_date_.month = hm ∧ e.id_ = id

/-- What the calculator assumes of the state it reads: the graph is a forest,
every record is stored under its own identifier, and every identifier
recorded as a subordinate has a record. -/
structure Consistent (sc : SalaryCalculator) : Prop where
  forest : Forest sc.relation_manager_
  keyed : ∀ k e, store_find sc.employees_ k = some (some e) → e.id_ = k
  stored : ∀ x, x ∈ sc.relation_manager_.chief_to_subs_.map Prod.snd →
    ∃ e, store_find sc.employees_ x = some (some e)

/-- Whether the query date is earlier than the hire date once both are
normalised: (year, month) compared lexicographically. -/
def earlier (date hire_date : date_t) : Prop :=
  date.year < hire_date.year ∨ (date.year = hire_date.year ∧ date.month < hire_date.month)

/-- The roster of test/main.cpp:354-387 with identifiers 1..4: FOREMAN 1 has the
direct subordinates FOREMAN 2, WORKER 3 and WORKER 4; foremen have base pay
200000, workers 100000, all hired 2026-01-01. -/
def foreman_calculator : SalaryCalculator :=
  ⟨[(1, some ⟨⟨2026, 1, 1⟩, 200000, .FOREMAN, 1⟩),
    (2, some ⟨⟨2026, 1, 1⟩, 200000, .FOREMAN, 2⟩),
    (3, some ⟨⟨2026, 1, 1⟩, 100000, .WORKER, 3⟩),
    (4, some ⟨⟨2026, 1, 1⟩, 100000, .WORKER, 4⟩)],
   ⟨[(2, 1), (3, 1), (4, 1)], [(1, 2), (1, 3), (1, 4)]⟩⟩

/-- The roster of test/main.cpp:426-471 with identifiers 1..6: MANAGER 1 (base pay
300000) has the direct subordinates FOREMAN 2, WORKER 3 and WORKER 4, and
FOREMAN 2 has the direct subordinates WORKER 5 and WORKER 6; all hired
2026-01-01. -/
def manager_calculator : SalaryCalculator :=
  ⟨[(1, some ⟨⟨2026, 1, 1⟩, 300000, .MANAGER, 1⟩),
    (2, some ⟨⟨2026, 1, 1⟩, 200000, .FOREMAN, 2⟩),
    (3, some ⟨⟨2026, 1, 1⟩, 100000, .WORKER, 3⟩),
    (4, some ⟨⟨2026, 1, 1⟩, 100000, .WORKER, 4⟩),
    (5, some ⟨⟨2026, 1, 1⟩, 100000, .WORKER, 5⟩),
    (6, some ⟨⟨2026, 1, 1⟩, 100000, .WORKER, 6⟩)],
   ⟨[(2, 1), (3, 1), (4, 1), (5, 2), (6, 2)], [(1, 2), (1, 3), (1, 4), (2, 5), (2, 6)]⟩⟩

/-- A FOREMAN 1 (base pay 200000) whose direct subordinates are the two WORKERs 2
and 3 (base pay 100000), all hired 2026-01-01. -/
def two_workers_calculator : SalaryCalculator :=
  ⟨[(1, some ⟨⟨2026, 1, 1⟩, 200000, .FOREMAN, 1⟩),
    (2, some ⟨⟨2026, 1, 1⟩, 100000, .WORKER, 2⟩),
    (3, some ⟨⟨2026, 1, 1⟩, 100000, .WORKER, 3⟩)],
   ⟨[(2, 1), (3, 1)], [(1, 2), (1, 3)]⟩⟩

/-- The record `e` with the day of its hire date replaced by `day e`. -/
def with_hire_day (day : Employee → Int) (e : Employee) : Employee :=
  { e with hire_date_ := ⟨e.hire_date_.year, e.hire_date_.month, day e⟩ }

/-- The store in which every record has the day of its hire date replaced. -/
def store_with_hire_days (day : Employee → Int) (store : List (uuid_t × Option Employee)) :
    List (uuid_t × Option Employee) :=
  store.map (fun p => (p.1, p.2.map (with_hire_day day)))

/-! ## EmployeeManager (the facade) -/

/-- Employee description (`struct EmployeeDescr`, EmployeeDescr.h:21-25). -/
structure EmployeeDescr where
  type : EmployeeType
  base_salary : ℚ
  hire_date : date_t

/-- Embedding of `Employee::create` (Employee.cpp:11-50): the object of the
subclass chosen by `description.type`; `generated` is the identifier the random
generator draws in the constructor.  The `default` branch returning a null
pointer has no counterpart: `EmployeeType` has three values. -/
def Employee.create (description : EmployeeDescr) (generated : uuid_t) : Employee :=
  ⟨description.hire_date, description.base_salary, description.type, generated⟩

/-- Assignment `employees[id] = employee` in `unordered_map<uuid, Employee*>`. -/
def store_assign : List (uuid_t × Option Employee) → uuid_t → Option Employee →
    List (uuid_t × Option Employee)
  | [], key, value => [(key, value)]
  | (k, v) :: m, key, value =>
    if k = key then (k, value) :: m else (k, v) :: store_assign m key value

/-- Erasure `employees.erase(it)` with `it = employees.find(key)`. -/
def store_erase : List (uuid_t × Option Employee) → uuid_t → List (uuid_t × Option Employee)
  | [], _ => []
  | (k, v) :: m, key => if k = key then m else (k, v) :: store_erase m key

/-- State of `EmployeeManager::PrivateData` (EmployeeManager.cpp:17-44); the
`salary_calculator` member holds references to the two other members. -/
structure EmployeeManager where
  employees : List (uuid_t × Option Employee)
  relation_manager : RelationManager

/-- A freshly constructed `EmployeeManager`. -/
def EmployeeManager.empty : EmployeeManager := ⟨[], RelationManager.empty⟩

/-- The `salary_calculator` member: a view of the two other members. -/
def EmployeeManager.salary_calculator (m : EmployeeManager) : SalaryCalculator :=
  ⟨m.employees, m.relation_manager⟩

/-- One entry of `find_employees_by_ids` (EmployeeManager.cpp:23-35): the stored
pointer, or a null pointer when the identifier is not a key. -/
def find_employee_by_id (m : EmployeeManager) (id : uuid_t) : Option Employee :=
  match store_find m.employees id with
  | some p => p
  | none => none

/-- Embedding of `EmployeeManager::add_employee` (EmployeeManager.cpp:58-70). -/
def add_employee (m : EmployeeManager) (description : EmployeeDescr) (generated : uuid_t) :
    (uuid_t × Bool) × EmployeeManager :=
  let employee := Employee.create description generated
  ((employee.id_, true),
    { m with employees := store_assign m.employees employee.id_ (some employee) })

/-- Embedding of `EmployeeManager::remove_employee` (EmployeeManager.cpp:73-86). -/
def remove_employee (m : EmployeeManager) (id : uuid_t) : Bool × EmployeeManager :=
  match store_find m.employees id with
  | none => (false, m)
  | some _ => (true, { m with employees := store_erase m.employees id })

/-- The test of `add_subordination` and `remove_subordination` on the two
looked-up records (EmployeeManager.cpp:118-121 and 137-140). -/
def rejected_pair (chief : uuid_t) (employees : List (Option Employee)) : Bool :=
  employees.any (fun emp =>
    match emp with
    | none => true
    | some e => decide (e.id_ = chief) && decide (e.type_ = EmployeeType.WORKER))

/-- Embedding of `EmployeeManager::add_subordination` (EmployeeManager.cpp:112-128);
`none` when `add_relation` does not return. -/
def add_subordination (m : EmployeeManager) (chief subordinate : uuid_t) :
    Option (Bool × EmployeeManager) :=
  if rejected_pair chief [find_employee_by_id m chief, find_employee_by_id m subordinate]
  then some (false, m)
  else
    (add_relation m.relation_manager chief subordinate).map
      (fun r => (r.1, { m with relation_manager := r.2 }))

/-- Embedding of `EmployeeManager::remove_subordination` (EmployeeManager.cpp:131-147). -/
def remove_subordination (m : EmployeeManager) (chief subordinate : uuid_t) :
    Bool × EmployeeManager :=
  if rejected_pair chief [find_employee_by_id m chief, find_employee_by_id m subordinate]
  then (false, m)
  else
    ((remove_relation m.relation_manager chief subordinate).1,
      { m with relation_manager := (remove_relation m.relation_manager chief subordinate).2 })

/-- Embedding of `EmployeeManager::calculate_employee_salary`
(EmployeeManager.cpp:204-222); `return {}` is the pair (0.0, false). -/
def calculate_employee_salary (m : EmployeeManager) (id : uuid_t) (date : date_t) :
    SalaryResult :=
  match find_employee_by_id m id with
  | none => .value 0 false
  | some _ => month_salary m.salary_calculator id date

/-- One call of a mutating operation of the facade; `generated` is the
identifier drawn for the new employee. -/
inductive FacadeOp where
  | add_employee (description : EmployeeDescr) (generated : uuid_t)
  | remove_employee (id : uuid_t)
  | add_subordination (chief subordinate : uuid_t)
  | remove_subordination (chief subordinate : uuid_t)

/-- State after one facade call, whatever it returns; `none` when the call
does not return. -/
def facade_apply (m : EmployeeManager) : FacadeOp → Option EmployeeManager
  | .add_employee description generated => some (add_employee m description generated).2
  | .remove_employee id => some (remove_employee m id).2
  | .add_subordination chief subordinate =>
    (add_subordination m chief subordinate).map Prod.snd
  | .remove_subordination chief subordinate =>
    some (remove_subordination m chief subordinate).2

/-- State after a sequence of facade calls, applied left to right. -/
def facade_run (m : EmployeeManager) : List FacadeOp → Option EmployeeManager
  | [] => some m
  | op :: ops =>
    match facade_apply m op with
    | none => none
    | some m1 => facade_run m1 ops

/-- The `FOREMAN_DESCR` of test/main.cpp:25. -/
def FOREMAN_DESCR : EmployeeDescr := ⟨.FOREMAN, 200000, ⟨2026, 1, 1⟩⟩

/-- Embedding of `EmployeeManager::get_chief` (EmployeeManager.cpp:150-165). -/
def EmployeeManager.get_chief (m : EmployeeManager) (id : uuid_t) : Option uuid_t :=
  match find_employee_by_id m id with
  | none => none
  | some _ => employee.get_chief m.relation_manager id

/-- Embedding of `EmployeeManager::get_direct_subordinates` (EmployeeManager.cpp:168-183). -/
def EmployeeManager.get_direct_subordinates (m : EmployeeManager) (id : uuid_t) :
    List uuid_t :=
  match find_employee_by_id m id with
  | none => []
  | some _ => employee.get_direct_subordinates m.relation_manager id

/-- Embedding of `EmployeeManager::get_all_subordinates` (EmployeeManager.cpp:186-201);
`none` when the traversal of the graph does not return. -/
def EmployeeManager.get_all_subordinates (m : EmployeeManager) (id : uuid_t) :
    Option (List uuid_t) :=
  match find_employee_by_id m id with
  | none => some []
  | some _ => employee.get_all_subordinates m.relation_manager id

/-- A facade state is reachable when some finite sequence of facade calls leads
to it from a freshly constructed `EmployeeManager`. -/
def FacadeReachable (m : EmployeeManager) : Prop :=
  ∃ ops, facade_run EmployeeManager.empty ops = some m

/-- The identifiers drawn by the `add_employee` calls of a sequence, in order. -/
def generated_ids : List FacadeOp → List uuid_t
  | [] => []
  | .add_employee _ generated :: ops => generated :: generated_ids ops
  | _ :: ops => generated_ids ops

/-- Reachable with unique identifiers: no two `add_employee` calls of the
sequence drew the same identifier. -/
def FacadeReachableUnique (m : EmployeeManager) : Prop :=
  ∃ ops, (generated_ids ops).Nodup ∧ facade_run EmployeeManager.empty ops = some m

/-- The facade state after registering foremen 1 and 2, recording 2 as
subordinate of 1 and removing employee 2. -/
def dangling_state : EmployeeManager :=
  ⟨[(1, some ⟨⟨2026, 1, 1⟩, 200000, .FOREMAN, 1⟩)], ⟨[(2, 1)], [(1, 2)]⟩⟩

/-- The facade state of test/main.cpp:120-130 with identifiers 1..4: foremen 1 and
2 with 2 subordinate to 1, and two workers 3 and 4. -/
def workers_state : EmployeeManager :=
  ⟨[(1, some ⟨⟨2026, 1, 1⟩, 200000, .FOREMAN, 1⟩),
    (2, some ⟨⟨2026, 1, 1⟩, 200000, .FOREMAN, 2⟩),
    (3, some ⟨⟨2026, 1, 1⟩, 200000, .WORKER, 3⟩),
    (4, some ⟨⟨2026, 1, 1⟩, 200000, .WORKER, 4⟩)],
   ⟨[(2, 1)], [(1, 2)]⟩⟩

/-- What every facade call keeps of the state: one store entry per identifier,
every record stored under its own identifier, and a forest graph. -/
structure FacadeInv (m : EmployeeManager) : Prop where
  keys_nodup : (m.employees.map Prod.fst).Nodup
  keyed : ∀ k e, store_find m.employees k = some (some e) → e.id_ = k
  forest : Forest m.relation_manager

/-- What facade calls with unique identifiers keep, `used` being the identifiers
drawn so far: every stored identifier was drawn, and every identifier recorded
as a chief was drawn and, while it is registered, is not a WORKER. -/
structure ChiefInv (m : EmployeeManager) (used : List uuid_t) : Prop where
  keys_used : ∀ k, k ∈ m.employees.map Prod.fst → k ∈ used
  chiefs : ∀ c x, (c, x) ∈ m.relation_manager.chief_to_subs_ →
    c ∈ used ∧ ∀ e, store_find m.employees c = some (some e) → e.type_ ≠ EmployeeType.WORKER

/-- Height of the subtree below `id`: the largest number of chief steps that
lead from a transitive descendant of `id` up to `id`; 0 without descendants. -/
def subtree_height (s : RelationManager) (id : uuid_t) : Nat :=
  (((get_all_subordinates s id).getD []).map
    (fun d => (chain_of s d).length - (chain_of s id).length)).foldr max 0

/-- The identifier reached from `x` by `n` calls of `get_chief`, each on the
result of the one before; `none` when an identifier on the way has no chief. -/
def chief_steps (s : RelationManager) : Nat → uuid_t → Option uuid_t
  | 0, x => some x
  | n + 1, x =>
    match get_chief s x with
    | none => none
    | some c => chief_steps s n c

/-- The roster and edges of `manager_calculator`, with the edges added in the
opposite order. -/
def manager_calculator_reordered : SalaryCalculator :=
  ⟨manager_calculator.employees_,
   ⟨[(6, 2), (5, 2), (4, 1), (3, 1), (2, 1)], [(2, 6), (2, 5), (1, 4), (1, 3), (1, 2)]⟩⟩

/-- A WORKER description with base pay 100000 and hire date 2027-01-01. -/
def LATE_WORKER_DESCR : EmployeeDescr := ⟨.WORKER, 100000, ⟨2027, 1, 1⟩⟩

/-- Facade calls that register FOREMAN 1, FOREMAN 2 and a WORKER 3 hired in 2027,
put 2 and then 3 under 1, and remove employee 2. -/
def history_two_then_three : List FacadeOp :=
  [.add_employee FOREMAN_DESCR 1, .add_employee FOREMAN_DESCR 2,
    .add_employee LATE_WORKER_DESCR 3, .add_subordination 1 2, .add_subordination 1 3,
    .remove_employee 2]

/-- The calls of `history_two_then_three` with the two `add_subordination`
calls in the opposite order. -/
def history_three_then_two : List FacadeOp :=
  [.add_employee FOREMAN_DESCR 1, .add_employee FOREMAN_DESCR 2,
    .add_employee LATE_WORKER_DESCR 3, .add_subordination 1 3, .add_subordination 1 2,
    .remove_employee 2]

/-- Every identifier recorded in the relation graph, as a subordinate or as a
chief, in either view. -/
def recorded_ids (s : RelationManager) : List uuid_t :=
  s.sub_to_chief_.map Prod.fst ++ s.sub_to_chief_.map Prod.snd ++
    s.chief_to_subs_.map Prod.fst ++ s.chief_to_subs_.map Prod.snd

/-- The month of a `boost::gregorian::date` lies in 1..12 (`greg_month`); the
embedding's `date_t` carries it as an unconstrained integer. -/
def valid_month (d : date_t) : Prop := 1 ≤ d.month ∧ d.month ≤ 12

/-- A calculator over a WORKER 1 and a FOREMAN 2, both with base pay -1000 and
hired 2026-01-01, and an empty graph. -/
def negative_pay_calculator : SalaryCalculator :=
  ⟨[(1, some ⟨⟨2026, 1, 1⟩, -1000, .WORKER, 1⟩),
    (2, some ⟨⟨2026, 1, 1⟩, -1000, .FOREMAN, 2⟩)], RelationManager.empty⟩

/-- The `WORKER_DESCR` of test/main.cpp:24. -/
def WORKER_DESCR : EmployeeDescr := ⟨.WORKER, 100000, ⟨2026, 1, 1⟩⟩

/-- The `MANAGER_DESCR` of test/main.cpp:26. -/
def MANAGER_DESCR : EmployeeDescr := ⟨.MANAGER, 300000, ⟨2026, 1, 1⟩⟩

/-- The MANAGER branch of a salary computation during which another thread
changes the graph: `get_all_subordinates` (SalaryCalculator.cpp:120-121) reads
the graph `at_read`, the recursive calls of the loop (SalaryCalculator.cpp:124-130)
read the graph `at_recursion`.  Every graph read takes and releases the mutex
of `RelationManager` on its own, and `add_relation` takes no other mutex, so
an `add_relation` of a second thread can run between the two.  With
`at_read = at_recursion` this is the branch as `calculate_month_salary` runs
it. -/
def calculate_manager_salary_across (employees : List (uuid_t × Option Employee))
    (at_read at_recursion : RelationManager) (fuel : Nat) (p_obj : Employee)
    (date : date_t) : SalaryResult :=
  calculate_manager_salary at_read
    (fun subordinate_id =>
      calculate_month_salary ⟨employees, at_recursion⟩ fuel subordinate_id date)
    p_obj date

/-- MANAGER 1, FOREMAN 2 and WORKER 3 of the test's descriptions, with 2
recorded as subordinate of 1. -/
def racing_before : EmployeeManager :=
  ⟨[(1, some ⟨⟨2026, 1, 1⟩, 300000, .MANAGER, 1⟩),
    (2, some ⟨⟨2026, 1, 1⟩, 200000, .FOREMAN, 2⟩),
    (3, some ⟨⟨2026, 1, 1⟩, 100000, .WORKER, 3⟩)],
   ⟨[(2, 1)], [(1, 2)]⟩⟩

/-- The state `racing_before` after `add_subordination(2, 3)`. -/
def racing_after : EmployeeManager :=
  ⟨racing_before.employees, ⟨[(2, 1), (3, 2)], [(1, 2), (2, 3)]⟩⟩

/-! # Facts and claims -/

/-! ## Container facts -/

theorem map_find_assign (m : List (uuid_t × uuid_t)) (key value x : uuid_t) :
    map_find (map_assign m key value) x = if key = x then some value else map_find m x := by
  induction m with
  | nil => simp [map_assign, map_find]
  | cons p m ih =>
    obtain ⟨k, v⟩ := p
    by_cases hk : k = key
    · subst hk
      by_cases hx : k = x <;> simp [map_assign, map_find, hx]
    · by_cases hx : k = x
      · subst hx
        simp [map_assign, map_find, hk, Ne.symm hk]
      · simp [map_assign, map_find, hk, hx, ih]

theorem map_find_none_iff (m : List (uuid_t × uuid_t)) (x : uuid_t) :
    map_find m x = none ↔ x ∉ m.map Prod.fst := by
  induction m with
  | nil => simp [map_find]
  | cons p m ih =>
    obtain ⟨k, v⟩ := p
    by_cases hk : k = x
    · simp [map_find, hk]
    · simp [map_find, hk, ih, Ne.symm hk]

theorem map_find_some_mem (m : List (uuid_t × uuid_t)) (x c : uuid_t)
    (h : map_find m x = some c) : (x, c) ∈ m := by
  induction m with
  | nil => simp [map_find] at h
  | cons p m ih =>
    obtain ⟨k, v⟩ := p
    by_cases hk : k = x
    · simp [map_find, hk] at h
      simp [hk, h]
    · simp [map_find, hk] at h
      simp [ih h]

theorem map_find_erase_ne (m : List (uuid_t × uuid_t)) (key x : uuid_t) (h : key ≠ x) :
    map_find (map_erase m key) x = map_find m x := by
  induction m with
  | nil => simp [map_erase]
  | cons p m ih =>
    obtain ⟨k, v⟩ := p
    by_cases hk : k = key
    · subst hk
      simp [map_erase, map_find, h]
    · by_cases hx : k = x
      · subst hx
        simp [map_erase, map_find, hk]
      · simp [map_erase, map_find, hk, hx, ih]

theorem map_erase_keys_sublist (m : List (uuid_t × uuid_t)) (key : uuid_t) :
    ((map_erase m key).map Prod.fst).Sublist (m.map Prod.fst) := by
  induction m with
  | nil => simp [map_erase]
  | cons p m ih =>
    obtain ⟨k, v⟩ := p
    by_cases hk : k = key
    · simp [map_erase, hk]
    · simp [map_erase, hk, ih]

theorem map_find_erase_self (m : List (uuid_t × uuid_t)) (key : uuid_t)
    (hnd : (m.map Prod.fst).Nodup) : map_find (map_erase m key) key = none := by
  induction m with
  | nil => simp [map_erase, map_find]
  | cons p m ih =>
    obtain ⟨k, v⟩ := p
    simp only [List.map_cons, List.nodup_cons] at hnd
    by_cases hk : k = key
    · subst hk
      simp only [map_erase, if_true]
      exact (map_find_none_iff m k).2 hnd.1
    · simp [map_erase, map_find, hk, ih hnd.2]

theorem map_find_erase (m : List (uuid_t × uuid_t)) (key x : uuid_t)
    (hnd : (m.map Prod.fst).Nodup) :
    map_find (map_erase m key) x = if key = x then none else map_find m x := by
  by_cases h : key = x
  · subst h
    simp [map_find_erase_self m key hnd]
  · simp [h, map_find_erase_ne m key x h]

theorem map_assign_keys_of_none (m : List (uuid_t × uuid_t)) (key value : uuid_t)
    (h : map_find m key = none) :
    (map_assign m key value).map Prod.fst = m.map Prod.fst ++ [key] := by
  induction m with
  | nil => simp [map_assign]
  | cons p m ih =>
    obtain ⟨k, v⟩ := p
    by_cases hk : k = key
    · simp [map_find, hk] at h
    · simp [map_find, hk] at h
      simp [map_assign, hk, ih h]

theorem map_assign_length_of_none (m : List (uuid_t × uuid_t)) (key value : uuid_t)
    (h : map_find m key = none) : (map_assign m key value).length = m.length + 1 := by
  have := congrArg List.length (map_assign_keys_of_none m key value h)
  simpa using this

theorem map_erase_length_of_some (m : List (uuid_t × uuid_t)) (key c : uuid_t)
    (h : map_find m key = some c) : (map_erase m key).length + 1 = m.length := by
  induction m with
  | nil => simp [map_find] at h
  | cons p m ih =>
    obtain ⟨k, v⟩ := p
    by_cases hk : k = key
    · simp [map_erase, hk]
    · simp [map_find, hk] at h
      simp [map_erase, hk, ih h]

theorem multimap_erase_pair_eq (m : List (uuid_t × uuid_t)) (key value : uuid_t) :
    multimap_erase_pair m key value =
      if (key, value) ∈ m then some (m.erase (key, value)) else none := by
  induction m with
  | nil => simp [multimap_erase_pair]
  | cons p m ih =>
    obtain ⟨k, v⟩ := p
    by_cases hkv : k = key ∧ v = value
    · obtain ⟨rfl, rfl⟩ := hkv
      simp [multimap_erase_pair]
    · have hne : (k, v) ≠ (key, value) := by
        intro h
        exact hkv ⟨congrArg Prod.fst h, congrArg Prod.snd h⟩
      have hne2 : (key, value) ≠ (k, v) := Ne.symm hne
      simp only [multimap_erase_pair, hkv, if_false, ih, List.mem_cons, hne2, false_or]
      by_cases hm : (key, value) ∈ m
      · simp [hm, List.erase_cons_tail, hne]
      · simp [hm]

theorem multimap_contains_iff (m : List (uuid_t × uuid_t)) (key : uuid_t) :
    multimap_contains m key = true ↔ equal_range m key ≠ [] := by
  induction m with
  | nil => simp [multimap_contains, equal_range]
  | cons p m ih =>
    obtain ⟨k, v⟩ := p
    by_cases hk : k = key
    · simp [multimap_contains, equal_range, hk]
    · simp [multimap_contains, equal_range, hk, ih]

theorem count_equal_range (m : List (uuid_t × uuid_t)) (key x : uuid_t) :
    (equal_range m key).count x = m.count (key, x) := by
  induction m with
  | nil => simp [equal_range]
  | cons p m ih =>
    obtain ⟨k, v⟩ := p
    by_cases hk : k = key
    · subst hk
      by_cases hv : v = x
      · subst hv
        simp [equal_range, ih]
      · have : (k, v) ≠ (k, x) := fun h => hv (congrArg Prod.snd h)
        simp [equal_range, ih, List.count_cons, hv, this]
    · have : (k, v) ≠ (key, x) := fun h => hk (congrArg Prod.fst h)
      simp [equal_range, hk, ih, List.count_cons, this]

theorem get_direct_subordinates_eq (s : RelationManager) (id : uuid_t) :
    get_direct_subordinates s id = equal_range s.chief_to_subs_ id := by
  unfold get_direct_subordinates
  by_cases h : multimap_contains s.chief_to_subs_ id = true
  · simp [h]
  · have h2 : equal_range s.chief_to_subs_ id = [] := by
      by_contra hne
      exact h ((multimap_contains_iff _ _).2 hne)
    simp [h, h2]

theorem equal_range_append (m m2 : List (uuid_t × uuid_t)) (key : uuid_t) :
    equal_range (m ++ m2) key = equal_range m key ++ equal_range m2 key := by
  induction m with
  | nil => simp [equal_range]
  | cons p m ih =>
    obtain ⟨k, v⟩ := p
    by_cases hk : k = key <;> simp [equal_range, hk, ih]

theorem mem_equal_range (m : List (uuid_t × uuid_t)) (key x : uuid_t) :
    x ∈ equal_range m key ↔ (key, x) ∈ m := by
  rw [← List.count_pos_iff, count_equal_range, List.count_pos_iff]

theorem equal_range_erase (m : List (uuid_t × uuid_t)) (key value c : uuid_t) :
    equal_range (m.erase (key, value)) c =
      if key = c then (equal_range m c).erase value else equal_range m c := by
  induction m with
  | nil => simp [equal_range]
  | cons p m ih =>
    obtain ⟨k, v⟩ := p
    by_cases hkv : k = key ∧ v = value
    · obtain ⟨rfl, rfl⟩ := hkv
      by_cases hc : k = c <;> simp [equal_range, hc]
    · have hne : (k, v) ≠ (key, value) := fun e =>
        hkv ⟨congrArg Prod.fst e, congrArg Prod.snd e⟩
      rw [List.erase_cons_tail (by simpa using hne)]
      by_cases hk : k = c
      · subst hk
        by_cases hkey : key = k
        · subst hkey
          have hv : v ≠ value := fun e => hkv ⟨rfl, e⟩
          simp only [equal_range, if_true, ih]
          rw [List.erase_cons_tail (by simpa using hv)]
        · simp [equal_range, ih, hkey]
      · simp only [equal_range, hk, if_false, ih]

theorem count_scan (m : List (uuid_t × uuid_t)) (hnd : (m.map Prod.fst).Nodup)
    (id x : uuid_t) :
    ((m.filter (fun p => p.2 = id)).map Prod.fst).count x =
      if map_find m x = some id then 1 else 0 := by
  induction m with
  | nil => simp [map_find]
  | cons p m ih =>
    obtain ⟨k, v⟩ := p
    simp only [List.map_cons, List.nodup_cons] at hnd
    by_cases hk : k = x
    · subst hk
      have h0 : ((m.filter (fun p => p.2 = id)).map Prod.fst).count k = 0 := by
        rw [ih hnd.2, (map_find_none_iff m k).2 hnd.1]
        simp
      by_cases hv : v = id
      · simp [List.filter_cons, hv, map_find, h0]
      · simp [List.filter_cons, hv, map_find, h0]
    · by_cases hv : v = id
      · simp [List.filter_cons, hv, map_find, hk, List.count_cons, ih hnd.2]
      · simp [List.filter_cons, hv, map_find, hk, ih hnd.2]

/-! ## Chief chains -/

theorem chief_chain_mono (m : List (uuid_t × uuid_t)) :
    ∀ (n n2 : Nat) (x : uuid_t) (l : List uuid_t),
      chief_chain m n x = some l → n ≤ n2 → chief_chain m n2 x = some l := by
  intro n
  induction n with
  | zero => intro n2 x l h; simp [chief_chain] at h
  | succ n ih =>
    intro n2 x l h hle
    obtain ⟨k, rfl⟩ : ∃ k, n2 = k + 1 := ⟨n2 - 1, by omega⟩
    simp only [chief_chain] at h ⊢
    cases hf : map_find m x with
    | none => simpa [hf] using h
    | some c =>
      simp only [hf, Option.map_eq_some'] at h ⊢
      obtain ⟨l1, h1, rfl⟩ := h
      exact ⟨l1, ih k c l1 h1 (by omega), rfl⟩

theorem chief_chain_det (m : List (uuid_t × uuid_t)) (n n2 : Nat) (x : uuid_t)
    (l l2 : List uuid_t) (h : chief_chain m n x = some l)
    (h2 : chief_chain m n2 x = some l2) : l = l2 := by
  have a := chief_chain_mono m n (max n n2) x l h (le_max_left _ _)
  have b := chief_chain_mono m n2 (max n n2) x l2 h2 (le_max_right _ _)
  rw [a] at b
  exact Option.some.inj b

theorem chief_chain_head (m : List (uuid_t × uuid_t)) (n : Nat) (x : uuid_t)
    (l : List uuid_t) (h : chief_chain m n x = some l) : ∃ t, l = x :: t := by
  cases n with
  | zero => simp [chief_chain] at h
  | succ n =>
    simp only [chief_chain] at h
    cases hf : map_find m x with
    | none =>
      simp [hf] at h
      exact ⟨[], h.symm⟩
    | some c =>
      simp only [hf, Option.map_eq_some'] at h
      obtain ⟨l1, _, rfl⟩ := h
      exact ⟨l1, rfl⟩

/-- Every identifier met on a chain has its own chain, a final segment of it. -/
theorem chief_chain_suffix (m : List (uuid_t × uuid_t)) :
    ∀ (n : Nat) (x : uuid_t) (l : List uuid_t), chief_chain m n x = some l →
      ∀ y ∈ l, ∃ l2, chief_chain m n y = some l2 ∧ l2 <:+ l := by
  intro n
  induction n with
  | zero => intro x l h; simp [chief_chain] at h
  | succ n ih =>
    intro x l h y hy
    have h0 := h
    simp only [chief_chain] at h
    cases hf : map_find m x with
    | none =>
      simp [hf] at h
      subst h
      simp at hy
      subst hy
      exact ⟨[y], h0, List.suffix_refl _⟩
    | some c =>
      simp only [hf, Option.map_eq_some'] at h
      obtain ⟨l1, h1, rfl⟩ := h
      rcases List.mem_cons.1 hy with rfl | hy1
      · exact ⟨y :: l1, h0, List.suffix_refl _⟩
      · obtain ⟨l2, h2, hs⟩ := ih c l1 h1 y hy1
        exact ⟨l2, chief_chain_mono m n (n + 1) y l2 h2 (by omega),
          hs.trans (List.suffix_cons _ _)⟩

theorem chief_chain_nodup (m : List (uuid_t × uuid_t)) :
    ∀ (n : Nat) (x : uuid_t) (l : List uuid_t), chief_chain m n x = some l → l.Nodup := by
  intro n
  induction n with
  | zero => intro x l h; simp [chief_chain] at h
  | succ n ih =>
    intro x l h
    have h0 := h
    simp only [chief_chain] at h
    cases hf : map_find m x with
    | none =>
      simp [hf] at h
      subst h
      simp
    | some c =>
      simp only [hf, Option.map_eq_some'] at h
      obtain ⟨l1, h1, rfl⟩ := h
      refine List.nodup_cons.2 ⟨?_, ih c l1 h1⟩
      intro hx
      obtain ⟨l2, h2, hs⟩ := chief_chain_suffix m n c l1 h1 x hx
      have := chief_chain_det m _ _ x _ _ h0 h2
      subst this
      have := hs.length_le
      simp at this

/-- Every identifier of a chain but the last is a key of the map, and the last is not. -/
theorem chief_chain_keys (m : List (uuid_t × uuid_t)) :
    ∀ (n : Nat) (x : uuid_t) (l : List uuid_t), chief_chain m n x = some l →
      ∃ (init : List uuid_t) (r : uuid_t), l = init ++ [r] ∧ map_find m r = none ∧
        ∀ y ∈ init, y ∈ m.map Prod.fst := by
  intro n
  induction n with
  | zero => intro x l h; simp [chief_chain] at h
  | succ n ih =>
    intro x l h
    simp only [chief_chain] at h
    cases hf : map_find m x with
    | none =>
      simp [hf] at h
      subst h
      exact ⟨[], x, rfl, hf, by simp⟩
    | some c =>
      simp only [hf, Option.map_eq_some'] at h
      obtain ⟨l1, h1, rfl⟩ := h
      obtain ⟨init, r, rfl, hr, hk⟩ := ih c l1 h1
      refine ⟨x :: init, r, rfl, hr, ?_⟩
      intro y hy
      rcases List.mem_cons.1 hy with rfl | hy1
      · by_contra hn
        have := (map_find_none_iff m y).2 hn
        rw [hf] at this
        exact Option.noConfusion this
      · exact hk y hy1

/-- A chain visits at most one identifier more than there are recorded entries. -/
theorem chief_chain_length_le (m : List (uuid_t × uuid_t)) (n : Nat) (x : uuid_t)
    (l : List uuid_t) (h : chief_chain m n x = some l) : l.length ≤ m.length + 1 := by
  obtain ⟨init, r, rfl, _, hk⟩ := chief_chain_keys m n x l h
  have hnd : init.Nodup := by
    have := chief_chain_nodup m n x _ h
    exact (List.nodup_append.1 this).1
  have hsub : init ⊆ m.map Prod.fst := fun y hy => hk y hy
  have := (List.subperm_of_subset hnd hsub).length_le
  simp at this ⊢
  exact this

/-- The fuel a chain needs is its length. -/
theorem chief_chain_fuel (m : List (uuid_t × uuid_t)) :
    ∀ (n : Nat) (x : uuid_t) (l : List uuid_t), chief_chain m n x = some l →
      chief_chain m l.length x = some l := by
  intro n
  induction n with
  | zero => intro x l h; simp [chief_chain] at h
  | succ n ih =>
    intro x l h
    simp only [chief_chain] at h
    cases hf : map_find m x with
    | none =>
      simp [hf] at h
      subst h
      simp [chief_chain, hf]
    | some c =>
      simp only [hf, Option.map_eq_some'] at h
      obtain ⟨l1, h1, rfl⟩ := h
      simp [chief_chain, hf, ih c l1 h1]

/-- The cycle walk answers whether `id` lies on the chain of `current`. -/
theorem has_hierarchical_cycle_loop_eq (m : List (uuid_t × uuid_t)) (id : uuid_t) :
    ∀ (n : Nat) (x : uuid_t) (l : List uuid_t), chief_chain m n x = some l →
      has_hierarchical_cycle_loop m id n x = some (decide (id ∈ l)) := by
  intro n
  induction n with
  | zero => intro x l h; simp [chief_chain] at h
  | succ n ih =>
    intro x l h
    simp only [chief_chain] at h
    cases hf : map_find m x with
    | none =>
      simp [hf] at h
      subst h
      by_cases hx : x = id
      · simp [has_hierarchical_cycle_loop, hx]
      · simp [has_hierarchical_cycle_loop, hx, hf, Ne.symm hx]
    | some c =>
      simp only [hf, Option.map_eq_some'] at h
      obtain ⟨l1, h1, rfl⟩ := h
      by_cases hx : x = id
      · simp [has_hierarchical_cycle_loop, hx]
      · simp [has_hierarchical_cycle_loop, hx, hf, ih c l1 h1, Ne.symm hx]

/-! ## The forest invariant -/

theorem forest_empty : Forest RelationManager.empty where
  keys_nodup := by simp [RelationManager.empty]
  view := by intro c x; simp [RelationManager.empty, map_find]
  subs_nodup := by simp [RelationManager.empty]
  chain := by intro x; exact ⟨1, [x], by simp [RelationManager.empty, chief_chain, map_find]⟩

/-- In a forest the chain of every identifier fits in the fuel of the cycle walk. -/
theorem forest_chain_fuel (s : RelationManager) (hs : Forest s) (x : uuid_t) :
    ∃ l, chief_chain s.sub_to_chief_ (cycle_fuel s) x = some l := by
  obtain ⟨n, l, h⟩ := hs.chain x
  refine ⟨l, chief_chain_mono _ _ _ x l (chief_chain_fuel _ n x l h) ?_⟩
  exact chief_chain_length_le _ n x l h

theorem chain_after_assign_avoid (m : List (uuid_t × uuid_t)) (id c : uuid_t) :
    ∀ (n : Nat) (y : uuid_t) (l : List uuid_t), chief_chain m n y = some l → id ∉ l →
      chief_chain (map_assign m id c) n y = some l := by
  intro n
  induction n with
  | zero => intro y l h; simp [chief_chain] at h
  | succ n ih =>
    intro y l h hid
    simp only [chief_chain] at h ⊢
    rw [map_find_assign]
    cases hf : map_find m y with
    | none =>
      simp [hf] at h
      subst h
      have : id ≠ y := by simpa using hid
      simp [this]
    | some d =>
      simp only [hf, Option.map_eq_some'] at h
      obtain ⟨l1, h1, rfl⟩ := h
      have hne : id ≠ y := fun e => hid (by simp [e])
      have hid1 : id ∉ l1 := fun e => hid (List.mem_cons_of_mem _ e)
      simp [hne, ih d l1 h1 hid1]

theorem chain_after_assign (m : List (uuid_t × uuid_t)) (id c : uuid_t)
    (n0 : Nat) (l0 : List uuid_t)
    (hc : chief_chain m n0 c = some l0) (hid : id ∉ l0) :
    ∀ (n : Nat) (y : uuid_t) (l : List uuid_t), chief_chain m n y = some l →
      ∃ n2 l2, chief_chain (map_assign m id c) n2 y = some l2 := by
  intro n
  induction n with
  | zero => intro y l h; simp [chief_chain] at h
  | succ n ih =>
    intro y l h
    simp only [chief_chain] at h
    by_cases hy : id = y
    · subst hy
      refine ⟨n0 + 1, id :: l0, ?_⟩
      simp [chief_chain, map_find_assign, chain_after_assign_avoid m id c n0 c l0 hc hid]
    · cases hf : map_find m y with
      | none =>
        exact ⟨1, [y], by simp [chief_chain, map_find_assign, hy, hf]⟩
      | some d =>
        simp only [hf, Option.map_eq_some'] at h
        obtain ⟨l1, h1, rfl⟩ := h
        obtain ⟨n2, l2, h2⟩ := ih d l1 h1
        exact ⟨n2 + 1, y :: l2, by simp [chief_chain, map_find_assign, hy, hf, h2]⟩

theorem chain_after_erase (m : List (uuid_t × uuid_t)) (id : uuid_t)
    (hnd : (m.map Prod.fst).Nodup) :
    ∀ (n : Nat) (y : uuid_t) (l : List uuid_t), chief_chain m n y = some l →
      ∃ l2, chief_chain (map_erase m id) n y = some l2 := by
  intro n
  induction n with
  | zero => intro y l h; simp [chief_chain] at h
  | succ n ih =>
    intro y l h
    simp only [chief_chain] at h
    by_cases hy : id = y
    · subst hy
      exact ⟨[id], by simp [chief_chain, map_find_erase_self m id hnd]⟩
    · cases hf : map_find m y with
      | none =>
        exact ⟨[y], by simp [chief_chain, map_find_erase m id y hnd, hy, hf]⟩
      | some d =>
        simp only [hf, Option.map_eq_some'] at h
        obtain ⟨l1, h1, rfl⟩ := h
        obtain ⟨l2, h2⟩ := ih d l1 h1
        exact ⟨y :: l2, by simp [chief_chain, map_find_erase m id y hnd, hy, hf, h2]⟩

/-- In a forest `add_relation` returns, and its flag is decided by the three tests. -/
theorem add_relation_forest (s : RelationManager) (hs : Forest s) (id_chief id : uuid_t) :
    ∃ l, chief_chain s.sub_to_chief_ (cycle_fuel s) id_chief = some l ∧
      add_relation s id_chief id =
        if id_chief ≠ id ∧ map_find s.sub_to_chief_ id = none ∧ id ∉ l
        then some (true, added s id_chief id) else some (false, s) := by
  obtain ⟨l, hl⟩ := forest_chain_fuel s hs id_chief
  refine ⟨l, hl, ?_⟩
  have hcyc := has_hierarchical_cycle_loop_eq s.sub_to_chief_ id _ _ _ hl
  unfold add_relation
  by_cases h1 : id_chief = id
  · simp [h1]
  · cases hf : map_find s.sub_to_chief_ id with
    | some d => simp [h1]
    | none =>
      by_cases h3 : id ∈ l
      · simp [h1, has_hierarchical_cycle, hcyc, h3]
      · simp [h1, has_hierarchical_cycle, hcyc, h3, added]

theorem forest_added (s : RelationManager) (hs : Forest s) (id_chief id : uuid_t)
    (l : List uuid_t) (hl : chief_chain s.sub_to_chief_ (cycle_fuel s) id_chief = some l)
    (hnone : map_find s.sub_to_chief_ id = none) (hid : id ∉ l) :
    Forest (added s id_chief id) where
  keys_nodup := by
    simp only [added]
    rw [map_assign_keys_of_none _ _ _ hnone]
    refine List.Nodup.append hs.keys_nodup (by simp) ?_
    intro a ha hb
    simp at hb
    subst hb
    exact (map_find_none_iff _ _).1 hnone ha
  view := by
    intro c x
    simp only [added, multimap_insert, List.count_append, map_find_assign, hs.view c x]
    by_cases hx : id = x
    · subst hx
      by_cases hc : id_chief = c
      · subst hc
        simp [hnone]
      · have : (id_chief, id) ≠ (c, id) := fun e => hc (congrArg Prod.fst e)
        simp [hnone, hc, List.count_cons, this]
    · have : (id_chief, id) ≠ (c, x) := fun e => hx (congrArg Prod.snd e)
      simp [hx, List.count_cons, this]
  subs_nodup := by
    simp only [added, multimap_insert, List.map_append, List.map_cons, List.map_nil]
    refine List.Nodup.append hs.subs_nodup (by simp) ?_
    intro a ha hb
    simp at hb
    subst hb
    obtain ⟨⟨c1, x1⟩, hmem, hx1⟩ := List.mem_map.1 ha
    simp only at hx1
    subst hx1
    have hpos : 0 < s.chief_to_subs_.count (c1, x1) := List.count_pos_iff.2 hmem
    rw [hs.view c1 x1, hnone] at hpos
    simp at hpos
  chain := by
    intro x
    obtain ⟨n, lx, hx⟩ := hs.chain x
    exact chain_after_assign _ id id_chief _ l hl hid n x lx hx

theorem forest_removed (s : RelationManager) (hs : Forest s) (id_chief id : uuid_t)
    (hf : map_find s.sub_to_chief_ id = some id_chief) :
    Forest (removed s id_chief id) where
  keys_nodup := (map_erase_keys_sublist _ _).nodup hs.keys_nodup
  view := by
    intro c x
    simp only [removed, List.count_erase, map_find_erase _ id x hs.keys_nodup, hs.view c x]
    by_cases hx : id = x
    · subst hx
      by_cases hc : id_chief = c
      · subst hc
        simp [hf]
      · have : (c, id) ≠ (id_chief, id) := fun e => hc (congrArg Prod.fst e).symm
        simp [hf, hc, this]
    · have : (c, x) ≠ (id_chief, id) := fun e => hx (congrArg Prod.snd e).symm
      simp [hx, this]
  subs_nodup := ((List.erase_sublist _ _).map Prod.snd).nodup hs.subs_nodup
  chain := by
    intro x
    obtain ⟨n, lx, hx⟩ := hs.chain x
    obtain ⟨l2, h2⟩ := chain_after_erase _ id hs.keys_nodup n x lx hx
    exact ⟨n, l2, h2⟩

/-- In a forest the flag of `remove_relation` is decided by its first two tests:
the scan of the inverse view always finds the pair. -/
theorem remove_relation_forest (s : RelationManager) (hs : Forest s) (id_chief id : uuid_t) :
    remove_relation s id_chief id =
      if id_chief ≠ id ∧ map_find s.sub_to_chief_ id = some id_chief
      then (true, removed s id_chief id) else (false, s) := by
  unfold remove_relation
  by_cases h1 : id_chief = id
  · simp [h1]
  · cases hf : map_find s.sub_to_chief_ id with
    | none => simp [h1]
    | some d =>
      by_cases hd : d = id_chief
      · subst hd
        have hmem : (d, id) ∈ s.chief_to_subs_ := by
          have := hs.view d id
          rw [hf] at this
          simp at this
          exact List.count_pos_iff.1 (by omega)
        simp [h1, multimap_erase_pair_eq, hmem, removed]
      · simp [h1, hd, Ne.symm hd]

/-- An accepted `add_relation` passed the first two tests and built `added`. -/
theorem add_relation_true (s s2 : RelationManager) (id_chief id : uuid_t)
    (h : add_relation s id_chief id = some (true, s2)) :
    id_chief ≠ id ∧ map_find s.sub_to_chief_ id = none ∧ s2 = added s id_chief id := by
  unfold add_relation at h
  split_ifs at h with h1
  · simp at h
  · split at h
    · simp at h
    · rename_i hnone
      split at h
      · simp at h
      · simp at h
      · simp at h
        exact ⟨h1, hnone, by simp [added, ← h]⟩

/-- An accepted `remove_relation` passed its tests, found the pair and built `removed`. -/
theorem remove_relation_true (s s2 : RelationManager) (id_chief id : uuid_t)
    (h : remove_relation s id_chief id = (true, s2)) :
    id_chief ≠ id ∧ map_find s.sub_to_chief_ id = some id_chief ∧
      (id_chief, id) ∈ s.chief_to_subs_ ∧ s2 = removed s id_chief id := by
  unfold remove_relation at h
  split_ifs at h with h1
  · simp at h
  · split at h
    · simp at h
    · rename_i c hsome
      split_ifs at h with h2
      · simp at h
      · have hc : c = id_chief := by simpa using h2
        subst hc
        rw [multimap_erase_pair_eq] at h
        by_cases hmem : (c, id) ∈ s.chief_to_subs_
        · simp [hmem] at h
          exact ⟨h1, hsome, hmem, by simp [removed, ← h]⟩
        · simp [hmem] at h

theorem forest_add_relation (s : RelationManager) (hs : Forest s) (id_chief id : uuid_t) :
    ∃ b s2, add_relation s id_chief id = some (b, s2) ∧ Forest s2 := by
  obtain ⟨l, hl, hadd⟩ := add_relation_forest s hs id_chief id
  by_cases h : id_chief ≠ id ∧ map_find s.sub_to_chief_ id = none ∧ id ∉ l
  · rw [if_pos h] at hadd
    exact ⟨true, _, hadd, forest_added s hs id_chief id l hl h.2.1 h.2.2⟩
  · rw [if_neg h] at hadd
    exact ⟨false, s, hadd, hs⟩

theorem forest_remove_relation (s : RelationManager) (hs : Forest s) (id_chief id : uuid_t) :
    Forest (remove_relation s id_chief id).2 := by
  rw [remove_relation_forest s hs]
  by_cases h : id_chief ≠ id ∧ map_find s.sub_to_chief_ id = some id_chief
  · rw [if_pos h]
    exact forest_removed s hs id_chief id h.2
  · rw [if_neg h]
    exact hs

theorem forest_apply_op (s : RelationManager) (hs : Forest s) (op : Op) :
    ∃ s2, apply_op s op = some s2 ∧ Forest s2 := by
  cases op with
  | add c i =>
    obtain ⟨b, s2, h, hf⟩ := forest_add_relation s hs c i
    exact ⟨s2, by simp [apply_op, h], hf⟩
  | remove c i =>
    exact ⟨_, rfl, forest_remove_relation s hs c i⟩

theorem forest_run_ops (ops : List Op) :
    ∀ s, Forest s → ∃ s2, run_ops s ops = some s2 ∧ Forest s2 := by
  induction ops with
  | nil => intro s hs; exact ⟨s, rfl, hs⟩
  | cons op ops ih =>
    intro s hs
    obtain ⟨s1, h1, hf1⟩ := forest_apply_op s hs op
    obtain ⟨s2, h2, hf2⟩ := ih s1 hf1
    exact ⟨s2, by simp [run_ops, h1, h2], hf2⟩

theorem reachable_forest (s : RelationManager) (h : Reachable s) : Forest s := by
  obtain ⟨ops, hops⟩ := h
  obtain ⟨s2, h2, hf⟩ := forest_run_ops ops _ forest_empty
  rw [hops] at h2
  cases h2
  exact hf

theorem chain_state_reachable : Reachable chain_state :=
  ⟨[.add 1 2, .add 2 3, .add 3 4], by decide⟩

theorem tree_state_reachable : Reachable tree_state :=
  ⟨[.add 10 11, .add 10 12, .add 11 13, .add 12 14, .add 12 15], by decide⟩

/-! ## Descendant traversal -/

theorem countP_or_disjoint (l : List uuid_t) (p q : uuid_t → Bool)
    (h : ∀ a ∈ l, ¬(p a = true ∧ q a = true)) :
    l.countP (fun a => p a || q a) = l.countP p + l.countP q := by
  induction l with
  | nil => simp
  | cons a l ih =>
    have hl : ∀ b ∈ l, ¬(p b = true ∧ q b = true) := fun b hb =>
      h b (List.mem_cons_of_mem _ hb)
    have ha := h a (List.mem_cons_self _ _)
    simp only [List.countP_cons, ih hl]
    cases hp : p a <;> cases hq : q a <;> simp_all <;> omega

theorem count_eq_countP (l : List uuid_t) (x : uuid_t) :
    l.count x = l.countP (fun c => decide (c = x)) := by
  induction l with
  | nil => rfl
  | cons a l ih =>
    by_cases h : a = x <;> simp [List.count_cons, List.countP_cons, h, ih]

theorem forest_children_count (s : RelationManager) (hs : Forest s) (t x : uuid_t) :
    (equal_range s.chief_to_subs_ t).count x =
      if map_find s.sub_to_chief_ x = some t then 1 else 0 := by
  rw [count_equal_range, hs.view t x]

/-- Of the direct subordinates of `t`, exactly one lies on a chief chain that
passes through `t` above its start, and none lies on any other chain. -/
theorem children_on_chain (s : RelationManager) (hs : Forest s) (t : uuid_t) :
    ∀ (n : Nat) (x : uuid_t) (l : List uuid_t),
      chief_chain s.sub_to_chief_ n x = some l →
      (equal_range s.chief_to_subs_ t).countP (fun c => decide (c ∈ l)) =
        if t ∈ l.tail then 1 else 0 := by
  intro n
  induction n with
  | zero => intro x l h; simp [chief_chain] at h
  | succ n ih =>
    intro x l h
    have hnd := chief_chain_nodup _ _ x l h
    simp only [chief_chain] at h
    cases hf : map_find s.sub_to_chief_ x with
    | none =>
      simp [hf] at h
      subst h
      have hc := forest_children_count s hs t x
      rw [hf, count_eq_countP] at hc
      simp only [List.mem_singleton, List.tail_cons, List.not_mem_nil, if_false]
      rw [hc]
      simp
    | some p =>
      simp only [hf, Option.map_eq_some'] at h
      obtain ⟨l1, h1, rfl⟩ := h
      obtain ⟨l2, rfl⟩ := chief_chain_head _ _ p l1 h1
      have hx : x ∉ p :: l2 := (List.nodup_cons.1 hnd).1
      have hp : p ∉ l2 := (List.nodup_cons.1 (List.nodup_cons.1 hnd).2).1
      have hsplit : (equal_range s.chief_to_subs_ t).countP
          (fun c => decide (c ∈ x :: p :: l2)) =
          (equal_range s.chief_to_subs_ t).countP (fun c => decide (c = x)) +
          (equal_range s.chief_to_subs_ t).countP (fun c => decide (c ∈ p :: l2)) := by
        rw [← countP_or_disjoint]
        · congr 1
          funext c
          simp
        · intro a _ hboth
          have e1 : a = x := by simpa using hboth.1
          have e2 : a ∈ p :: l2 := by simpa using hboth.2
          exact hx (e1 ▸ e2)
      have hc := forest_children_count s hs t x
      rw [hf, count_eq_countP] at hc
      rw [hsplit, hc, ih p (p :: l2) h1]
      simp only [List.tail_cons, List.mem_cons]
      by_cases htp : t = p
      · subst htp
        simp [hp]
      · have : ¬ p = t := fun e => htp e.symm
        simp [htp, this]

theorem chain_of_eq (s : RelationManager) (hs : Forest s) (x : uuid_t) :
    chief_chain s.sub_to_chief_ (cycle_fuel s) x = some (chain_of s x) := by
  obtain ⟨l, hl⟩ := forest_chain_fuel s hs x
  simp [chain_of, hl]

/-- The recurrence behind the traversal: `t` is a strict ancestor of `x` exactly
when `x` is a direct subordinate of `t` or exactly one direct subordinate of
`t` is a strict ancestor of `x`; the two cases exclude each other. -/
theorem strict_ancestor_step (s : RelationManager) (hs : Forest s) (t x : uuid_t) :
    (if strict_ancestor s t x = true then 1 else 0) =
      (equal_range s.chief_to_subs_ t).count x +
        (equal_range s.chief_to_subs_ t).countP (fun c => strict_ancestor s c x) := by
  have hch := chain_of_eq s hs x
  have hK := children_on_chain s hs t _ x _ hch
  have hnd := chief_chain_nodup _ _ x _ hch
  obtain ⟨T, hT⟩ := chief_chain_head _ _ x _ hch
  rw [hT] at hK hnd
  have hx : x ∉ T := (List.nodup_cons.1 hnd).1
  have hsplit : (equal_range s.chief_to_subs_ t).countP (fun c => decide (c ∈ x :: T)) =
      (equal_range s.chief_to_subs_ t).countP (fun c => decide (c = x)) +
      (equal_range s.chief_to_subs_ t).countP (fun c => decide (c ∈ T)) := by
    rw [← countP_or_disjoint]
    · congr 1
      funext c
      simp
    · intro a _ hboth
      have e1 : a = x := by simpa using hboth.1
      have e2 : a ∈ T := by simpa using hboth.2
      exact hx (e1 ▸ e2)
  rw [hsplit] at hK
  simp only [List.tail_cons] at hK
  simp only [strict_ancestor, hT, List.tail_cons, decide_eq_true_eq, count_eq_countP]
  exact hK.symm

/-- A strict ancestor exists only for identifiers recorded as subordinates. -/
theorem strict_ancestor_sub (s : RelationManager) (hs : Forest s) (t x : uuid_t)
    (h : strict_ancestor s t x = true) : x ∈ s.chief_to_subs_.map Prod.snd := by
  have hch := chain_of_eq s hs x
  cases hf : map_find s.sub_to_chief_ x with
  | none =>
    have h1 : chief_chain s.sub_to_chief_ (cycle_fuel s) x = some [x] := by
      simp [cycle_fuel, chief_chain, hf]
    have := chief_chain_det _ _ _ x _ _ hch h1
    simp [strict_ancestor, this] at h
  | some p =>
    have hv := hs.view p x
    rw [hf] at hv
    simp only [if_true] at hv
    have hmem : (p, x) ∈ s.chief_to_subs_ := List.count_pos_iff.1 (by omega)
    exact List.mem_map.2 ⟨(p, x), hmem, rfl⟩

/-- Under the loop invariant the result list never outgrows the inverse view. -/
theorem traversal_length_le (s : RelationManager) (hs : Forest s) (id : uuid_t)
    (tower all : List uuid_t)
    (hinv : ∀ x, all.count x + tower.countP (fun t => strict_ancestor s t x) =
      if strict_ancestor s id x = true then 1 else 0) :
    all.length ≤ s.chief_to_subs_.length := by
  have hnd : all.Nodup := by
    rw [List.nodup_iff_count_le_one]
    intro x
    have := hinv x
    split_ifs at this <;> omega
  have hsub : all ⊆ s.chief_to_subs_.map Prod.snd := by
    intro x hx
    have hpos : 0 < all.count x := List.count_pos_iff.2 hx
    have := hinv x
    by_cases ha : strict_ancestor s id x = true
    · exact strict_ancestor_sub s hs id x ha
    · rw [if_neg ha] at this
      omega
  have := (List.subperm_of_subset hnd hsub).length_le
  simpa using this

/-- The traversal loop returns within its fuel, and its result holds every
strict descendant of `id` once and nothing else. -/
theorem traversal_loop (s : RelationManager) (hs : Forest s) (id : uuid_t) :
    ∀ (fuel : Nat) (tower all : List uuid_t),
      (∀ x, all.count x + tower.countP (fun t => strict_ancestor s t x) =
        if strict_ancestor s id x = true then 1 else 0) →
      s.chief_to_subs_.length + tower.length ≤ all.length + fuel →
      ∃ r, get_all_subordinates_loop s.chief_to_subs_ fuel tower all = some r ∧
        ∀ x, r.count x = if strict_ancestor s id x = true then 1 else 0 := by
  intro fuel
  induction fuel with
  | zero =>
    intro tower all hinv hsize
    cases tower with
    | nil =>
      refine ⟨all, by simp [get_all_subordinates_loop], ?_⟩
      intro x
      simpa using hinv x
    | cons cur rest =>
      have := traversal_length_le s hs id _ _ hinv
      simp at hsize
      omega
  | succ fuel ih =>
    intro tower all hinv hsize
    cases tower with
    | nil =>
      refine ⟨all, by simp [get_all_subordinates_loop], ?_⟩
      intro x
      simpa using hinv x
    | cons cur rest =>
      simp only [get_all_subordinates_loop]
      apply ih
      · intro x
        have h1 := hinv x
        have h2 := strict_ancestor_step s hs cur x
        simp only [List.countP_cons] at h1
        simp only [List.count_append, List.countP_append, List.countP_reverse]
        omega
      · simp only [List.length_append, List.length_reverse, List.length_cons] at hsize ⊢
        omega

theorem get_all_subordinates_forest (s : RelationManager) (hs : Forest s) (id : uuid_t) :
    ∃ r, get_all_subordinates s id = some r ∧
      (∀ x, r.count x = if strict_ancestor s id x = true then 1 else 0) ∧
      (get_direct_subordinates s id = [] → r = []) := by
  unfold get_all_subordinates
  by_cases hc : multimap_contains s.chief_to_subs_ id = true
  · obtain ⟨r, hr, hcount⟩ := traversal_loop s hs id s.chief_to_subs_.length
      (equal_range s.chief_to_subs_ id).reverse (equal_range s.chief_to_subs_ id)
      (by
        intro x
        have := strict_ancestor_step s hs id x
        simp only [List.countP_reverse]
        omega)
      (by simp only [List.length_reverse]; omega)
    refine ⟨r, by simp [hc, hr], hcount, ?_⟩
    intro hempty
    rw [get_direct_subordinates_eq] at hempty
    exact absurd hempty ((multimap_contains_iff _ _).1 hc)
  · have hnil : equal_range s.chief_to_subs_ id = [] := by
      by_contra hne
      exact hc ((multimap_contains_iff _ _).2 hne)
    refine ⟨[], by simp [hc], ?_, fun _ => rfl⟩
    intro x
    have := strict_ancestor_step s hs id x
    rw [hnil] at this
    simpa using this.symm

/-- In a forest, `t` is a strict ancestor of `x` exactly when `x` differs from
`t` and the chief chain of `x` passes through `t`. -/
theorem strict_ancestor_iff (s : RelationManager) (hs : Forest s) (t x : uuid_t) :
    strict_ancestor s t x = true ↔
      x ≠ t ∧ ∃ l, chief_chain s.sub_to_chief_ (cycle_fuel s) x = some l ∧ t ∈ l := by
  have hch := chain_of_eq s hs x
  have hnd := chief_chain_nodup _ _ x _ hch
  obtain ⟨T, hT⟩ := chief_chain_head _ _ x _ hch
  rw [hT] at hnd hch
  have hx : x ∉ T := (List.nodup_cons.1 hnd).1
  simp only [strict_ancestor, hT, List.tail_cons, decide_eq_true_eq]
  constructor
  · intro ht
    exact ⟨fun e => hx (e ▸ ht), x :: T, hch, List.mem_cons_of_mem _ ht⟩
  · rintro ⟨hne, l, hl, htl⟩
    have := chief_chain_det _ _ _ x _ _ hch hl
    subst this
    rcases List.mem_cons.1 htl with e | e
    · exact absurd e.symm hne
    · exact e

/-! ## Claims on the relation graph -/

/-- C1 (forest invariant): every finite sequence of `add_relation` /
`remove_relation` calls on the empty graph, whatever the calls return, runs to
a state in which every identifier has at most one recorded chief (one entry
in the primary map, one occurrence as a subordinate in the inverse view) and
from every identifier the chain of repeated chief lookups reaches an
identifier with no recorded chief, within one step more than the number of
entries, without visiting an identifier twice. -/
theorem C1_forest_invariant (ops : List Op) :
    ∃ s, run_ops RelationManager.empty ops = some s ∧
      (s.sub_to_chief_.map Prod.fst).Nodup ∧
      (s.chief_to_subs_.map Prod.snd).Nodup ∧
      ∀ x, ∃ l, chief_chain s.sub_to_chief_ (s.sub_to_chief_.length + 1) x = some l ∧
        l.Nodup ∧ ∃ r, l.getLast? = some r ∧ get_chief s r = none := by
  obtain ⟨s, hrun, hs⟩ := forest_run_ops ops _ forest_empty
  refine ⟨s, hrun, hs.keys_nodup, hs.subs_nodup, ?_⟩
  intro x
  obtain ⟨l, hl⟩ := forest_chain_fuel s hs x
  obtain ⟨init, r, hlr, hr, _⟩ := chief_chain_keys _ _ x l hl
  exact ⟨l, hl, chief_chain_nodup _ _ x l hl, r, by simp [hlr], hr⟩

/-- C2 (view consistency): in every reachable state the inverse multimap holds
the pair `(c, x)` exactly once when the primary map sends `x` to `c`, and not
at all otherwise. -/
theorem C2_view_consistency (s : RelationManager) (h : Reachable s) (c x : uuid_t) :
    s.chief_to_subs_.count (c, x) = if map_find s.sub_to_chief_ x = some c then 1 else 0 :=
  (reachable_forest s h).view c x

theorem C2_view_consistency_witness :
    Reachable chain_state ∧
      chain_state.chief_to_subs_.count (2, 3) =
        if map_find chain_state.sub_to_chief_ 3 = some 2 then 1 else 0 :=
  ⟨chain_state_reachable, C2_view_consistency chain_state chain_state_reachable 2 3⟩

/-- C3 (acceptance of `add_relation`): in every reachable state the call
returns, and it returns true exactly when `id_chief != id`, `id` has no
recorded chief, and `id` does not occur on the chief chain starting at
`id_chief`. -/
theorem C3_add_relation_accepts (s : RelationManager) (h : Reachable s)
    (id_chief id : uuid_t) :
    ∃ b s2 l, add_relation s id_chief id = some (b, s2) ∧
      chief_chain s.sub_to_chief_ (cycle_fuel s) id_chief = some l ∧
      (b = true ↔ id_chief ≠ id ∧ get_chief s id = none ∧ id ∉ l) := by
  obtain ⟨l, hl, hadd⟩ := add_relation_forest s (reachable_forest s h) id_chief id
  by_cases hc : id_chief ≠ id ∧ map_find s.sub_to_chief_ id = none ∧ id ∉ l
  · rw [if_pos hc] at hadd
    exact ⟨true, _, l, hadd, hl, by simpa [get_chief] using hc⟩
  · rw [if_neg hc] at hadd
    exact ⟨false, s, l, hadd, hl, by simpa [get_chief] using hc⟩

theorem C3_add_relation_accepts_witness :
    Reachable chain_state ∧
      ∃ b s2 l, add_relation chain_state 4 1 = some (b, s2) ∧
        chief_chain chain_state.sub_to_chief_ (cycle_fuel chain_state) 4 = some l ∧
        (b = true ↔ (4 : uuid_t) ≠ 1 ∧ get_chief chain_state 1 = none ∧ 1 ∉ l) :=
  ⟨chain_state_reachable, C3_add_relation_accepts chain_state chain_state_reachable 4 1⟩

/-- C4 (acceptance of `remove_relation`): in every reachable state the call
returns true exactly when `id_chief != id` and the recorded chief of `id` is
`id_chief`; so it returns false when `id` has no recorded chief and when the
recorded chief is another identifier. -/
theorem C4_remove_relation_accepts (s : RelationManager) (h : Reachable s)
    (id_chief id : uuid_t) :
    ((remove_relation s id_chief id).1 = true ↔
        id_chief ≠ id ∧ get_chief s id = some id_chief) ∧
      (get_chief s id = none → (remove_relation s id_chief id).1 = false) ∧
      (∀ c, get_chief s id = some c → c ≠ id_chief →
        (remove_relation s id_chief id).1 = false) := by
  have hiff : (remove_relation s id_chief id).1 = true ↔
      id_chief ≠ id ∧ get_chief s id = some id_chief := by
    rw [remove_relation_forest s (reachable_forest s h)]
    by_cases hc : id_chief ≠ id ∧ map_find s.sub_to_chief_ id = some id_chief
    · rw [if_pos hc]
      simpa [get_chief] using hc
    · rw [if_neg hc]
      simpa [get_chief] using hc
  refine ⟨hiff, ?_, ?_⟩
  · intro hnone
    rw [Bool.eq_false_iff]
    intro ht
    have := (hiff.1 ht).2
    rw [hnone] at this
    exact Option.noConfusion this
  · intro c hc hne
    rw [Bool.eq_false_iff]
    intro ht
    have := (hiff.1 ht).2
    rw [hc] at this
    exact hne (Option.some.inj this)

theorem C4_remove_relation_accepts_witness :
    Reachable chain_state ∧ (remove_relation chain_state 1 3).1 = false :=
  ⟨chain_state_reachable,
    (C4_remove_relation_accepts chain_state chain_state_reachable 1 3).2.2 2
      (by decide) (by decide)⟩

/-- C5 (atomicity of rejected mutations): when `add_relation` or
`remove_relation` returns false, the state after the call (both views) is the
state before it. -/
theorem C5_rejected_mutation_unchanged (s s2 : RelationManager) (id_chief id : uuid_t)
    (h : add_relation s id_chief id = some (false, s2) ∨
      remove_relation s id_chief id = (false, s2)) : s2 = s := by
  rcases h with h | h
  · unfold add_relation at h
    split_ifs at h with h1
    · simp at h
      exact h.symm
    · split at h
      · simp at h
        exact h.symm
      · split at h
        · simp at h
        · simp at h
          exact h.symm
        · simp at h
  · unfold remove_relation at h
    split_ifs at h with h1
    · simp at h
      exact h.symm
    · split at h
      · simp at h
        exact h.symm
      · split_ifs at h with h2
        · simp at h
          exact h.symm
        · split at h
          · simp at h
            exact h.symm
          · simp at h

theorem C5_rejected_mutation_unchanged_witness :
    (remove_relation chain_state 1 3).1 = false ∧
      (remove_relation chain_state 1 3).2 = chain_state ∧
      get_chief (remove_relation chain_state 1 3).2 3 = some 2 :=
  ⟨by decide,
    C5_rejected_mutation_unchanged chain_state (remove_relation chain_state 1 3).2 1 3
      (Or.inr (by decide)),
    by decide⟩

/-- C6 (descendant completeness): in every reachable state and for every
`id`, `get_all_subordinates(id)` returns; its result has no repeated entry; an
identifier `x` is in it exactly when `x != id` and the chief chain of `x`
passes through `id`; it is empty when `id` has no direct subordinate.  On the
chain 1 -> 2 -> 3 -> 4 it has 3 entries for 1 and 2 for 2; on the tree
10 -> {11, 12}, 11 -> {13}, 12 -> {14, 15} it has 5 entries for 10, 1 for 11,
2 for 12 and none for 13, 14, 15. -/
theorem C6_descendant_completeness :
    (∀ s, Reachable s → ∀ id, ∃ r, get_all_subordinates s id = some r ∧ r.Nodup ∧
      (∀ x, x ∈ r ↔
        x ≠ id ∧ ∃ l, chief_chain s.sub_to_chief_ (cycle_fuel s) x = some l ∧ id ∈ l) ∧
      (get_direct_subordinates s id = [] → r = [])) ∧
    (run_ops RelationManager.empty [.add 1 2, .add 2 3, .add 3 4] = some chain_state ∧
      (get_all_subordinates chain_state 1).map List.length = some 3 ∧
      (get_all_subordinates chain_state 2).map List.length = some 2) ∧
    (run_ops RelationManager.empty
        [.add 10 11, .add 10 12, .add 11 13, .add 12 14, .add 12 15] = some tree_state ∧
      (get_all_subordinates tree_state 10).map List.length = some 5 ∧
      (get_all_subordinates tree_state 11).map List.length = some 1 ∧
      (get_all_subordinates tree_state 12).map List.length = some 2 ∧
      get_all_subordinates tree_state 13 = some [] ∧
      get_all_subordinates tree_state 14 = some [] ∧
      get_all_subordinates tree_state 15 = some []) := by
  refine ⟨?_, by decide, by decide⟩
  intro s h id
  have hs := reachable_forest s h
  obtain ⟨r, hr, hcount, hempty⟩ := get_all_subordinates_forest s hs id
  refine ⟨r, hr, ?_, ?_, hempty⟩
  · rw [List.nodup_iff_count_le_one]
    intro x
    rw [hcount x]
    split_ifs <;> omega
  · intro x
    rw [← strict_ancestor_iff s hs id x, ← List.count_pos_iff, hcount x]
    by_cases ha : strict_ancestor s id x = true <;> simp [ha]

theorem C6_descendant_completeness_witness :
    Reachable tree_state ∧
      ∃ r, get_all_subordinates tree_state 10 = some r ∧ r.Nodup ∧
        (∀ x, x ∈ r ↔
          x ≠ 10 ∧ ∃ l, chief_chain tree_state.sub_to_chief_ (cycle_fuel tree_state) x =
            some l ∧ 10 ∈ l) ∧
        (get_direct_subordinates tree_state 10 = [] → r = []) :=
  ⟨tree_state_reachable, C6_descendant_completeness.1 tree_state tree_state_reachable 10⟩

/-- C7 (`get_direct_subordinates`): in every reachable state the result lists
exactly the identifiers whose recorded chief is `id`, each once; it is a
rearrangement of the linear scan of the primary map; it is empty when no
identifier has `id` as chief; an accepted `add_relation(id, x)` lengthens it
by one and an accepted `remove_relation(id, x)` shortens it by one. -/
theorem C7_direct_subordinates (s : RelationManager) (h : Reachable s) (id : uuid_t) :
    (∀ x, (get_direct_subordinates s id).count x =
        if get_chief s x = some id then 1 else 0) ∧
      (get_direct_subordinates s id).Perm (direct_subordinates_by_scan s id) ∧
      ((∀ x, get_chief s x ≠ some id) → get_direct_subordinates s id = []) ∧
      (∀ x s2, add_relation s id x = some (true, s2) →
        (get_direct_subordinates s2 id).length =
          (get_direct_subordinates s id).length + 1) ∧
      (∀ x s2, remove_relation s id x = (true, s2) →
        (get_direct_subordinates s2 id).length + 1 =
          (get_direct_subordinates s id).length) := by
  have hs := reachable_forest s h
  have hcount : ∀ x, (get_direct_subordinates s id).count x =
      if get_chief s x = some id then 1 else 0 := by
    intro x
    rw [get_direct_subordinates_eq, count_equal_range, hs.view id x, get_chief]
  refine ⟨hcount, ?_, ?_, ?_, ?_⟩
  · rw [List.perm_iff_count]
    intro x
    rw [hcount x, direct_subordinates_by_scan, count_scan _ hs.keys_nodup, get_chief]
  · intro hno
    rw [List.eq_nil_iff_forall_not_mem]
    intro x hx
    have := List.count_pos_iff.2 hx
    rw [hcount x, if_neg (hno x)] at this
    exact absurd this (by decide)
  · intro x s2 hadd
    obtain ⟨_, _, rfl⟩ := add_relation_true s s2 id x hadd
    simp [get_direct_subordinates_eq, added, multimap_insert, equal_range_append,
      equal_range]
  · intro x s2 hrem
    obtain ⟨_, _, hmem, rfl⟩ := remove_relation_true s s2 id x hrem
    have hx : x ∈ equal_range s.chief_to_subs_ id := (mem_equal_range _ _ _).2 hmem
    have hpos : 0 < (equal_range s.chief_to_subs_ id).length := List.length_pos_of_mem hx
    simp only [get_direct_subordinates_eq, removed, equal_range_erase, if_true]
    rw [List.length_erase_of_mem hx]
    omega

theorem C7_direct_subordinates_witness :
    Reachable tree_state ∧
      (∀ x, (get_direct_subordinates tree_state 12).count x =
          if get_chief tree_state x = some 12 then 1 else 0) ∧
      (get_direct_subordinates tree_state 12).Perm
        (direct_subordinates_by_scan tree_state 12) ∧
      ((∀ x, get_chief tree_state x ≠ some 12) →
        get_direct_subordinates tree_state 12 = []) ∧
      (∀ x s2, add_relation tree_state 12 x = some (true, s2) →
        (get_direct_subordinates s2 12).length =
          (get_direct_subordinates tree_state 12).length + 1) ∧
      (∀ x s2, remove_relation tree_state 12 x = (true, s2) →
        (get_direct_subordinates s2 12).length + 1 =
          (get_direct_subordinates tree_state 12).length) :=
  ⟨tree_state_reachable, C7_direct_subordinates tree_state tree_state_reachable 12⟩

/-- C8 (postcondition of an accepted `add_relation(id_chief, id)`): afterwards
`get_chief(id)` is `id_chief` and `id` occurs among the direct subordinates of
`id_chief`; the recorded chief of every other identifier and the direct
subordinates of every other chief are as before. -/
theorem C8_add_relation_post (s s2 : RelationManager) (id_chief id : uuid_t)
    (h : add_relation s id_chief id = some (true, s2)) :
    get_chief s2 id = some id_chief ∧
      id ∈ get_direct_subordinates s2 id_chief ∧
      (∀ x, x ≠ id → get_chief s2 x = get_chief s x) ∧
      (∀ y, y ≠ id_chief → get_direct_subordinates s2 y = get_direct_subordinates s y) := by
  obtain ⟨_, _, rfl⟩ := add_relation_true s s2 id_chief id h
  refine ⟨?_, ?_, ?_, ?_⟩
  · simp [get_chief, added, map_find_assign]
  · simp [get_direct_subordinates_eq, added, multimap_insert, equal_range_append,
      equal_range]
  · intro x hx
    simp [get_chief, added, map_find_assign, Ne.symm hx]
  · intro y hy
    simp [get_direct_subordinates_eq, added, multimap_insert, equal_range_append,
      equal_range, Ne.symm hy]

theorem C8_add_relation_post_witness :
    add_relation chain_state 1 5 =
        some (true, ⟨[(2, 1), (3, 2), (4, 3), (5, 1)], [(1, 2), (2, 3), (3, 4), (1, 5)]⟩) ∧
      get_chief ⟨[(2, 1), (3, 2), (4, 3), (5, 1)], [(1, 2), (2, 3), (3, 4), (1, 5)]⟩ 5 =
        some 1 :=
  ⟨by decide, (C8_add_relation_post chain_state _ 1 5 (by decide)).1⟩

/-- C9 (frame of an accepted `remove_relation(id_chief, id)`): in every
reachable state, afterwards `id` has no recorded chief and is not among the
direct subordinates of `id_chief`; the recorded chief of every other
identifier is as before, and so is the number of occurrences of every other
(chief, subordinate) entry in the direct-subordinate lists. -/
theorem C9_remove_relation_frame (s s2 : RelationManager) (h : Reachable s)
    (id_chief id : uuid_t) (hrem : remove_relation s id_chief id = (true, s2)) :
    get_chief s2 id = none ∧
      id ∉ get_direct_subordinates s2 id_chief ∧
      (∀ x, x ≠ id → get_chief s2 x = get_chief s x) ∧
      (∀ y x, ¬(y = id_chief ∧ x = id) →
        (get_direct_subordinates s2 y).count x = (get_direct_subordinates s y).count x) := by
  have hs := reachable_forest s h
  obtain ⟨_, hf, hmem, rfl⟩ := remove_relation_true s s2 id_chief id hrem
  have hs2 := forest_removed s hs id_chief id hf
  have hnone : get_chief (removed s id_chief id) id = none := by
    simp [get_chief, removed, map_find_erase_self _ _ hs.keys_nodup]
  refine ⟨hnone, ?_, ?_, ?_⟩
  · intro hin
    have := List.count_pos_iff.2 hin
    rw [get_direct_subordinates_eq, count_equal_range, hs2.view id_chief id] at this
    rw [get_chief] at hnone
    rw [hnone] at this
    simp at this
  · intro x hx
    simp [get_chief, removed, map_find_erase_ne _ _ _ (Ne.symm hx)]
  · intro y x hne
    rw [get_direct_subordinates_eq, get_direct_subordinates_eq, count_equal_range,
      count_equal_range]
    simp only [removed]
    have : (y, x) ≠ (id_chief, id) := fun e =>
      hne ⟨congrArg Prod.fst e, congrArg Prod.snd e⟩
    rw [List.count_erase_of_ne this]

theorem C9_remove_relation_frame_witness :
    Reachable chain_state ∧
      remove_relation chain_state 2 3 = (true, ⟨[(2, 1), (4, 3)], [(1, 2), (3, 4)]⟩) ∧
      get_chief ⟨[(2, 1), (4, 3)], [(1, 2), (3, 4)]⟩ 3 = none :=
  ⟨chain_state_reachable, by decide,
    (C9_remove_relation_frame chain_state _ chain_state_reachable 2 3 (by decide)).1⟩

/-! ## Claims on the salary rules -/

/-- C10 (base-role salary): for a WORKER record `e` found in the store under
`id` and every query date whose (year, month) is not earlier than that of the
hire date, `calculate_month_salary` returns success = true and the amount
`B + min(B, 0.10 * full_years * B)`, where `B` is the base pay and
`full_years` is `12 * (qy - hy) + (qm - hm)` divided by 12 with truncation;
when both months lie in 1..12 that difference is not negative and the
truncating quotient is the floor quotient. -/
theorem C10_worker_salary (sc : SalaryCalculator) (fuel : Nat) (id : uuid_t)
    (e : Employee) (date : date_t)
    (hfind : store_find sc.employees_ id = some (some e))
    (htype : e.type_ = EmployeeType.WORKER)
    (hnot_earlier : ¬(date.year < e.hire_date_.year ∨
      (date.year = e.hire_date_.year ∧ date.month < e.hire_date_.month))) :
    calculate_month_salary sc (fuel + 1) id date =
        .value (e.base_salary_ + min e.base_salary_
          (1 / 10 * ((Int.tdiv (12 * (date.year - e.hire_date_.year) +
            (date.month - e.hire_date_.month)) 12 : Int) : ℚ) * e.base_salary_)) true ∧
      (1 ≤ e.hire_date_.month ∧ e.hire_date_.month ≤ 12 ∧ 1 ≤ date.month ∧
          date.month ≤ 12 →
        0 ≤ 12 * (date.year - e.hire_date_.year) + (date.month - e.hire_date_.month) ∧
        Int.tdiv (12 * (date.year - e.hire_date_.year) +
            (date.month - e.hire_date_.month)) 12 =
          (12 * (date.year - e.hire_date_.year) + (date.month - e.hire_date_.month)) / 12) := by
  constructor
  · have hlt : date_lt (normalized date) (normalized e.hire_date_) = false := by
      simp only [date_lt, normalized, lt_self_iff_false, and_false, or_false,
        decide_eq_false_iff_not]
      exact hnot_earlier
    simp only [calculate_month_salary, hfind, htype, calculate_worker_salary, hlt]
    simp [full_years, months_diff, normalized]
  · intro hm
    have h0 : 0 ≤ 12 * (date.year - e.hire_date_.year) +
        (date.month - e.hire_date_.month) := by
      by_contra hneg
      apply hnot_earlier
      by_cases hy : date.year < e.hire_date_.year
      · exact Or.inl hy
      · right
        constructor <;> omega
    exact ⟨h0, Int.tdiv_eq_ediv h0 (by decide)⟩

theorem C10_worker_salary_witness :
    calculate_month_salary worker_calculator 1 1 ⟨2027, 1, 15⟩ = .value 110000 true := by
  have h := (C10_worker_salary worker_calculator 0 1 ⟨⟨2026, 1, 1⟩, 100000, .WORKER, 1⟩
    ⟨2027, 1, 15⟩ rfl rfl (by decide)).1
  rw [h]
  norm_num [Int.tdiv]

/-! ## Facts on the salary recursion -/

theorem date_lt_normalized (date hire_date : date_t) :
    date_lt (normalized date) (normalized hire_date) = true ↔ earlier date hire_date := by
  simp [date_lt, normalized, earlier]

/-- The summation loop succeeds exactly when every listed call succeeds, and
then returns the running total plus the sum of the amounts. -/
theorem sum_subordinates_ok (f : uuid_t → SalaryResult) :
    ∀ (l : List uuid_t) (t : ℚ),
      (∀ x ∈ l, ∃ a, f x = .value a true) →
      sum_subordinates f l t = .value (t + (l.map (fun x => (f x).amount)).sum) true := by
  intro l
  induction l with
  | nil => intro t _; simp [sum_subordinates]
  | cons x l ih =>
    intro t h
    obtain ⟨a, ha⟩ := h x (List.mem_cons_self _ _)
    have hl : ∀ y ∈ l, ∃ a, f y = .value a true := fun y hy =>
      h y (List.mem_cons_of_mem _ hy)
    simp only [sum_subordinates, ha, if_true, ih (t + a) hl, List.map_cons, List.sum_cons,
      SalaryResult.amount]
    congr 1
    ring

theorem sum_subordinates_true (f : uuid_t → SalaryResult) :
    ∀ (l : List uuid_t) (t a : ℚ), sum_subordinates f l t = .value a true →
      ∀ x ∈ l, ∃ b, f x = .value b true := by
  intro l
  induction l with
  | nil => intro t a _ x hx; simp at hx
  | cons y l ih =>
    intro t a h x hx
    simp only [sum_subordinates] at h
    cases hy : f y with
    | value b ok =>
      rw [hy] at h
      cases ok with
      | false => simp at h
      | true =>
        simp only [if_true] at h
        rcases List.mem_cons.1 hx with rfl | hx1
        · exact ⟨b, hy⟩
        · exact ih _ _ h x hx1
    | assertion_failure => rw [hy] at h; simp at h
    | no_return => rw [hy] at h; simp at h

/-- The summation loop returns a pair when every listed call returns a pair. -/
theorem sum_subordinates_value (f : uuid_t → SalaryResult) :
    ∀ (l : List uuid_t) (t : ℚ), (∀ x ∈ l, ∃ a ok, f x = .value a ok) →
      ∃ a ok, sum_subordinates f l t = .value a ok := by
  intro l
  induction l with
  | nil => intro t _; exact ⟨t, true, by simp [sum_subordinates]⟩
  | cons x l ih =>
    intro t h
    obtain ⟨a, ok, ha⟩ := h x (List.mem_cons_self _ _)
    have hl : ∀ y ∈ l, ∃ a ok, f y = .value a ok := fun y hy =>
      h y (List.mem_cons_of_mem _ hy)
    cases ok with
    | false => exact ⟨0, false, by simp [sum_subordinates, ha]⟩
    | true =>
      obtain ⟨b, ok2, hb⟩ := ih (t + a) hl
      exact ⟨b, ok2, by simp [sum_subordinates, ha, hb]⟩

/-- The loop over `g` repeats the loop over `f` when `g` agrees with `f`
wherever `f` returns and the loop over `f` returns. -/
theorem sum_subordinates_congr (f g : uuid_t → SalaryResult)
    (hfg : ∀ x, f x ≠ .no_return → g x = f x) :
    ∀ (l : List uuid_t) (t : ℚ), sum_subordinates f l t ≠ .no_return →
      sum_subordinates g l t = sum_subordinates f l t := by
  intro l
  induction l with
  | nil => intro t _; simp [sum_subordinates]
  | cons x l ih =>
    intro t h
    simp only [sum_subordinates] at h ⊢
    cases hx : f x with
    | value b ok =>
      rw [hx] at h
      rw [hfg x (by rw [hx]; simp)]
      simp only [hx]
      cases ok with
      | false => simp
      | true =>
        simp only [if_true] at h ⊢
        exact ih _ h
    | assertion_failure =>
      rw [hfg x (by rw [hx]; simp)]
      simp [hx]
    | no_return => rw [hx] at h; simp at h

/-- More fuel does not change a salary computation that returned or stopped
at an assertion. -/
theorem calculate_month_salary_mono (sc : SalaryCalculator) (date : date_t) :
    ∀ (n m : Nat) (id : uuid_t), calculate_month_salary sc n id date ≠ .no_return →
      n ≤ m → calculate_month_salary sc m id date = calculate_month_salary sc n id date := by
  intro n
  induction n with
  | zero => intro m id h; simp [calculate_month_salary] at h
  | succ n ih =>
    intro m id h hle
    obtain ⟨k, rfl⟩ : ∃ k, m = k + 1 := ⟨m - 1, by omega⟩
    have hstep : ∀ x, calculate_month_salary sc n x date ≠ .no_return →
        calculate_month_salary sc k x date = calculate_month_salary sc n x date :=
      fun x hx => ih k x hx (by omega)
    simp only [calculate_month_salary] at h ⊢
    cases hf : store_find sc.employees_ id with
    | none => simp
    | some oe =>
      cases oe with
      | none => simp
      | some e =>
        simp only [hf] at h
        cases ht : e.type_ with
        | WORKER => simp [ht]
        | FOREMAN =>
          simp only [ht, calculate_foreman_salary] at h ⊢
          by_cases hd : date_lt (normalized date) (normalized e.hire_date_) = true
          · simp [hd]
          · simp only [hd] at h ⊢
            have hsum : sum_subordinates (fun x => calculate_month_salary sc n x date)
                (get_direct_subordinates sc.relation_manager_ e.id_) 0 ≠ .no_return := by
              intro hnr
              rw [hnr] at h
              simp at h
            rw [sum_subordinates_congr _ _ hstep _ _ hsum]
        | MANAGER =>
          simp only [ht, calculate_manager_salary] at h ⊢
          by_cases hd : date_lt (normalized date) (normalized e.hire_date_) = true
          · simp [hd]
          · simp only [hd] at h ⊢
            cases hall : get_all_subordinates sc.relation_manager_ e.id_ with
            | none => simp [hall] at h
            | some r =>
              simp only [hall] at h ⊢
              have hsum : sum_subordinates (fun x => calculate_month_salary sc n x date)
                  r 0 ≠ .no_return := by
                intro hnr
                rw [hnr] at h
                simp at h
              rw [sum_subordinates_congr _ _ hstep _ _ hsum]

theorem calculate_month_salary_earlier (sc : SalaryCalculator) (fuel : Nat) (id : uuid_t)
    (e : Employee) (date : date_t)
    (hfind : store_find sc.employees_ id = some (some e))
    (hearly : earlier date e.hire_date_) :
    calculate_month_salary sc (fuel + 1) id date = .value 0 false := by
  have hd := (date_lt_normalized date e.hire_date_).2 hearly
  cases ht : e.type_ <;>
    simp [calculate_month_salary, hfind, ht, calculate_worker_salary,
      calculate_foreman_salary, calculate_manager_salary, hd]

theorem calculate_month_salary_foreman (sc : SalaryCalculator) (fuel : Nat) (id : uuid_t)
    (e : Employee) (date : date_t)
    (hfind : store_find sc.employees_ id = some (some e))
    (htype : e.type_ = EmployeeType.FOREMAN) (hnot : ¬earlier date e.hire_date_) :
    calculate_month_salary sc (fuel + 1) id date =
      match sum_subordinates (fun x => calculate_month_salary sc fuel x date)
        (get_direct_subordinates sc.relation_manager_ e.id_) 0 with
      | .value total ok =>
        if ok then
          .value (e.base_salary_ + min (e.base_salary_ * (4 / 10))
            (5 / 100 * (full_years e.hire_date_ date : ℚ) * e.base_salary_) +
            total * (7 / 100)) true
        else .value 0 false
      | .assertion_failure => .assertion_failure
      | .no_return => .no_return := by
  have hd : date_lt (normalized date) (normalized e.hire_date_) = false := by
    rw [Bool.eq_false_iff]
    exact fun h => hnot ((date_lt_normalized _ _).1 h)
  simp only [calculate_month_salary, hfind, htype, calculate_foreman_salary, hd]
  rfl

theorem calculate_month_salary_manager (sc : SalaryCalculator) (fuel : Nat) (id : uuid_t)
    (e : Employee) (date : date_t)
    (hfind : store_find sc.employees_ id = some (some e))
    (htype : e.type_ = EmployeeType.MANAGER) (hnot : ¬earlier date e.hire_date_) :
    calculate_month_salary sc (fuel + 1) id date =
      match get_all_subordinates sc.relation_manager_ e.id_ with
      | none => .no_return
      | some all_subordinates =>
        match sum_subordinates (fun x => calculate_month_salary sc fuel x date)
          all_subordinates 0 with
        | .value total ok =>
          if ok then .value (e.base_salary_ + total * (3 / 100)) true else .value 0 false
        | .assertion_failure => .assertion_failure
        | .no_return => .no_return := by
  have hd : date_lt (normalized date) (normalized e.hire_date_) = false := by
    rw [Bool.eq_false_iff]
    exact fun h => hnot ((date_lt_normalized _ _).1 h)
  simp only [calculate_month_salary, hfind, htype, calculate_manager_salary, hd]
  rfl

theorem calculate_month_salary_worker (sc : SalaryCalculator) (fuel : Nat) (id : uuid_t)
    (e : Employee) (date : date_t)
    (hfind : store_find sc.employees_ id = some (some e))
    (htype : e.type_ = EmployeeType.WORKER) (hnot : ¬earlier date e.hire_date_) :
    calculate_month_salary sc (fuel + 1) id date =
      .value (e.base_salary_ + min e.base_salary_
        (1 / 10 * (full_years e.hire_date_ date : ℚ) * e.base_salary_)) true := by
  have hd : date_lt (normalized date) (normalized e.hire_date_) = false := by
    rw [Bool.eq_false_iff]
    exact fun h => hnot ((date_lt_normalized _ _).1 h)
  simp only [calculate_month_salary, hfind, htype, calculate_worker_salary, hd]
  rfl

/-! ## Depth of the salary recursion -/

theorem chain_of_child (s : RelationManager) (hs : Forest s) (c x : uuid_t)
    (h : map_find s.sub_to_chief_ c = some x) : chain_of s c = c :: chain_of s x := by
  have hc := chain_of_eq s hs c
  have hx := chain_of_eq s hs x
  simp only [cycle_fuel, chief_chain, h, Option.map_eq_some'] at hc
  obtain ⟨l, hl, hcl⟩ := hc
  have := chief_chain_det _ _ _ x _ _ hl hx
  rw [← hcl, this]

theorem chain_of_length_le (s : RelationManager) (hs : Forest s) (x : uuid_t) :
    (chain_of s x).length ≤ s.sub_to_chief_.length + 1 :=
  chief_chain_length_le _ _ x _ (chain_of_eq s hs x)

/-- A strict descendant has a longer chief chain than its ancestor. -/
theorem chain_of_descendant (s : RelationManager) (hs : Forest s) (x d : uuid_t)
    (h : strict_ancestor s x d = true) :
    (chain_of s x).length < (chain_of s d).length := by
  have hd := chain_of_eq s hs d
  obtain ⟨T, hT⟩ := chief_chain_head _ _ d _ hd
  have hxT : x ∈ T := by simpa [strict_ancestor, hT] using h
  rw [hT] at hd
  obtain ⟨l2, h2, hsuf⟩ := chief_chain_suffix _ _ d _ hd x (List.mem_cons_of_mem _ hxT)
  have hx := chain_of_eq s hs x
  have := chief_chain_det _ _ _ x _ _ h2 hx
  subst this
  have hnd := chief_chain_nodup _ _ d _ hd
  have hdT : d ∉ T := (List.nodup_cons.1 hnd).1
  obtain ⟨t2, ht2⟩ := chief_chain_head _ _ x _ hx
  rcases List.suffix_cons_iff.1 hsuf with heq | hsuf2
  · rw [ht2] at heq
    have : x = d := by injection heq
    exact absurd (this ▸ hxT) hdT
  · have := hsuf2.length_le
    rw [hT]
    simp only [List.length_cons]
    omega

theorem forest_direct_sub (s : RelationManager) (hs : Forest s) (x c : uuid_t)
    (h : c ∈ get_direct_subordinates s x) :
    map_find s.sub_to_chief_ c = some x ∧ c ∈ s.chief_to_subs_.map Prod.snd := by
  rw [get_direct_subordinates_eq, mem_equal_range] at h
  have hpos : 0 < s.chief_to_subs_.count (x, c) := List.count_pos_iff.2 h
  rw [hs.view x c] at hpos
  refine ⟨?_, List.mem_map.2 ⟨(x, c), h, rfl⟩⟩
  by_contra hne
  rw [if_neg hne] at hpos
  exact absurd hpos (by decide)

/-- On a consistent state a salary computation returns a pair as soon as its
fuel covers the levels that can lie below the queried identifier. -/
theorem calculate_month_salary_returns (sc : SalaryCalculator) (hc : Consistent sc)
    (date : date_t) :
    ∀ (n : Nat) (id : uuid_t) (e : Employee),
      store_find sc.employees_ id = some (some e) →
      salary_fuel sc.relation_manager_ + 1 ≤ n + (chain_of sc.relation_manager_ id).length →
      ∃ a ok, calculate_month_salary sc n id date = .value a ok := by
  intro n
  induction n with
  | zero =>
    intro id e _ hsize
    have := chain_of_length_le _ hc.forest id
    simp only [salary_fuel] at hsize
    omega
  | succ n ih =>
    intro id e hfind hsize
    have hid : e.id_ = id := hc.keyed id e hfind
    by_cases hearly : earlier date e.hire_date_
    · exact ⟨0, false, calculate_month_salary_earlier sc n id e date hfind hearly⟩
    · cases ht : e.type_ with
      | WORKER => exact ⟨_, true, calculate_month_salary_worker sc n id e date hfind ht hearly⟩
      | FOREMAN =>
        rw [calculate_month_salary_foreman sc n id e date hfind ht hearly, hid]
        have hsubs : ∀ x ∈ get_direct_subordinates sc.relation_manager_ id,
            ∃ a ok, calculate_month_salary sc n x date = .value a ok := by
          intro x hx
          obtain ⟨hchief, hmem⟩ := forest_direct_sub _ hc.forest id x hx
          obtain ⟨ex, hex⟩ := hc.stored x hmem
          apply ih x ex hex
          rw [chain_of_child _ hc.forest x id hchief]
          simp only [List.length_cons]
          omega
        obtain ⟨a, ok, hsum⟩ := sum_subordinates_value _ _ 0 hsubs
        rw [hsum]
        cases ok with
        | false => exact ⟨0, false, by simp⟩
        | true => exact ⟨_, true, rfl⟩
      | MANAGER =>
        rw [calculate_month_salary_manager sc n id e date hfind ht hearly, hid]
        obtain ⟨r, hr, hcount, _⟩ := get_all_subordinates_forest _ hc.forest id
        rw [hr]
        have hsubs : ∀ x ∈ r, ∃ a ok, calculate_month_salary sc n x date = .value a ok := by
          intro x hx
          have hpos : 0 < r.count x := List.count_pos_iff.2 hx
          rw [hcount x] at hpos
          have hanc : strict_ancestor sc.relation_manager_ id x = true := by
            by_contra hne
            rw [if_neg hne] at hpos
            exact absurd hpos (by decide)
          obtain ⟨ex, hex⟩ := hc.stored x (strict_ancestor_sub _ hc.forest id x hanc)
          apply ih x ex hex
          have := chain_of_descendant _ hc.forest id x hanc
          omega
        obtain ⟨a, ok, hsum⟩ := sum_subordinates_value _ _ 0 hsubs
        simp only [hsum]
        cases ok with
        | false => exact ⟨0, false, by simp⟩
        | true => exact ⟨_, true, rfl⟩

/-- On a consistent state the computation started from outside returns a pair. -/
theorem month_salary_returns (sc : SalaryCalculator) (hc : Consistent sc) (date : date_t)
    (id : uuid_t) (e : Employee) (hfind : store_find sc.employees_ id = some (some e)) :
    ∃ a ok, month_salary sc id date = .value a ok := by
  apply calculate_month_salary_returns sc hc date _ id e hfind
  have hpos : 0 < (chain_of sc.relation_manager_ id).length := by
    obtain ⟨T, hT⟩ := chief_chain_head _ _ id _ (chain_of_eq _ hc.forest id)
    rw [hT]
    simp
  omega

/-- On a consistent state the recursive call made for a direct subordinate
returns what the computation started from outside returns for it. -/
theorem month_salary_child (sc : SalaryCalculator) (hc : Consistent sc) (date : date_t)
    (id x : uuid_t) (hanc : strict_ancestor sc.relation_manager_ id x = true) :
    calculate_month_salary sc (salary_fuel sc.relation_manager_ - 1) x date =
      month_salary sc x date := by
  obtain ⟨ex, hex⟩ := hc.stored x (strict_ancestor_sub _ hc.forest id x hanc)
  have hlen := chain_of_descendant _ hc.forest id x hanc
  have hpos : 0 < (chain_of sc.relation_manager_ id).length := by
    obtain ⟨T, hT⟩ := chief_chain_head _ _ id _ (chain_of_eq _ hc.forest id)
    rw [hT]
    simp
  obtain ⟨a, ok, hv⟩ := calculate_month_salary_returns sc hc date
    (salary_fuel sc.relation_manager_ - 1) x ex hex (by simp only [salary_fuel]; omega)
  have := calculate_month_salary_mono sc date (salary_fuel sc.relation_manager_ - 1)
    (salary_fuel sc.relation_manager_) x (by rw [hv]; simp) (by omega)
  rw [month_salary, this]

/-! ## Evaluation of the salary rules at tenure milestones -/

theorem full_years_add (h : date_t) (k d : Int) (hk : 0 ≤ k) :
    full_years h ⟨h.year + k, h.month, d⟩ = k := by
  simp only [full_years, months_diff, normalized]
  have : 12 * (h.year + k - h.year) + (h.month - h.month) = 12 * k := by ring
  rw [this, Int.tdiv_eq_ediv (by omega) (by decide)]
  omega

theorem not_earlier_add (h : date_t) (k d : Int) (hk : 0 ≤ k) :
    ¬earlier ⟨h.year + k, h.month, d⟩ h := by
  simp only [earlier]
  omega

theorem worker_bonus (B : ℚ) (hB : 0 ≤ B) :
    min B (1 / 10 * ((0 : Int) : ℚ) * B) = 0 ∧
      min B (1 / 10 * ((1 : Int) : ℚ) * B) = 1 / 10 * B ∧
      min B (1 / 10 * ((11 : Int) : ℚ) * B) = B := by
  refine ⟨?_, ?_, ?_⟩
  · rw [min_eq_right (by push_cast; linarith)]
    push_cast
    ring
  · rw [min_eq_right (by push_cast; linarith)]
    push_cast
    ring
  · rw [min_eq_left (by push_cast; linarith)]

theorem foreman_bonus (B : ℚ) (hB : 0 ≤ B) :
    min (B * (4 / 10)) (5 / 100 * ((0 : Int) : ℚ) * B) = 0 ∧
      min (B * (4 / 10)) (5 / 100 * ((1 : Int) : ℚ) * B) = 5 / 100 * B ∧
      min (B * (4 / 10)) (5 / 100 * ((11 : Int) : ℚ) * B) = 4 / 10 * B := by
  refine ⟨?_, ?_, ?_⟩
  · rw [min_eq_right (by push_cast; linarith)]
    push_cast
    ring
  · rw [min_eq_right (by push_cast; linarith)]
    push_cast
    ring
  · rw [min_eq_left (by push_cast; linarith)]
    ring

/-- A WORKER with non-negative base pay: the salary `k` years after the hire
month, for `k` = 0, 1, 11, whatever the day of the query date. -/
theorem worker_milestones (sc : SalaryCalculator) (fuel : Nat) (id : uuid_t) (e : Employee)
    (hfind : store_find sc.employees_ id = some (some e))
    (htype : e.type_ = EmployeeType.WORKER) (hB : 0 ≤ e.base_salary_) (d : Int) :
    calculate_month_salary sc (fuel + 1) id ⟨e.hire_date_.year, e.hire_date_.month, d⟩ =
        .value e.base_salary_ true ∧
      calculate_month_salary sc (fuel + 1) id
          ⟨e.hire_date_.year + 1, e.hire_date_.month, d⟩ =
        .value (11 / 10 * e.base_salary_) true ∧
      calculate_month_salary sc (fuel + 1) id
          ⟨e.hire_date_.year + 11, e.hire_date_.month, d⟩ =
        .value (2 * e.base_salary_) true := by
  obtain ⟨b0, b1, b11⟩ := worker_bonus e.base_salary_ hB
  have e0 := calculate_month_salary_worker sc fuel id e ⟨e.hire_date_.year + 0,
    e.hire_date_.month, d⟩ hfind htype (not_earlier_add _ 0 d (by decide))
  have e1 := calculate_month_salary_worker sc fuel id e ⟨e.hire_date_.year + 1,
    e.hire_date_.month, d⟩ hfind htype (not_earlier_add _ 1 d (by decide))
  have e11 := calculate_month_salary_worker sc fuel id e ⟨e.hire_date_.year + 11,
    e.hire_date_.month, d⟩ hfind htype (not_earlier_add _ 11 d (by decide))
  rw [full_years_add _ _ _ (by decide)] at e0 e1 e11
  rw [b0] at e0
  rw [b1] at e1
  rw [b11] at e11
  rw [add_zero] at e0
  refine ⟨by rw [e0]; simp, by rw [e1]; congr 1; ring, by rw [e11]; congr 1; ring⟩

/-- The same for a record given by `has_record`. -/
theorem worker_at (sc : SalaryCalculator) (fuel : Nat) (w : uuid_t) (B : ℚ) (hy hm : Int)
    (hrec : has_record sc w EmployeeType.WORKER B hy hm) (hB : 0 ≤ B) (d : Int) :
    calculate_month_salary sc (fuel + 1) w ⟨hy, hm, d⟩ = .value B true ∧
      calculate_month_salary sc (fuel + 1) w ⟨hy + 1, hm, d⟩ = .value (11 / 10 * B) true ∧
      calculate_month_salary sc (fuel + 1) w ⟨hy + 11, hm, d⟩ = .value (2 * B) true := by
  obtain ⟨e, hfind, htype, rfl, rfl, rfl, _⟩ := hrec
  exact worker_milestones sc fuel w e hfind htype hB d

/-- A FOREMAN whose direct subordinates all succeed: its salary at a date not
earlier than its hire date. -/
theorem foreman_at (sc : SalaryCalculator) (fuel : Nat) (id : uuid_t) (e : Employee)
    (date : date_t) (hfind : store_find sc.employees_ id = some (some e))
    (htype : e.type_ = EmployeeType.FOREMAN) (hnot : ¬earlier date e.hire_date_)
    (hsubs : ∀ x ∈ get_direct_subordinates sc.relation_manager_ e.id_,
      ∃ a, calculate_month_salary sc fuel x date = .value a true) :
    calculate_month_salary sc (fuel + 1) id date =
      .value (e.base_salary_ + min (e.base_salary_ * (4 / 10))
        (5 / 100 * (full_years e.hire_date_ date : ℚ) * e.base_salary_) +
        ((get_direct_subordinates sc.relation_manager_ e.id_).map
          (fun x => (calculate_month_salary sc fuel x date).amount)).sum * (7 / 100)) true := by
  rw [calculate_month_salary_foreman sc fuel id e date hfind htype hnot,
    sum_subordinates_ok _ _ 0 hsubs]
  simp

/-- A MANAGER whose descendants all succeed: its salary at a date not earlier
than its hire date. -/
theorem manager_at (sc : SalaryCalculator) (fuel : Nat) (id : uuid_t) (e : Employee)
    (date : date_t) (r : List uuid_t)
    (hfind : store_find sc.employees_ id = some (some e))
    (htype : e.type_ = EmployeeType.MANAGER) (hnot : ¬earlier date e.hire_date_)
    (hall : get_all_subordinates sc.relation_manager_ e.id_ = some r)
    (hsubs : ∀ x ∈ r, ∃ a, calculate_month_salary sc fuel x date = .value a true) :
    calculate_month_salary sc (fuel + 1) id date =
      .value (e.base_salary_ +
        (r.map (fun x => (calculate_month_salary sc fuel x date).amount)).sum * (3 / 100))
        true := by
  rw [calculate_month_salary_manager sc fuel id e date hfind htype hnot, hall]
  simp only [sum_subordinates_ok _ _ 0 hsubs]
  simp

theorem foreman_calculator_reachable : Reachable foreman_calculator.relation_manager_ :=
  ⟨[.add 1 2, .add 1 3, .add 1 4], by decide⟩

theorem manager_calculator_reachable : Reachable manager_calculator.relation_manager_ :=
  ⟨[.add 1 2, .add 1 3, .add 1 4, .add 2 5, .add 2 6], by decide⟩

theorem two_workers_calculator_reachable :
    Reachable two_workers_calculator.relation_manager_ :=
  ⟨[.add 1 2, .add 1 3], by decide⟩

theorem manager_calculator_consistent : Consistent manager_calculator where
  forest := reachable_forest _ manager_calculator_reachable
  keyed := by
    intro k e h
    simp only [manager_calculator, store_find] at h
    split_ifs at h with h1 h2 h3 h4 h5 h6
    · simp only [Option.some.injEq] at h; subst h; exact h1
    · simp only [Option.some.injEq] at h; subst h; exact h2
    · simp only [Option.some.injEq] at h; subst h; exact h3
    · simp only [Option.some.injEq] at h; subst h; exact h4
    · simp only [Option.some.injEq] at h; subst h; exact h5
    · simp only [Option.some.injEq] at h; subst h; exact h6
  stored := by
    intro x hx
    simp only [manager_calculator, List.map_cons, List.map_nil, List.mem_cons,
      List.mem_singleton, List.not_mem_nil, or_false] at hx
    rcases hx with rfl | rfl | rfl | rfl | rfl <;> exact ⟨_, rfl⟩

/-- C11 (mid-role salary): for a FOREMAN record `e` found in the store,
whenever the computation succeeds every recursive call for a direct
subordinate succeeded (and keeps its value under more fuel), and the amount is
`B + min(0.40*B, 0.05*full_years*B) + 0.07 *` the sum of the amounts those
calls returned; with no direct subordinate and `B >= 0` the amount is `B` in
the hire month, `1.05*B` twelve months later and `1.4*B` 132 months later; on
a forest graph the list summed over holds each identifier whose recorded chief
is the foreman exactly once. -/
theorem C11_foreman_salary (sc : SalaryCalculator) (fuel : Nat) (id : uuid_t)
    (e : Employee) (hfind : store_find sc.employees_ id = some (some e))
    (htype : e.type_ = EmployeeType.FOREMAN) :
    (∀ date amt, calculate_month_salary sc (fuel + 1) id date = .value amt true →
      (∀ x ∈ get_direct_subordinates sc.relation_manager_ e.id_,
        ∃ a, ∀ n, fuel ≤ n → calculate_month_salary sc n x date = .value a true) ∧
      amt = e.base_salary_ + min (0.40 * e.base_salary_)
          (0.05 * (full_years e.hire_date_ date : ℚ) * e.base_salary_) +
        0.07 * ((get_direct_subordinates sc.relation_manager_ e.id_).map
          (fun x => (calculate_month_salary sc fuel x date).amount)).sum) ∧
    (get_direct_subordinates sc.relation_manager_ e.id_ = [] → 0 ≤ e.base_salary_ →
      ∀ d, calculate_month_salary sc (fuel + 1) id
            ⟨e.hire_date_.year, e.hire_date_.month, d⟩ = .value e.base_salary_ true ∧
        calculate_month_salary sc (fuel + 1) id
            ⟨e.hire_date_.year + 1, e.hire_date_.month, d⟩ =
          .value (1.05 * e.base_salary_) true ∧
        calculate_month_salary sc (fuel + 1) id
            ⟨e.hire_date_.year + 11, e.hire_date_.month, d⟩ =
          .value (1.4 * e.base_salary_) true) ∧
    (Forest sc.relation_manager_ →
      (get_direct_subordinates sc.relation_manager_ e.id_).Nodup ∧
      ∀ x, x ∈ get_direct_subordinates sc.relation_manager_ e.id_ ↔
        get_chief sc.relation_manager_ x = some e.id_) := by
  refine ⟨?_, ?_, ?_⟩
  · intro date amt hsucc
    have hnot : ¬earlier date e.hire_date_ := by
      intro hearly
      rw [calculate_month_salary_earlier sc fuel id e date hfind hearly] at hsucc
      simp at hsucc
    have heq := calculate_month_salary_foreman sc fuel id e date hfind htype hnot
    rw [hsucc] at heq
    have hsubs : ∀ x ∈ get_direct_subordinates sc.relation_manager_ e.id_,
        ∃ a, calculate_month_salary sc fuel x date = .value a true := by
      cases hsum : sum_subordinates (fun x => calculate_month_salary sc fuel x date)
          (get_direct_subordinates sc.relation_manager_ e.id_) 0 with
      | value total ok =>
        cases ok with
        | false => rw [hsum] at heq; simp at heq
        | true => exact sum_subordinates_true _ _ _ _ hsum
      | assertion_failure => rw [hsum] at heq; simp at heq
      | no_return => rw [hsum] at heq; simp at heq
    refine ⟨?_, ?_⟩
    · intro x hx
      obtain ⟨a, ha⟩ := hsubs x hx
      refine ⟨a, fun n hn => ?_⟩
      rw [calculate_month_salary_mono sc date fuel n x (by rw [ha]; simp) hn, ha]
    · have := foreman_at sc fuel id e date hfind htype hnot hsubs
      rw [hsucc] at this
      injection this with h1
      rw [h1]
      norm_num
      ring_nf
  · intro hnone hB d
    obtain ⟨b0, b1, b11⟩ := foreman_bonus e.base_salary_ hB
    have hsubs : ∀ (date : date_t),
        ∀ x ∈ get_direct_subordinates sc.relation_manager_ e.id_,
          ∃ a, calculate_month_salary sc fuel x date = .value a true := by
      intro date x hx
      rw [hnone] at hx
      simp at hx
    have e0 := foreman_at sc fuel id e ⟨e.hire_date_.year + 0, e.hire_date_.month, d⟩
      hfind htype (not_earlier_add _ 0 d (by decide)) (hsubs _)
    have e1 := foreman_at sc fuel id e ⟨e.hire_date_.year + 1, e.hire_date_.month, d⟩
      hfind htype (not_earlier_add _ 1 d (by decide)) (hsubs _)
    have e11 := foreman_at sc fuel id e ⟨e.hire_date_.year + 11, e.hire_date_.month, d⟩
      hfind htype (not_earlier_add _ 11 d (by decide)) (hsubs _)
    rw [full_years_add _ _ _ (by decide), hnone] at e0 e1 e11
    rw [b0] at e0
    rw [b1] at e1
    rw [b11] at e11
    rw [add_zero] at e0
    refine ⟨by rw [e0]; simp, by rw [e1]; congr 1; norm_num; ring,
      by rw [e11]; congr 1; norm_num; ring⟩
  · intro hforest
    have hcount : ∀ x, (get_direct_subordinates sc.relation_manager_ e.id_).count x =
        if get_chief sc.relation_manager_ x = some e.id_ then 1 else 0 := by
      intro x
      rw [get_direct_subordinates_eq, forest_children_count _ hforest, get_chief]
    constructor
    · rw [List.nodup_iff_count_le_one]
      intro x
      rw [hcount x]
      split_ifs <;> omega
    · intro x
      rw [← List.count_pos_iff, hcount x]
      by_cases hx : get_chief sc.relation_manager_ x = some e.id_ <;> simp [hx]

theorem C11_foreman_salary_witness :
    calculate_month_salary foreman_calculator 1 2 ⟨2037, 1, 20⟩ = .value (1.4 * 200000) true :=
  ((C11_foreman_salary foreman_calculator 0 2 ⟨⟨2026, 1, 1⟩, 200000, .FOREMAN, 2⟩ rfl rfl).2.1
    (by decide) (by norm_num) 20).2.2

theorem get_all_subordinates_of_no_direct (s : RelationManager) (x : uuid_t)
    (h : get_direct_subordinates s x = []) : get_all_subordinates s x = some [] := by
  rw [get_direct_subordinates_eq] at h
  have hc : multimap_contains s.chief_to_subs_ x = false := by
    rw [Bool.eq_false_iff]
    exact fun hc => (multimap_contains_iff _ _).1 hc h
  simp [get_all_subordinates, hc]

/-- C12 (top-role salary): for a MANAGER record `e` found in the store of a
calculator whose graph is a forest, whenever the computation succeeds the list
`get_all_subordinates` returned holds every transitive descendant once and
nothing else, every recursive call for a descendant succeeded (and keeps its
value under more fuel), and the amount is `B + 0.03 *` the sum of the amounts
those calls returned; a manager with no direct subordinate receives `B` at
every date not earlier than the hire date. -/
theorem C12_manager_salary (sc : SalaryCalculator) (fuel : Nat) (id : uuid_t)
    (e : Employee) (hforest : Forest sc.relation_manager_)
    (hfind : store_find sc.employees_ id = some (some e))
    (htype : e.type_ = EmployeeType.MANAGER) :
    (∀ date amt, calculate_month_salary sc (fuel + 1) id date = .value amt true →
      ∃ r, get_all_subordinates sc.relation_manager_ e.id_ = some r ∧ r.Nodup ∧
        (∀ x, x ∈ r ↔ x ≠ e.id_ ∧ ∃ l, chief_chain sc.relation_manager_.sub_to_chief_
          (cycle_fuel sc.relation_manager_) x = some l ∧ e.id_ ∈ l) ∧
        (∀ x ∈ r, ∃ a, ∀ n, fuel ≤ n → calculate_month_salary sc n x date = .value a true) ∧
        amt = e.base_salary_ +
          0.03 * (r.map (fun x => (calculate_month_salary sc fuel x date).amount)).sum) ∧
    (get_direct_subordinates sc.relation_manager_ e.id_ = [] →
      ∀ date, ¬earlier date e.hire_date_ →
        calculate_month_salary sc (fuel + 1) id date = .value e.base_salary_ true) := by
  constructor
  · intro date amt hsucc
    have hnot : ¬earlier date e.hire_date_ := by
      intro hearly
      rw [calculate_month_salary_earlier sc fuel id e date hfind hearly] at hsucc
      simp at hsucc
    obtain ⟨r, hr, hcount, _⟩ := get_all_subordinates_forest _ hforest e.id_
    have heq := calculate_month_salary_manager sc fuel id e date hfind htype hnot
    rw [hsucc, hr] at heq
    have hsubs : ∀ x ∈ r, ∃ a, calculate_month_salary sc fuel x date = .value a true := by
      cases hsum : sum_subordinates (fun x => calculate_month_salary sc fuel x date) r 0 with
      | value total ok =>
        cases ok with
        | false => simp [hsum] at heq
        | true => exact sum_subordinates_true _ _ _ _ hsum
      | assertion_failure => simp [hsum] at heq
      | no_return => simp [hsum] at heq
    refine ⟨r, hr, ?_, ?_, ?_, ?_⟩
    · rw [List.nodup_iff_count_le_one]
      intro x
      rw [hcount x]
      split_ifs <;> omega
    · intro x
      rw [← strict_ancestor_iff _ hforest e.id_ x, ← List.count_pos_iff, hcount x]
      by_cases ha : strict_ancestor sc.relation_manager_ e.id_ x = true <;> simp [ha]
    · intro x hx
      obtain ⟨a, ha⟩ := hsubs x hx
      refine ⟨a, fun n hn => ?_⟩
      rw [calculate_month_salary_mono sc date fuel n x (by rw [ha]; simp) hn, ha]
    · have := manager_at sc fuel id e date r hfind htype hnot hr hsubs
      rw [hsucc] at this
      injection this with h1
      rw [h1]
      norm_num
      ring_nf
  · intro hnone date hnot
    have hall := get_all_subordinates_of_no_direct _ _ hnone
    have := manager_at sc fuel id e date [] hfind htype hnot hall (by simp)
    simpa using this

theorem C12_manager_salary_witness :
    ∃ r, get_all_subordinates manager_calculator.relation_manager_ 1 = some r ∧ r.Nodup ∧
      (∀ x, x ∈ r ↔ x ≠ 1 ∧ ∃ l, chief_chain manager_calculator.relation_manager_.sub_to_chief_
        (cycle_fuel manager_calculator.relation_manager_) x = some l ∧ 1 ∈ l) ∧
      (∀ x ∈ r, ∃ a, ∀ n, 2 ≤ n →
        calculate_month_salary manager_calculator n x ⟨2037, 1, 1⟩ = .value a true) ∧
      (333240 : ℚ) = 300000 + 0.03 *
        (r.map (fun x =>
          (calculate_month_salary manager_calculator 2 x ⟨2037, 1, 1⟩).amount)).sum :=
  (C12_manager_salary manager_calculator 2 1 ⟨⟨2026, 1, 1⟩, 300000, .MANAGER, 1⟩
    (reachable_forest _ manager_calculator_reachable) rfl rfl).1 ⟨2037, 1, 1⟩ 333240
    (by norm_num [calculate_month_salary, manager_calculator, store_find,
      calculate_manager_salary, calculate_foreman_salary, calculate_worker_salary,
      get_all_subordinates, get_all_subordinates_loop, multimap_contains, equal_range,
      get_direct_subordinates, sum_subordinates, date_lt, normalized, full_years,
      months_diff, Int.tdiv])

/-- C13 (salary before hire fails): for every record found in the store,
whatever its category and whatever the graph, a query date whose (year, month)
is strictly earlier than that of the hire date makes `calculate_month_salary`
return the pair (0, false). -/
theorem C13_before_hire_fails (sc : SalaryCalculator) (fuel : Nat) (id : uuid_t)
    (e : Employee) (date : date_t)
    (hfind : store_find sc.employees_ id = some (some e))
    (hearly : date.year < e.hire_date_.year ∨
      (date.year = e.hire_date_.year ∧ date.month < e.hire_date_.month)) :
    calculate_month_salary sc (fuel + 1) id date = .value 0 false ∧
      (calculate_month_salary sc (fuel + 1) id date).succeeded = false := by
  have h := calculate_month_salary_earlier sc fuel id e date hfind hearly
  exact ⟨h, by rw [h]; rfl⟩

theorem C13_before_hire_fails_witness :
    calculate_month_salary manager_calculator 1 1 ⟨2024, 1, 1⟩ = .value 0 false ∧
      (calculate_month_salary manager_calculator 1 1 ⟨2024, 1, 1⟩).succeeded = false :=
  C13_before_hire_fails manager_calculator 0 1 ⟨⟨2026, 1, 1⟩, 300000, .MANAGER, 1⟩
    ⟨2024, 1, 1⟩ rfl (by decide)

theorem succeeded_iff (r : SalaryResult) : r.succeeded = true ↔ ∃ a, r = .value a true := by
  cases r with
  | value a ok =>
    cases ok with
    | false => simp [SalaryResult.succeeded]
    | true => simp [SalaryResult.succeeded]
  | assertion_failure => simp [SalaryResult.succeeded]
  | no_return => simp [SalaryResult.succeeded]

/-- The summation loop succeeds exactly when every listed call succeeds. -/
theorem sum_subordinates_succeeded (f : uuid_t → SalaryResult) (l : List uuid_t) (t : ℚ) :
    (sum_subordinates f l t).succeeded = true ↔ ∀ x ∈ l, (f x).succeeded = true := by
  constructor
  · intro h x hx
    obtain ⟨a, ha⟩ := (succeeded_iff _).1 h
    exact (succeeded_iff _).2 (sum_subordinates_true f l t a ha x hx)
  · intro h
    rw [sum_subordinates_ok f l t (fun x hx => (succeeded_iff _).1 (h x hx))]
    rfl

theorem strict_ancestor_of_direct (s : RelationManager) (hs : Forest s) (id x : uuid_t)
    (h : x ∈ get_direct_subordinates s id) : strict_ancestor s id x = true := by
  obtain ⟨hchief, _⟩ := forest_direct_sub s hs id x h
  obtain ⟨T, hT⟩ := chief_chain_head _ _ id _ (chain_of_eq s hs id)
  simp [strict_ancestor, chain_of_child s hs x id hchief, hT]

/-- C14 (all-or-nothing failure propagation): on a consistent state (forest
graph, every subordinate identifier stored, records stored under their own
identifier) the computation for a stored identifier returns a pair; for a
FOREMAN it succeeds exactly when the query date is not earlier than its hire
date and the computation succeeds for every direct subordinate; for a MANAGER
exactly when the query date is not earlier than its hire date and the
computation succeeds for every transitive descendant. -/
theorem C14_all_or_nothing (sc : SalaryCalculator) (hc : Consistent sc) (id : uuid_t)
    (e : Employee) (date : date_t)
    (hfind : store_find sc.employees_ id = some (some e)) :
    (∃ a ok, month_salary sc id date = .value a ok) ∧
    (e.type_ = EmployeeType.FOREMAN →
      ((month_salary sc id date).succeeded = true ↔
        ¬earlier date e.hire_date_ ∧
        ∀ x ∈ get_direct_subordinates sc.relation_manager_ id,
          (month_salary sc x date).succeeded = true)) ∧
    (e.type_ = EmployeeType.MANAGER →
      ((month_salary sc id date).succeeded = true ↔
        ¬earlier date e.hire_date_ ∧
        ∀ x, (x ≠ id ∧ ∃ l, chief_chain sc.relation_manager_.sub_to_chief_
            (cycle_fuel sc.relation_manager_) x = some l ∧ id ∈ l) →
          (month_salary sc x date).succeeded = true)) := by
  have hid : e.id_ = id := hc.keyed id e hfind
  have hfuel : salary_fuel sc.relation_manager_ =
      (salary_fuel sc.relation_manager_ - 1) + 1 := by
    simp [salary_fuel]
  refine ⟨month_salary_returns sc hc date id e hfind, ?_, ?_⟩
  · intro htype
    by_cases hearly : earlier date e.hire_date_
    · have : month_salary sc id date = .value 0 false := by
        rw [month_salary, hfuel]
        exact calculate_month_salary_earlier sc _ id e date hfind hearly
      simp [this, SalaryResult.succeeded, hearly]
    · have hchild : ∀ x ∈ get_direct_subordinates sc.relation_manager_ id,
          calculate_month_salary sc (salary_fuel sc.relation_manager_ - 1) x date =
            month_salary sc x date := fun x hx =>
        month_salary_child sc hc date id x (strict_ancestor_of_direct _ hc.forest id x hx)
      have heq : (month_salary sc id date).succeeded =
          (sum_subordinates (fun x => calculate_month_salary sc
            (salary_fuel sc.relation_manager_ - 1) x date)
            (get_direct_subordinates sc.relation_manager_ id) 0).succeeded := by
        rw [month_salary, hfuel,
          calculate_month_salary_foreman sc _ id e date hfind htype hearly, hid, ← hfuel]
        cases sum_subordinates (fun x => calculate_month_salary sc
            (salary_fuel sc.relation_manager_ - 1) x date)
            (get_direct_subordinates sc.relation_manager_ id) 0 with
        | value total ok => cases ok <;> rfl
        | assertion_failure => rfl
        | no_return => rfl
      rw [heq, sum_subordinates_succeeded]
      constructor
      · intro h
        exact ⟨hearly, fun x hx => by rw [← hchild x hx]; exact h x hx⟩
      · intro h x hx
        rw [hchild x hx]
        exact h.2 x hx
  · intro htype
    by_cases hearly : earlier date e.hire_date_
    · have : month_salary sc id date = .value 0 false := by
        rw [month_salary, hfuel]
        exact calculate_month_salary_earlier sc _ id e date hfind hearly
      simp [this, SalaryResult.succeeded, hearly]
    · obtain ⟨r, hr, hcount, _⟩ := get_all_subordinates_forest _ hc.forest id
      have hmem : ∀ x, x ∈ r ↔ strict_ancestor sc.relation_manager_ id x = true := by
        intro x
        rw [← List.count_pos_iff, hcount x]
        by_cases ha : strict_ancestor sc.relation_manager_ id x = true <;> simp [ha]
      have hchild : ∀ x ∈ r,
          calculate_month_salary sc (salary_fuel sc.relation_manager_ - 1) x date =
            month_salary sc x date := fun x hx =>
        month_salary_child sc hc date id x ((hmem x).1 hx)
      have heq : (month_salary sc id date).succeeded =
          (sum_subordinates (fun x => calculate_month_salary sc
            (salary_fuel sc.relation_manager_ - 1) x date) r 0).succeeded := by
        rw [month_salary, hfuel,
          calculate_month_salary_manager sc _ id e date hfind htype hearly, hid, hr, ← hfuel]
        simp only
        cases sum_subordinates (fun x => calculate_month_salary sc
            (salary_fuel sc.relation_manager_ - 1) x date) r 0 with
        | value total ok => cases ok <;> rfl
        | assertion_failure => rfl
        | no_return => rfl
      rw [heq, sum_subordinates_succeeded]
      constructor
      · intro h
        refine ⟨hearly, fun x hx => ?_⟩
        have hx2 : x ∈ r :=
          (hmem x).2 ((strict_ancestor_iff _ hc.forest id x).2 hx)
        rw [← hchild x hx2]
        exact h x hx2
      · intro h x hx
        rw [hchild x hx]
        exact h.2 x ((strict_ancestor_iff _ hc.forest id x).1 ((hmem x).1 hx))

theorem C14_all_or_nothing_witness :
    Consistent manager_calculator ∧
      ((month_salary manager_calculator 2 ⟨2030, 1, 1⟩).succeeded = true ↔
        ¬earlier ⟨2030, 1, 1⟩ ⟨2026, 1, 1⟩ ∧
        ∀ x ∈ get_direct_subordinates manager_calculator.relation_manager_ 2,
          (month_salary manager_calculator x ⟨2030, 1, 1⟩).succeeded = true) :=
  ⟨manager_calculator_consistent,
    (C14_all_or_nothing manager_calculator manager_calculator_consistent 2
      ⟨⟨2026, 1, 1⟩, 200000, .FOREMAN, 2⟩ ⟨2030, 1, 1⟩ rfl).2.1 rfl⟩

/-- C16 (tenure milestones of the base role): a WORKER record with base pay
`B >= 0` yields success with amount `B` in the hire month, `1.1*B` twelve
months later and `2.0*B` 132 months later, whatever the day of the query
date. -/
theorem C16_worker_milestones (sc : SalaryCalculator) (fuel : Nat) (id : uuid_t)
    (e : Employee) (hfind : store_find sc.employees_ id = some (some e))
    (htype : e.type_ = EmployeeType.WORKER) (hB : 0 ≤ e.base_salary_) (d : Int) :
    calculate_month_salary sc (fuel + 1) id ⟨e.hire_date_.year, e.hire_date_.month, d⟩ =
        .value e.base_salary_ true ∧
      calculate_month_salary sc (fuel + 1) id
          ⟨e.hire_date_.year + 1, e.hire_date_.month, d⟩ =
        .value (1.1 * e.base_salary_) true ∧
      calculate_month_salary sc (fuel + 1) id
          ⟨e.hire_date_.year + 11, e.hire_date_.month, d⟩ =
        .value (2.0 * e.base_salary_) true := by
  obtain ⟨h0, h1, h11⟩ := worker_milestones sc fuel id e hfind htype hB d
  refine ⟨h0, ?_, ?_⟩
  · rw [h1]
    congr 1
    norm_num
  · rw [h11]
    congr 1
    norm_num

theorem C16_worker_milestones_witness :
    calculate_month_salary worker_calculator 1 1 ⟨2026, 1, 1⟩ = .value 100000 true ∧
      calculate_month_salary worker_calculator 1 1 ⟨2026 + 1, 1, 1⟩ =
        .value (1.1 * 100000) true ∧
      calculate_month_salary worker_calculator 1 1 ⟨2026 + 11, 1, 1⟩ =
        .value (2.0 * 100000) true :=
  C16_worker_milestones worker_calculator 0 1 ⟨⟨2026, 1, 1⟩, 100000, .WORKER, 1⟩ rfl rfl
    (by norm_num) 1

/-! ## Evaluation on described rosters -/

/-- A FOREMAN record whose direct subordinates are, in some order, the list `l`
and whose recursive calls return the amounts `amt`: its salary `k >= 0` years
after the hire month. -/
theorem foreman_record_at (sc : SalaryCalculator) (fuel : Nat) (f : uuid_t) (F : ℚ)
    (hy hm : Int) (hrec : has_record sc f EmployeeType.FOREMAN F hy hm) (l : List uuid_t)
    (hperm : (get_direct_subordinates sc.relation_manager_ f).Perm l) (k d : Int)
    (hk : 0 ≤ k) (amt : uuid_t → ℚ)
    (hsubs : ∀ x ∈ l, calculate_month_salary sc fuel x ⟨hy + k, hm, d⟩ = .value (amt x) true) :
    calculate_month_salary sc (fuel + 1) f ⟨hy + k, hm, d⟩ =
      .value (F + min (F * (4 / 10)) (5 / 100 * (k : ℚ) * F) +
        (l.map amt).sum * (7 / 100)) true := by
  obtain ⟨e, hfind, htype, rfl, rfl, rfl, hid⟩ := hrec
  have hall : ∀ x ∈ get_direct_subordinates sc.relation_manager_ e.id_,
      ∃ a, calculate_month_salary sc fuel x
        ⟨e.hire_date_.year + k, e.hire_date_.month, d⟩ = .value a true := by
    intro x hx
    rw [hid] at hx
    exact ⟨amt x, hsubs x (hperm.subset hx)⟩
  rw [foreman_at sc fuel f e _ hfind htype (not_earlier_add _ k d hk) hall,
    full_years_add _ _ _ hk, hid]
  have hsum : ((get_direct_subordinates sc.relation_manager_ f).map
      (fun x => (calculate_month_salary sc fuel x
        ⟨e.hire_date_.year + k, e.hire_date_.month, d⟩).amount)).sum = (l.map amt).sum := by
    rw [(hperm.map _).sum_eq]
    congr 1
    apply List.map_congr_left
    intro x hx
    rw [hsubs x hx]
    rfl
  rw [hsum]

/-- A MANAGER record whose descendants are, in some order, the list `l` and
whose recursive calls return the amounts `amt`: its salary `k >= 0` years
after the hire month. -/
theorem manager_record_at (sc : SalaryCalculator) (fuel : Nat) (m : uuid_t) (M : ℚ)
    (hy hm : Int) (hrec : has_record sc m EmployeeType.MANAGER M hy hm)
    (r l : List uuid_t) (hall : get_all_subordinates sc.relation_manager_ m = some r)
    (hperm : r.Perm l) (k d : Int) (hk : 0 ≤ k) (amt : uuid_t → ℚ)
    (hsubs : ∀ x ∈ l, calculate_month_salary sc fuel x ⟨hy + k, hm, d⟩ = .value (amt x) true) :
    calculate_month_salary sc (fuel + 1) m ⟨hy + k, hm, d⟩ =
      .value (M + (l.map amt).sum * (3 / 100)) true := by
  obtain ⟨e, hfind, htype, rfl, rfl, rfl, hid⟩ := hrec
  rw [← hid] at hall
  have hok : ∀ x ∈ r, ∃ a, calculate_month_salary sc fuel x
      ⟨e.hire_date_.year + k, e.hire_date_.month, d⟩ = .value a true :=
    fun x hx => ⟨amt x, hsubs x (hperm.subset hx)⟩
  rw [manager_at sc fuel m e _ r hfind htype (not_earlier_add _ k d hk) hall hok]
  have hsum : (r.map (fun x => (calculate_month_salary sc fuel x
      ⟨e.hire_date_.year + k, e.hire_date_.month, d⟩).amount)).sum = (l.map amt).sum := by
    rw [(hperm.map _).sum_eq]
    congr 1
    apply List.map_congr_left
    intro x hx
    rw [hsubs x hx]
    rfl
  rw [hsum]

/-- An identifier without direct subordinates is nobody's strict ancestor. -/
theorem strict_ancestor_leaf (s : RelationManager) (hs : Forest s) (w x : uuid_t)
    (h : get_direct_subordinates s w = []) : strict_ancestor s w x = false := by
  have hstep := strict_ancestor_step s hs w x
  rw [get_direct_subordinates_eq] at h
  rw [h] at hstep
  by_contra hne
  have : strict_ancestor s w x = true := by simpa using hne
  rw [if_pos this] at hstep
  simp at hstep

/-- C15, as stated, fails: a FOREMAN with base pay 200000 whose direct
subordinates are two WORKERs with base pay 100000, all hired 2026-01-01,
receives 214000 in the hire month, not 200000 + 0.07 * (200000 + 2 * 100000). -/
theorem C15_two_workers_counterexample :
    get_direct_subordinates two_workers_calculator.relation_manager_ 1 = [2, 3] ∧
      calculate_month_salary two_workers_calculator 2 1 ⟨2026, 1, 1⟩ = .value 214000 true ∧
      calculate_month_salary two_workers_calculator 2 1 ⟨2026, 1, 1⟩ ≠
        .value (200000 + 0.07 * (200000 + 2 * 100000)) true := by
  have h : calculate_month_salary two_workers_calculator 2 1 ⟨2026, 1, 1⟩ =
      .value 214000 true := by
    norm_num [calculate_month_salary, two_workers_calculator, store_find,
      calculate_foreman_salary, calculate_worker_salary, multimap_contains, equal_range,
      get_direct_subordinates, sum_subordinates, date_lt, normalized, full_years,
      months_diff, Int.tdiv]
  refine ⟨by decide, h, ?_⟩
  rw [h]
  norm_num

/-- C15 (amended): a FOREMAN with base pay `Bf >= 0` whose direct subordinates
are two WORKERs with base pay `Bw >= 0`, all three hired in the same month,
receives `Bf + 0.07 * (2 * Bw)` in the hire month and
`1.05 * Bf + 0.07 * (2 * 1.1 * Bw)` twelve months later: the 7% is taken over
the salaries of the subordinates only. -/
theorem C15_foreman_two_workers (sc : SalaryCalculator) (fuel : Nat) (f w1 w2 : uuid_t)
    (Bf Bw : ℚ) (hy hm : Int)
    (hf : has_record sc f EmployeeType.FOREMAN Bf hy hm)
    (hw1 : has_record sc w1 EmployeeType.WORKER Bw hy hm)
    (hw2 : has_record sc w2 EmployeeType.WORKER Bw hy hm)
    (hsubs : (get_direct_subordinates sc.relation_manager_ f).Perm [w1, w2])
    (hBf : 0 ≤ Bf) (hBw : 0 ≤ Bw) (d : Int) :
    calculate_month_salary sc (fuel + 2) f ⟨hy, hm, d⟩ =
        .value (Bf + 0.07 * (2 * Bw)) true ∧
      calculate_month_salary sc (fuel + 2) f ⟨hy + 1, hm, d⟩ =
        .value (1.05 * Bf + 0.07 * (2 * 1.1 * Bw)) true := by
  obtain ⟨a0, a1, _⟩ := worker_at sc fuel w1 Bw hy hm hw1 hBw d
  obtain ⟨b0, b1, _⟩ := worker_at sc fuel w2 Bw hy hm hw2 hBw d
  obtain ⟨f0, f1, _⟩ := foreman_bonus Bf hBf
  have e0 := foreman_record_at sc (fuel + 1) f Bf hy hm hf [w1, w2] hsubs 0 d (by decide)
    (fun _ => Bw) (by
      intro x hx
      simp only [List.mem_cons, List.mem_singleton, List.not_mem_nil, or_false] at hx
      rcases hx with rfl | rfl
      · simpa using a0
      · simpa using b0)
  have e1 := foreman_record_at sc (fuel + 1) f Bf hy hm hf [w1, w2] hsubs 1 d (by decide)
    (fun _ => 11 / 10 * Bw) (by
      intro x hx
      simp only [List.mem_cons, List.mem_singleton, List.not_mem_nil, or_false] at hx
      rcases hx with rfl | rfl
      · exact a1
      · exact b1)
  rw [f0] at e0
  rw [f1] at e1
  rw [add_zero] at e0
  constructor
  · rw [e0]
    congr 1
    simp only [List.map_cons, List.map_nil, List.sum_cons, List.sum_nil]
    norm_num
    ring
  · rw [e1]
    congr 1
    simp only [List.map_cons, List.map_nil, List.sum_cons, List.sum_nil]
    norm_num
    ring

theorem C15_foreman_two_workers_witness :
    calculate_month_salary two_workers_calculator 2 1 ⟨2026, 1, 9⟩ =
        .value (200000 + 0.07 * (2 * 100000)) true ∧
      calculate_month_salary two_workers_calculator 2 1 ⟨2026 + 1, 1, 9⟩ =
        .value (1.05 * 200000 + 0.07 * (2 * 1.1 * 100000)) true :=
  C15_foreman_two_workers two_workers_calculator 0 1 2 3 200000 100000 2026 1
    ⟨_, rfl, rfl, rfl, rfl, rfl, rfl⟩ ⟨_, rfl, rfl, rfl, rfl, rfl, rfl⟩
    ⟨_, rfl, rfl, rfl, rfl, rfl, rfl⟩ (by decide) (by norm_num) (by norm_num) 9

/-- A FOREMAN record with non-negative base pay and no direct subordinate: the
salary 0, 1 and 11 years after the hire month. -/
theorem foreman_leaf_at (sc : SalaryCalculator) (fuel : Nat) (f : uuid_t) (F : ℚ)
    (hy hm : Int) (hrec : has_record sc f EmployeeType.FOREMAN F hy hm)
    (hnone : get_direct_subordinates sc.relation_manager_ f = []) (hF : 0 ≤ F) (d : Int) :
    calculate_month_salary sc (fuel + 1) f ⟨hy, hm, d⟩ = .value F true ∧
      calculate_month_salary sc (fuel + 1) f ⟨hy + 1, hm, d⟩ = .value (21 / 20 * F) true ∧
      calculate_month_salary sc (fuel + 1) f ⟨hy + 11, hm, d⟩ = .value (7 / 5 * F) true := by
  obtain ⟨f0, f1, f11⟩ := foreman_bonus F hF
  have hperm : (get_direct_subordinates sc.relation_manager_ f).Perm [] := by
    rw [hnone]
  have e0 := foreman_record_at sc fuel f F hy hm hrec [] hperm 0 d (by decide)
    (fun _ => 0) (by simp)
  have e1 := foreman_record_at sc fuel f F hy hm hrec [] hperm 1 d (by decide)
    (fun _ => 0) (by simp)
  have e11 := foreman_record_at sc fuel f F hy hm hrec [] hperm 11 d (by decide)
    (fun _ => 0) (by simp)
  rw [f0] at e0
  rw [f1] at e1
  rw [f11] at e11
  rw [add_zero] at e0
  refine ⟨?_, ?_, ?_⟩
  · rw [e0]
    congr 1
    simp
  · rw [e1]
    congr 1
    simp only [List.map_nil, List.sum_nil]
    ring
  · rw [e11]
    congr 1
    simp only [List.map_nil, List.sum_nil]
    ring

/-- C17 (aggregation over mixed direct subordinates): a FOREMAN with base pay
`F >= 0` whose direct subordinates are one FOREMAN with base pay `F` and no
subordinate and two WORKERs with base pay `W >= 0`, all hired in the same
month, receives `F + 0.07*(F + 2*W)` in the hire month,
`1.05*F + 0.07*(1.05*F + 2*1.1*W)` twelve months later and
`1.4*F + 0.07*(1.4*F + 2*2*W)` 132 months later. -/
theorem C17_mixed_subordinates (sc : SalaryCalculator) (fuel : Nat) (f f2 w1 w2 : uuid_t)
    (F W : ℚ) (hy hm : Int)
    (hf : has_record sc f EmployeeType.FOREMAN F hy hm)
    (hf2 : has_record sc f2 EmployeeType.FOREMAN F hy hm)
    (hw1 : has_record sc w1 EmployeeType.WORKER W hy hm)
    (hw2 : has_record sc w2 EmployeeType.WORKER W hy hm)
    (hsubs : (get_direct_subordinates sc.relation_manager_ f).Perm [f2, w1, w2])
    (hnone : get_direct_subordinates sc.relation_manager_ f2 = [])
    (hF : 0 ≤ F) (hW : 0 ≤ W) (d : Int) :
    calculate_month_salary sc (fuel + 2) f ⟨hy, hm, d⟩ =
        .value (F + 0.07 * (F + 2 * W)) true ∧
      calculate_month_salary sc (fuel + 2) f ⟨hy + 1, hm, d⟩ =
        .value (1.05 * F + 0.07 * (1.05 * F + 2 * 1.1 * W)) true ∧
      calculate_month_salary sc (fuel + 2) f ⟨hy + 11, hm, d⟩ =
        .value (1.4 * F + 0.07 * (1.4 * F + 2 * 2 * W)) true := by
  obtain ⟨a0, a1, a11⟩ := worker_at sc fuel w1 W hy hm hw1 hW d
  obtain ⟨b0, b1, b11⟩ := worker_at sc fuel w2 W hy hm hw2 hW d
  obtain ⟨c0, c1, c11⟩ := foreman_leaf_at sc fuel f2 F hy hm hf2 hnone hF d
  obtain ⟨f0, f1, f11⟩ := foreman_bonus F hF
  have e0 := foreman_record_at sc (fuel + 1) f F hy hm hf [f2, w1, w2] hsubs 0 d (by decide)
    (fun x => (calculate_month_salary sc (fuel + 1) x ⟨hy + 0, hm, d⟩).amount) (by
      intro x hx
      simp only [List.mem_cons, List.mem_singleton, List.not_mem_nil, or_false] at hx
      rw [add_zero]
      rcases hx with rfl | rfl | rfl
      · simp only [c0, SalaryResult.amount]
      · simp only [a0, SalaryResult.amount]
      · simp only [b0, SalaryResult.amount])
  have e1 := foreman_record_at sc (fuel + 1) f F hy hm hf [f2, w1, w2] hsubs 1 d (by decide)
    (fun x => (calculate_month_salary sc (fuel + 1) x ⟨hy + 1, hm, d⟩).amount) (by
      intro x hx
      simp only [List.mem_cons, List.mem_singleton, List.not_mem_nil, or_false] at hx
      rcases hx with rfl | rfl | rfl
      · simp only [c1, SalaryResult.amount]
      · simp only [a1, SalaryResult.amount]
      · simp only [b1, SalaryResult.amount])
  have e11 := foreman_record_at sc (fuel + 1) f F hy hm hf [f2, w1, w2] hsubs 11 d
    (by decide)
    (fun x => (calculate_month_salary sc (fuel + 1) x ⟨hy + 11, hm, d⟩).amount) (by
      intro x hx
      simp only [List.mem_cons, List.mem_singleton, List.not_mem_nil, or_false] at hx
      rcases hx with rfl | rfl | rfl
      · simp only [c11, SalaryResult.amount]
      · simp only [a11, SalaryResult.amount]
      · simp only [b11, SalaryResult.amount])
  rw [f0] at e0
  rw [f1] at e1
  rw [f11] at e11
  simp only [List.map_cons, List.map_nil, List.sum_cons, List.sum_nil, add_zero, c0, a0, b0,
    SalaryResult.amount] at e0
  simp only [List.map_cons, List.map_nil, List.sum_cons, List.sum_nil, c1, a1, b1,
    SalaryResult.amount] at e1
  simp only [List.map_cons, List.map_nil, List.sum_cons, List.sum_nil, c11, a11, b11,
    SalaryResult.amount] at e11
  refine ⟨?_, ?_, ?_⟩
  · rw [e0]
    congr 1
    norm_num
    ring
  · rw [e1]
    congr 1
    norm_num
    ring
  · rw [e11]
    congr 1
    norm_num
    ring

theorem C17_mixed_subordinates_witness :
    calculate_month_salary foreman_calculator 2 1 ⟨2026, 1, 1⟩ =
        .value (200000 + 0.07 * (200000 + 2 * 100000)) true ∧
      calculate_month_salary foreman_calculator 2 1 ⟨2026 + 1, 1, 1⟩ =
        .value (1.05 * 200000 + 0.07 * (1.05 * 200000 + 2 * 1.1 * 100000)) true ∧
      calculate_month_salary foreman_calculator 2 1 ⟨2026 + 11, 1, 1⟩ =
        .value (1.4 * 200000 + 0.07 * (1.4 * 200000 + 2 * 2 * 100000)) true :=
  C17_mixed_subordinates foreman_calculator 0 1 2 3 4 200000 100000 2026 1
    ⟨_, rfl, rfl, rfl, rfl, rfl, rfl⟩ ⟨_, rfl, rfl, rfl, rfl, rfl, rfl⟩
    ⟨_, rfl, rfl, rfl, rfl, rfl, rfl⟩ ⟨_, rfl, rfl, rfl, rfl, rfl, rfl⟩
    (by decide) (by decide) (by norm_num) (by norm_num) 1

/-- In a forest, when `m` has the direct subordinates `f`, `w1`, `w2`, `f` has
the direct subordinates `w3`, `w4`, and the four `w` have none, the traversal
from `m` returns these five identifiers in some order. -/
theorem descendants_two_levels (s : RelationManager) (hs : Forest s)
    (m f w1 w2 w3 w4 : uuid_t)
    (hm : (get_direct_subordinates s m).Perm [f, w1, w2])
    (hf : (get_direct_subordinates s f).Perm [w3, w4])
    (h1 : get_direct_subordinates s w1 = []) (h2 : get_direct_subordinates s w2 = [])
    (h3 : get_direct_subordinates s w3 = []) (h4 : get_direct_subordinates s w4 = []) :
    ∃ r, get_all_subordinates s m = some r ∧ r.Perm [f, w1, w2, w3, w4] := by
  obtain ⟨r, hr, hcount, _⟩ := get_all_subordinates_forest s hs m
  refine ⟨r, hr, ?_⟩
  rw [List.perm_iff_count]
  intro x
  rw [get_direct_subordinates_eq] at hm hf
  have sm := strict_ancestor_step s hs m x
  have sf := strict_ancestor_step s hs f x
  rw [hm.count_eq, hm.countP_eq] at sm
  rw [hf.count_eq, hf.countP_eq] at sf
  simp only [List.countP_cons, List.countP_nil, strict_ancestor_leaf s hs w1 x h1,
    strict_ancestor_leaf s hs w2 x h2, strict_ancestor_leaf s hs w3 x h3,
    strict_ancestor_leaf s hs w4 x h4] at sm sf
  have happ : List.count x [f, w1, w2, w3, w4] =
      List.count x [f, w1, w2] + List.count x [w3, w4] := by
    rw [← List.count_append]
    rfl
  rw [hcount x, happ]
  simp only [Bool.false_eq_true, if_false, add_zero, zero_add] at sm sf
  omega

/-- C18 (compounding through levels): on a forest graph, a MANAGER with base
pay `M` whose direct subordinates are a FOREMAN (base pay `F >= 0`) and two
WORKERs (base pay `W >= 0`), where that FOREMAN has two further WORKERs (base
pay `W`) as direct subordinates and the WORKERs have none, all hired in the
same month: the traversal returns the five descendants, the FOREMAN's own
salary 132 months after hire is `1.4*F + 0.07*(2*2*W)`, and the MANAGER's is
`M + 0.03*(1.4*F + 0.07*2*2*W + 4*2*W)`. -/
theorem C18_compounding (sc : SalaryCalculator) (fuel : Nat) (m f w1 w2 w3 w4 : uuid_t)
    (M F W : ℚ) (hy hm : Int) (hforest : Forest sc.relation_manager_)
    (hrm : has_record sc m EmployeeType.MANAGER M hy hm)
    (hrf : has_record sc f EmployeeType.FOREMAN F hy hm)
    (hw1 : has_record sc w1 EmployeeType.WORKER W hy hm)
    (hw2 : has_record sc w2 EmployeeType.WORKER W hy hm)
    (hw3 : has_record sc w3 EmployeeType.WORKER W hy hm)
    (hw4 : has_record sc w4 EmployeeType.WORKER W hy hm)
    (hsm : (get_direct_subordinates sc.relation_manager_ m).Perm [f, w1, w2])
    (hsf : (get_direct_subordinates sc.relation_manager_ f).Perm [w3, w4])
    (h1 : get_direct_subordinates sc.relation_manager_ w1 = [])
    (h2 : get_direct_subordinates sc.relation_manager_ w2 = [])
    (h3 : get_direct_subordinates sc.relation_manager_ w3 = [])
    (h4 : get_direct_subordinates sc.relation_manager_ w4 = [])
    (hF : 0 ≤ F) (hW : 0 ≤ W) (d : Int) :
    (∃ r, get_all_subordinates sc.relation_manager_ m = some r ∧
      r.Perm [f, w1, w2, w3, w4]) ∧
    calculate_month_salary sc (fuel + 2) f ⟨hy + 11, hm, d⟩ =
      .value (1.4 * F + 0.07 * (2 * 2 * W)) true ∧
    calculate_month_salary sc (fuel + 3) m ⟨hy + 11, hm, d⟩ =
      .value (M + 0.03 * (1.4 * F + 0.07 * 2 * 2 * W + 4 * 2 * W)) true := by
  obtain ⟨r, hr, hperm⟩ := descendants_two_levels _ hforest m f w1 w2 w3 w4 hsm hsf
    h1 h2 h3 h4
  obtain ⟨_, _, a3⟩ := worker_at sc fuel w3 W hy hm hw3 hW d
  obtain ⟨_, _, a4⟩ := worker_at sc fuel w4 W hy hm hw4 hW d
  obtain ⟨_, _, b1⟩ := worker_at sc (fuel + 1) w1 W hy hm hw1 hW d
  obtain ⟨_, _, b2⟩ := worker_at sc (fuel + 1) w2 W hy hm hw2 hW d
  obtain ⟨_, _, b3⟩ := worker_at sc (fuel + 1) w3 W hy hm hw3 hW d
  obtain ⟨_, _, b4⟩ := worker_at sc (fuel + 1) w4 W hy hm hw4 hW d
  obtain ⟨_, _, f11⟩ := foreman_bonus F hF
  have ef := foreman_record_at sc (fuel + 1) f F hy hm hrf [w3, w4] hsf 11 d (by decide)
    (fun _ => 2 * W) (by
      intro x hx
      simp only [List.mem_cons, List.mem_singleton, List.not_mem_nil, or_false] at hx
      rcases hx with rfl | rfl
      · exact a3
      · exact a4)
  rw [f11] at ef
  simp only [List.map_cons, List.map_nil, List.sum_cons, List.sum_nil, add_zero] at ef
  have em := manager_record_at sc (fuel + 2) m M hy hm hrm r [f, w1, w2, w3, w4] hr hperm
    11 d (by decide)
    (fun x => (calculate_month_salary sc (fuel + 2) x ⟨hy + 11, hm, d⟩).amount) (by
      intro x hx
      simp only [List.mem_cons, List.mem_singleton, List.not_mem_nil, or_false] at hx
      rcases hx with rfl | rfl | rfl | rfl | rfl
      · simp only [ef, SalaryResult.amount]
      · simp only [b1, SalaryResult.amount]
      · simp only [b2, SalaryResult.amount]
      · simp only [b3, SalaryResult.amount]
      · simp only [b4, SalaryResult.amount])
  simp only [List.map_cons, List.map_nil, List.sum_cons, List.sum_nil, add_zero, ef, b1, b2,
    b3, b4, SalaryResult.amount] at em
  refine ⟨⟨r, hr, hperm⟩, ?_, ?_⟩
  · rw [ef]
    congr 1
    norm_num
    ring
  · rw [em]
    congr 1
    norm_num
    ring

theorem C18_compounding_witness :
    (∃ r, get_all_subordinates manager_calculator.relation_manager_ 1 = some r ∧
      r.Perm [2, 3, 4, 5, 6]) ∧
    calculate_month_salary manager_calculator 2 2 ⟨2026 + 11, 1, 1⟩ =
      .value (1.4 * 200000 + 0.07 * (2 * 2 * 100000)) true ∧
    calculate_month_salary manager_calculator 3 1 ⟨2026 + 11, 1, 1⟩ =
      .value (300000 + 0.03 * (1.4 * 200000 + 0.07 * 2 * 2 * 100000 + 4 * 2 * 100000)) true :=
  C18_compounding manager_calculator 0 1 2 3 4 5 6 300000 200000 100000 2026 1
    (reachable_forest _ manager_calculator_reachable)
    ⟨_, rfl, rfl, rfl, rfl, rfl, rfl⟩ ⟨_, rfl, rfl, rfl, rfl, rfl, rfl⟩
    ⟨_, rfl, rfl, rfl, rfl, rfl, rfl⟩ ⟨_, rfl, rfl, rfl, rfl, rfl, rfl⟩
    ⟨_, rfl, rfl, rfl, rfl, rfl, rfl⟩ ⟨_, rfl, rfl, rfl, rfl, rfl, rfl⟩
    (by decide) (by decide) (by decide) (by decide) (by decide) (by decide)
    (by norm_num) (by norm_num) 1

/-! ## Day of month -/

theorem store_find_with_hire_days (day : Employee → Int)
    (store : List (uuid_t × Option Employee)) (k : uuid_t) :
    store_find (store_with_hire_days day store) k =
      (store_find store k).map (fun oe => oe.map (with_hire_day day)) := by
  induction store with
  | nil => rfl
  | cons p store ih =>
    obtain ⟨k1, v⟩ := p
    by_cases hk : k1 = k
    · simp [store_with_hire_days, store_find, hk]
    · simp only [store_with_hire_days, List.map_cons, store_find, hk, if_false]
      exact ih

theorem normalized_day (y m d d2 : Int) :
    normalized ⟨y, m, d2⟩ = normalized ⟨y, m, d⟩ := rfl

theorem calculate_month_salary_day (sc : SalaryCalculator) (day : Employee → Int)
    (y m d d2 : Int) :
    ∀ (fuel : Nat) (id : uuid_t),
      calculate_month_salary
          ⟨store_with_hire_days day sc.employees_, sc.relation_manager_⟩ fuel id ⟨y, m, d2⟩ =
        calculate_month_salary sc fuel id ⟨y, m, d⟩ := by
  intro fuel
  induction fuel with
  | zero => intro id; rfl
  | succ fuel ih =>
    intro id
    have hcb : (fun x => calculate_month_salary
        ⟨store_with_hire_days day sc.employees_, sc.relation_manager_⟩ fuel x ⟨y, m, d2⟩) =
        (fun x => calculate_month_salary sc fuel x ⟨y, m, d⟩) := funext ih
    simp only [calculate_month_salary, store_find_with_hire_days]
    cases hf : store_find sc.employees_ id with
    | none => rfl
    | some oe =>
      cases oe with
      | none => rfl
      | some e =>
        simp only [Option.map_some']
        have ht : (with_hire_day day e).type_ = e.type_ := rfl
        rw [ht]
        cases e.type_ with
        | WORKER =>
          simp only [calculate_worker_salary, full_years, months_diff, with_hire_day,
            normalized]
        | FOREMAN =>
          simp only [hcb]
          simp only [calculate_foreman_salary, full_years, months_diff, with_hire_day,
            normalized]
        | MANAGER =>
          simp only [hcb]
          simp only [calculate_manager_salary, full_years, months_diff, with_hire_day,
            normalized]

/-- C19 (day of month is never significant): two runs of
`calculate_month_salary` that differ in the day of the query date, in the days
of the hire dates of any records of the store, or in both, return the same
result (same amount and same success flag), for every graph, fuel and
identifier. -/
theorem C19_day_insignificant (sc : SalaryCalculator) (day : Employee → Int)
    (fuel : Nat) (id : uuid_t) (y m d d2 : Int) :
    calculate_month_salary sc fuel id ⟨y, m, d2⟩ =
        calculate_month_salary sc fuel id ⟨y, m, d⟩ ∧
      calculate_month_salary
          ⟨store_with_hire_days day sc.employees_, sc.relation_manager_⟩ fuel id ⟨y, m, d⟩ =
        calculate_month_salary sc fuel id ⟨y, m, d⟩ ∧
      calculate_month_salary
          ⟨store_with_hire_days day sc.employees_, sc.relation_manager_⟩ fuel id ⟨y, m, d2⟩ =
        calculate_month_salary sc fuel id ⟨y, m, d⟩ := by
  refine ⟨?_, calculate_month_salary_day sc day y m d d fuel id,
    calculate_month_salary_day sc day y m d d2 fuel id⟩
  have h1 := calculate_month_salary_day sc day y m d d2 fuel id
  have h2 := calculate_month_salary_day sc day y m d2 d2 fuel id
  rw [← h2, h1]

/-! ## Claims on the facade -/

/-- C20 (no dangling edges) fails on the code: registering two foremen 1 and 2,
recording 2 as subordinate of 1 and then removing employee 2 leaves the edge
in the graph (`get_chief(2)` is 1, 2 is a direct subordinate of 1) although 2
is no longer in the store; a salary query for 1 then stops at the `assert` of
`calculate_month_salary` on the missing record. -/
theorem C20_dangling_edge_after_remove_employee :
    ∃ m, facade_run EmployeeManager.empty
        [.add_employee FOREMAN_DESCR 1, .add_employee FOREMAN_DESCR 2,
          .add_subordination 1 2, .remove_employee 2] = some m ∧
      get_chief m.relation_manager 2 = some 1 ∧
      get_direct_subordinates m.relation_manager 1 = [2] ∧
      store_find m.employees 2 = none ∧
      calculate_employee_salary m 1 ⟨2026, 1, 1⟩ = .assertion_failure :=
  ⟨_, rfl, rfl, rfl, rfl, rfl⟩

/-! ## Further facts on the relation graph -/

/-- In a forest no identifier is its own recorded chief. -/
theorem forest_no_self_edge (s : RelationManager) (hs : Forest s) (c x : uuid_t)
    (h : map_find s.sub_to_chief_ x = some c) : c ≠ x := by
  intro e
  subst e
  have := congrArg List.length (chain_of_child s hs c c h)
  simp at this

theorem reachable_step_add (s s2 : RelationManager) (h : Reachable s) (c i : uuid_t) (b : Bool)
    (hadd : add_relation s c i = some (b, s2)) : Reachable s2 := by
  obtain ⟨ops, hops⟩ := h
  refine ⟨ops ++ [.add c i], ?_⟩
  have : ∀ (l : List Op) (t : RelationManager), run_ops t l = some s →
      run_ops t (l ++ [.add c i]) = some s2 := by
    intro l
    induction l with
    | nil =>
      intro t ht
      simp only [run_ops] at ht
      cases ht
      simp [run_ops, apply_op, hadd]
    | cons op l ih =>
      intro t ht
      simp only [run_ops, List.cons_append] at ht ⊢
      cases hop : apply_op t op with
      | none => simp [hop] at ht
      | some t1 =>
        simp only [hop] at ht ⊢
        exact ih t1 ht
  exact this ops _ hops

theorem get_all_subordinates_loop_mono (m : List (uuid_t × uuid_t)) :
    ∀ (n n2 : Nat) (tower all r : List uuid_t),
      get_all_subordinates_loop m n tower all = some r → n ≤ n2 →
      get_all_subordinates_loop m n2 tower all = some r := by
  intro n
  induction n with
  | zero =>
    intro n2 tower all r h _
    cases tower with
    | nil =>
      simp only [get_all_subordinates_loop] at h ⊢
      exact h
    | cons cur rest => simp [get_all_subordinates_loop] at h
  | succ n ih =>
    intro n2 tower all r h hle
    cases tower with
    | nil =>
      simp only [get_all_subordinates_loop] at h ⊢
      exact h
    | cons cur rest =>
      obtain ⟨k, rfl⟩ : ∃ k, n2 = k + 1 := ⟨n2 - 1, by omega⟩
      simp only [get_all_subordinates_loop] at h ⊢
      exact ih k _ _ r h (by omega)

/-- Adding an absent key and erasing it again gives the map back. -/
theorem map_erase_assign (m : List (uuid_t × uuid_t)) (key value : uuid_t)
    (h : map_find m key = none) : map_erase (map_assign m key value) key = m := by
  induction m with
  | nil => simp [map_assign, map_erase]
  | cons p m ih =>
    obtain ⟨k, v⟩ := p
    by_cases hk : k = key
    · simp [map_find, hk] at h
    · simp only [map_find, hk, if_false] at h
      simp [map_assign, map_erase, hk, ih h]

theorem removed_added (s : RelationManager) (hs : Forest s) (c i : uuid_t)
    (hnone : map_find s.sub_to_chief_ i = none) : removed (added s c i) c i = s := by
  have hnot : (c, i) ∉ s.chief_to_subs_ := by
    intro hmem
    have hpos : 0 < s.chief_to_subs_.count (c, i) := List.count_pos_iff.2 hmem
    rw [hs.view c i, hnone] at hpos
    simp at hpos
  cases s with
  | mk s2c c2s =>
    simp only [removed, added, multimap_insert] at hnot ⊢
    rw [map_erase_assign _ _ _ hnone, List.erase_append_right _ hnot]
    simp

/-! ## Claims on rejection, termination and round trips -/

/-- C24 (idempotent rejection): in every reachable state, after an accepted
`add_relation(id_chief, id)` the same call repeated at once returns false and
leaves the state as it is, in which the pair occurs once in the inverse view,
`id` occurs once among the direct subordinates of `id_chief`, and the recorded
chief of `id` is `id_chief`. -/
theorem C24_idempotent_rejection (s s2 : RelationManager) (h : Reachable s)
    (id_chief id : uuid_t) (hadd : add_relation s id_chief id = some (true, s2)) :
    add_relation s2 id_chief id = some (false, s2) ∧
      s2.chief_to_subs_.count (id_chief, id) = 1 ∧
      (get_direct_subordinates s2 id_chief).count id = 1 ∧
      get_chief s2 id = some id_chief := by
  have hs2 : Forest s2 := reachable_forest s2 (reachable_step_add s s2 h _ _ _ hadd)
  obtain ⟨hne, _, rfl⟩ := add_relation_true s s2 id_chief id hadd
  have hfind : map_find (added s id_chief id).sub_to_chief_ id = some id_chief := by
    simp [added, map_find_assign]
  have hcount := hs2.view id_chief id
  rw [hfind] at hcount
  simp only [if_true] at hcount
  refine ⟨?_, hcount, ?_, hfind⟩
  · unfold add_relation
    simp [hne, hfind]
  · rw [get_direct_subordinates_eq, count_equal_range, hcount]

theorem C24_idempotent_rejection_witness :
    add_relation ⟨[(2, 1), (3, 2), (4, 3), (5, 1)], [(1, 2), (2, 3), (3, 4), (1, 5)]⟩ 1 5 =
      some (false, ⟨[(2, 1), (3, 2), (4, 3), (5, 1)], [(1, 2), (2, 3), (3, 4), (1, 5)]⟩) :=
  (C24_idempotent_rejection chain_state _ chain_state_reachable 1 5 (by decide)).1

/-- C26 (the traversal needs no cycle guard): in every reachable state and for
every identifier the stack loop of `get_all_subordinates` returns within as
many pops as there are recorded edges, any larger allowance gives the same
list, and that list, to which every pushed identifier is appended once, is
no longer than the number of recorded edges. -/
theorem C26_traversal_terminates (s : RelationManager) (h : Reachable s) (id : uuid_t) :
    ∃ r, get_all_subordinates s id = some r ∧
      r.length ≤ s.chief_to_subs_.length ∧
      (multimap_contains s.chief_to_subs_ id = true →
        ∀ fuel, s.chief_to_subs_.length ≤ fuel →
          get_all_subordinates_loop s.chief_to_subs_ fuel
            (equal_range s.chief_to_subs_ id).reverse (equal_range s.chief_to_subs_ id) =
            some r) := by
  have hs := reachable_forest s h
  obtain ⟨r, hr, hcount, _⟩ := get_all_subordinates_forest s hs id
  refine ⟨r, hr, ?_, ?_⟩
  · exact traversal_length_le s hs id [] r (by intro x; simpa using hcount x)
  · intro hc fuel hfuel
    have hr2 := hr
    simp only [get_all_subordinates, hc, if_true] at hr2
    exact get_all_subordinates_loop_mono _ _ _ _ _ _ hr2 hfuel

theorem C26_traversal_terminates_witness :
    Reachable tree_state ∧
      ∃ r, get_all_subordinates tree_state 10 = some r ∧
        r.length ≤ tree_state.chief_to_subs_.length ∧
        (multimap_contains tree_state.chief_to_subs_ 10 = true →
          ∀ fuel, tree_state.chief_to_subs_.length ≤ fuel →
            get_all_subordinates_loop tree_state.chief_to_subs_ fuel
              (equal_range tree_state.chief_to_subs_ 10).reverse
              (equal_range tree_state.chief_to_subs_ 10) = some r) :=
  ⟨tree_state_reachable, C26_traversal_terminates tree_state tree_state_reachable 10⟩

/-- C27 (the cycle check terminates): in every reachable state and for every
pair, the chief chain of `id_chief` ends after at most one identifier more
than there are recorded subordinate entries, and the walk of
`has_hierarchical_cycle` returns within that many iterations (one lookup at
most per iteration), with any larger allowance giving the same answer: true
exactly when `id` lies on that chain. -/
theorem C27_cycle_check_terminates (s : RelationManager) (h : Reachable s)
    (id_chief id : uuid_t) :
    ∃ b l, has_hierarchical_cycle s id_chief id = some b ∧
      chief_chain s.sub_to_chief_ (s.sub_to_chief_.length + 1) id_chief = some l ∧
      l.length ≤ s.sub_to_chief_.length + 1 ∧
      (b = true ↔ id ∈ l) ∧
      ∀ fuel, l.length ≤ fuel →
        has_hierarchical_cycle_loop s.sub_to_chief_ id fuel id_chief = some b := by
  have hs := reachable_forest s h
  obtain ⟨l, hl⟩ := forest_chain_fuel s hs id_chief
  have hlen := chief_chain_length_le _ _ id_chief l hl
  refine ⟨decide (id ∈ l), l, has_hierarchical_cycle_loop_eq _ id _ _ _ hl, hl, hlen,
    by simp, ?_⟩
  intro fuel hfuel
  exact has_hierarchical_cycle_loop_eq _ id _ _ _
    (chief_chain_mono _ _ _ id_chief l (chief_chain_fuel _ _ id_chief l hl) hfuel)

theorem C27_cycle_check_terminates_witness :
    Reachable chain_state ∧
      ∃ b l, has_hierarchical_cycle chain_state 4 1 = some b ∧
        chief_chain chain_state.sub_to_chief_ (chain_state.sub_to_chief_.length + 1) 4 =
          some l ∧
        l.length ≤ chain_state.sub_to_chief_.length + 1 ∧
        (b = true ↔ 1 ∈ l) ∧
        ∀ fuel, l.length ≤ fuel →
          has_hierarchical_cycle_loop chain_state.sub_to_chief_ 1 fuel 4 = some b :=
  ⟨chain_state_reachable, C27_cycle_check_terminates chain_state chain_state_reachable 4 1⟩

/-- C29 (add then remove is a round trip): in every reachable state, after an
accepted `add_relation(id_chief, id)` the call `remove_relation(id_chief, id)`
returns true, and in the state it leaves `get_chief` answers as before the
add, `get_direct_subordinates` and `get_all_subordinates` return rearrangements
of what they returned before the add, for every identifier, and
`add_relation(id_chief, id)` is accepted again. -/
theorem C29_add_remove_round_trip (s s2 : RelationManager) (h : Reachable s)
    (id_chief id : uuid_t) (hadd : add_relation s id_chief id = some (true, s2)) :
    ∃ s3, remove_relation s2 id_chief id = (true, s3) ∧
      (∀ x, get_chief s3 x = get_chief s x) ∧
      (∀ x, (get_direct_subordinates s3 x).Perm (get_direct_subordinates s x)) ∧
      (∀ x, ∃ r3 r, get_all_subordinates s3 x = some r3 ∧
        get_all_subordinates s x = some r ∧ r3.Perm r) ∧
      ∃ s4, add_relation s3 id_chief id = some (true, s4) := by
  have hs := reachable_forest s h
  have hs2 : Forest s2 := reachable_forest s2 (reachable_step_add s s2 h _ _ _ hadd)
  obtain ⟨hne, hnone, rfl⟩ := add_relation_true s s2 id_chief id hadd
  have hfind : map_find (added s id_chief id).sub_to_chief_ id = some id_chief := by
    simp [added, map_find_assign]
  have hrem := remove_relation_forest _ hs2 id_chief id
  rw [if_pos ⟨hne, hfind⟩, removed_added s hs id_chief id hnone] at hrem
  refine ⟨s, hrem, fun _ => rfl, fun _ => List.Perm.refl _, ?_, _, hadd⟩
  intro x
  obtain ⟨r, hr, _⟩ := get_all_subordinates_forest s hs x
  exact ⟨r, r, hr, hr, List.Perm.refl _⟩

theorem C29_add_remove_round_trip_witness :
    ∃ s3, remove_relation
        ⟨[(2, 1), (3, 2), (4, 3), (5, 1)], [(1, 2), (2, 3), (3, 4), (1, 5)]⟩ 1 5 = (true, s3) ∧
      (∀ x, get_chief s3 x = get_chief chain_state x) ∧
      (∀ x, (get_direct_subordinates s3 x).Perm (get_direct_subordinates chain_state x)) ∧
      (∀ x, ∃ r3 r, get_all_subordinates s3 x = some r3 ∧
        get_all_subordinates chain_state x = some r ∧ r3.Perm r) ∧
      ∃ s4, add_relation s3 1 5 = some (true, s4) :=
  C29_add_remove_round_trip chain_state _ chain_state_reachable 1 5 (by decide)

/-- C30 (the `!found` branch of `remove_relation` is unreachable): in every
reachable state in which the primary map sends `id` to `id_chief`, the scan of
the inverse view finds the pair, `remove_relation(id_chief, id)` returns true
with the entry erased from both views, and in the state it leaves the inverse
view again holds exactly the pairs of the primary map, once each. -/
theorem C30_found_always (s : RelationManager) (h : Reachable s) (id_chief id : uuid_t)
    (hmap : map_find s.sub_to_chief_ id = some id_chief) :
    (∃ c2s, multimap_erase_pair s.chief_to_subs_ id_chief id = some c2s) ∧
      remove_relation s id_chief id = (true, removed s id_chief id) ∧
      ∀ c x, (remove_relation s id_chief id).2.chief_to_subs_.count (c, x) =
        if map_find (remove_relation s id_chief id).2.sub_to_chief_ x = some c
        then 1 else 0 := by
  have hs := reachable_forest s h
  have hne : id_chief ≠ id := forest_no_self_edge s hs id_chief id hmap
  have hrem := remove_relation_forest s hs id_chief id
  rw [if_pos ⟨hne, hmap⟩] at hrem
  refine ⟨?_, hrem, ?_⟩
  · have hmem : (id_chief, id) ∈ s.chief_to_subs_ := by
      have hpos := hs.view id_chief id
      rw [hmap] at hpos
      simp only [if_true] at hpos
      exact List.count_pos_iff.1 (by omega)
    exact ⟨_, by rw [multimap_erase_pair_eq, if_pos hmem]⟩
  · rw [hrem]
    exact (forest_removed s hs id_chief id hmap).view

theorem C30_found_always_witness :
    Reachable chain_state ∧
      remove_relation chain_state 2 3 = (true, removed chain_state 2 3) :=
  ⟨chain_state_reachable,
    (C30_found_always chain_state chain_state_reachable 2 3 (by decide)).2.1⟩

/-! ## Further claims on the facade -/

/-- C23 (facade queries on an unregistered identifier): when the lookup of `id`
in the employee store gives no record, whatever the graph holds,
`get_chief` returns no value, `get_direct_subordinates` and
`get_all_subordinates` return the empty list and `calculate_employee_salary`
returns the pair (0, false). -/
theorem C23_unregistered_queries (m : EmployeeManager) (id : uuid_t) (date : date_t)
    (h : find_employee_by_id m id = none) :
    m.get_chief id = none ∧
      m.get_direct_subordinates id = [] ∧
      m.get_all_subordinates id = some [] ∧
      calculate_employee_salary m id date = .value 0 false ∧
      (calculate_employee_salary m id date).succeeded = false := by
  simp [EmployeeManager.get_chief, EmployeeManager.get_direct_subordinates,
    EmployeeManager.get_all_subordinates, calculate_employee_salary, h,
    SalaryResult.succeeded]

theorem C23_unregistered_queries_witness :
    employee.get_chief dangling_state.relation_manager 2 = some 1 ∧
      dangling_state.get_chief 2 = none ∧
      dangling_state.get_direct_subordinates 2 = [] ∧
      dangling_state.get_all_subordinates 2 = some [] ∧
      calculate_employee_salary dangling_state 2 ⟨2026, 1, 1⟩ = .value 0 false ∧
      (calculate_employee_salary dangling_state 2 ⟨2026, 1, 1⟩).succeeded = false :=
  ⟨rfl, C23_unregistered_queries dangling_state 2 ⟨2026, 1, 1⟩ rfl⟩

/-! ## Facts on the employee store and the facade -/

theorem store_find_assign (m : List (uuid_t × Option Employee)) (key x : uuid_t)
    (value : Option Employee) :
    store_find (store_assign m key value) x =
      if key = x then some value else store_find m x := by
  induction m with
  | nil => simp [store_assign, store_find]
  | cons p m ih =>
    obtain ⟨k, v⟩ := p
    by_cases hk : k = key
    · subst hk
      by_cases hx : k = x <;> simp [store_assign, store_find, hx]
    · by_cases hx : k = x
      · subst hx
        simp [store_assign, store_find, hk, Ne.symm hk]
      · simp [store_assign, store_find, hk, hx, ih]

theorem store_find_none_iff (m : List (uuid_t × Option Employee)) (x : uuid_t) :
    store_find m x = none ↔ x ∉ m.map Prod.fst := by
  induction m with
  | nil => simp [store_find]
  | cons p m ih =>
    obtain ⟨k, v⟩ := p
    by_cases hk : k = x
    · simp [store_find, hk]
    · simp [store_find, hk, ih, Ne.symm hk]

theorem store_find_erase_ne (m : List (uuid_t × Option Employee)) (key x : uuid_t)
    (h : key ≠ x) : store_find (store_erase m key) x = store_find m x := by
  induction m with
  | nil => simp [store_erase]
  | cons p m ih =>
    obtain ⟨k, v⟩ := p
    by_cases hk : k = key
    · subst hk
      simp [store_erase, store_find, h]
    · by_cases hx : k = x
      · subst hx
        simp [store_erase, store_find, hk]
      · simp [store_erase, store_find, hk, hx, ih]

theorem store_erase_keys_sublist (m : List (uuid_t × Option Employee)) (key : uuid_t) :
    ((store_erase m key).map Prod.fst).Sublist (m.map Prod.fst) := by
  induction m with
  | nil => simp [store_erase]
  | cons p m ih =>
    obtain ⟨k, v⟩ := p
    by_cases hk : k = key
    · simp [store_erase, hk]
    · simp [store_erase, hk, ih]

theorem store_find_erase_self (m : List (uuid_t × Option Employee)) (key : uuid_t)
    (hnd : (m.map Prod.fst).Nodup) : store_find (store_erase m key) key = none := by
  induction m with
  | nil => simp [store_erase, store_find]
  | cons p m ih =>
    obtain ⟨k, v⟩ := p
    simp only [List.map_cons, List.nodup_cons] at hnd
    by_cases hk : k = key
    · subst hk
      simp only [store_erase, if_true]
      exact (store_find_none_iff m k).2 hnd.1
    · simp [store_erase, store_find, hk, ih hnd.2]

theorem store_assign_keys (m : List (uuid_t × Option Employee)) (key : uuid_t)
    (value : Option Employee) :
    (store_assign m key value).map Prod.fst =
      if key ∈ m.map Prod.fst then m.map Prod.fst else m.map Prod.fst ++ [key] := by
  induction m with
  | nil => simp [store_assign]
  | cons p m ih =>
    obtain ⟨k, v⟩ := p
    by_cases hk : k = key
    · simp [store_assign, hk]
    · have hne : ¬key = k := fun e => hk e.symm
      by_cases hmem : key ∈ m.map Prod.fst
      · rw [if_pos hmem] at ih
        have hmem2 : ∃ a, (key, a) ∈ m := by simpa using hmem
        simp [store_assign, hk, ih, hne, hmem2]
      · rw [if_neg hmem] at ih
        have hmem2 : ¬∃ a, (key, a) ∈ m := by simpa using hmem
        simp only [store_assign, hk, if_false, List.map_cons, ih, List.mem_cons, hne,
          false_or, List.cons_append]
        rw [if_neg hmem]

theorem store_assign_keys_nodup (m : List (uuid_t × Option Employee)) (key : uuid_t)
    (value : Option Employee) (hnd : (m.map Prod.fst).Nodup) :
    ((store_assign m key value).map Prod.fst).Nodup := by
  rw [store_assign_keys]
  by_cases hmem : key ∈ m.map Prod.fst
  · rw [if_pos hmem]
    exact hnd
  · rw [if_neg hmem]
    refine List.Nodup.append hnd (by simp) ?_
    intro a ha hb
    simp at hb
    subst hb
    exact hmem ha

theorem store_assign_keys_mem (m : List (uuid_t × Option Employee)) (key k : uuid_t)
    (value : Option Employee) (h : k ∈ (store_assign m key value).map Prod.fst) :
    k ∈ m.map Prod.fst ∨ k = key := by
  rw [store_assign_keys] at h
  by_cases hmem : key ∈ m.map Prod.fst
  · rw [if_pos hmem] at h
    exact Or.inl h
  · rw [if_neg hmem] at h
    rcases List.mem_append.1 h with h1 | h1
    · exact Or.inl h1
    · exact Or.inr (by simpa using h1)

/-- What a returning `add_relation` does to the state. -/
theorem add_relation_cases (s s2 : RelationManager) (c i : uuid_t) (b : Bool)
    (h : add_relation s c i = some (b, s2)) :
    (b = false ∧ s2 = s) ∨ (b = true ∧ s2 = added s c i) := by
  cases b with
  | true => exact Or.inr ⟨rfl, (add_relation_true s s2 c i h).2.2⟩
  | false =>
    left
    refine ⟨rfl, ?_⟩
    unfold add_relation at h
    split_ifs at h with h1
    · simp at h
      exact h.symm
    · split at h
      · simp at h
        exact h.symm
      · split at h
        · simp at h
        · simp at h
          exact h.symm
        · simp at h

/-- What `remove_relation` does to the state. -/
theorem remove_relation_cases (s : RelationManager) (c i : uuid_t) :
    (remove_relation s c i).2 = s ∨
      ((c, i) ∈ s.chief_to_subs_ ∧ (remove_relation s c i).2 = removed s c i) := by
  unfold remove_relation
  by_cases h1 : c = i
  · left
    simp [h1]
  · cases hf : map_find s.sub_to_chief_ i with
    | none =>
      left
      simp [h1]
    | some d =>
      by_cases hd : d = c
      · subst hd
        by_cases hmem : (d, i) ∈ s.chief_to_subs_
        · right
          refine ⟨hmem, ?_⟩
          simp [h1, multimap_erase_pair_eq, hmem, removed]
        · left
          simp [h1, multimap_erase_pair_eq, hmem]
      · left
        simp [h1, hd]

theorem facade_inv_empty : FacadeInv EmployeeManager.empty where
  keys_nodup := by simp [EmployeeManager.empty]
  keyed := by intro k e h; simp [EmployeeManager.empty, store_find] at h
  forest := forest_empty

theorem facade_inv_add_employee (m : EmployeeManager) (hm : FacadeInv m)
    (description : EmployeeDescr) (generated : uuid_t) :
    FacadeInv (add_employee m description generated).2 where
  keys_nodup := store_assign_keys_nodup _ _ _ hm.keys_nodup
  keyed := by
    intro k e h
    simp only [add_employee, Employee.create, store_find_assign] at h
    by_cases hk : generated = k
    · rw [if_pos hk] at h
      simp only [Option.some.injEq] at h
      rw [← h]
      exact hk
    · rw [if_neg hk] at h
      exact hm.keyed k e h
  forest := hm.forest

theorem facade_inv_remove_employee (m : EmployeeManager) (hm : FacadeInv m) (id : uuid_t) :
    FacadeInv (remove_employee m id).2 := by
  unfold remove_employee
  cases hf : store_find m.employees id with
  | none => exact hm
  | some v =>
    refine ⟨(store_erase_keys_sublist _ _).nodup hm.keys_nodup, ?_, hm.forest⟩
    intro k e h
    by_cases hk : id = k
    · subst hk
      simp only [store_find_erase_self _ _ hm.keys_nodup] at h
      exact Option.noConfusion h
    · simp only [store_find_erase_ne _ _ _ hk] at h
      exact hm.keyed k e h

theorem facade_inv_add_subordination (m : EmployeeManager) (hm : FacadeInv m)
    (chief subordinate : uuid_t) :
    ∃ b m2, add_subordination m chief subordinate = some (b, m2) ∧ FacadeInv m2 := by
  unfold add_subordination
  by_cases hr : rejected_pair chief
      [find_employee_by_id m chief, find_employee_by_id m subordinate] = true
  · exact ⟨false, m, by simp [hr], hm⟩
  · obtain ⟨b, s2, hadd, hs2⟩ := forest_add_relation _ hm.forest chief subordinate
    exact ⟨b, { m with relation_manager := s2 }, by simp [hr, hadd],
      ⟨hm.keys_nodup, hm.keyed, hs2⟩⟩

theorem facade_inv_remove_subordination (m : EmployeeManager) (hm : FacadeInv m)
    (chief subordinate : uuid_t) : FacadeInv (remove_subordination m chief subordinate).2 := by
  unfold remove_subordination
  by_cases hr : rejected_pair chief
      [find_employee_by_id m chief, find_employee_by_id m subordinate] = true
  · simp only [hr, if_true]
    exact hm
  · simp only [hr]
    exact ⟨hm.keys_nodup, hm.keyed, forest_remove_relation _ hm.forest chief subordinate⟩

theorem facade_inv_apply (m : EmployeeManager) (hm : FacadeInv m) (op : FacadeOp) :
    ∃ m2, facade_apply m op = some m2 ∧ FacadeInv m2 := by
  cases op with
  | add_employee description generated =>
    exact ⟨_, rfl, facade_inv_add_employee m hm description generated⟩
  | remove_employee id => exact ⟨_, rfl, facade_inv_remove_employee m hm id⟩
  | add_subordination chief subordinate =>
    obtain ⟨b, m2, h, hinv⟩ := facade_inv_add_subordination m hm chief subordinate
    exact ⟨m2, by simp [facade_apply, h], hinv⟩
  | remove_subordination chief subordinate =>
    exact ⟨_, rfl, facade_inv_remove_subordination m hm chief subordinate⟩

theorem facade_inv_run (ops : List FacadeOp) :
    ∀ m, FacadeInv m → ∃ m2, facade_run m ops = some m2 ∧ FacadeInv m2 := by
  induction ops with
  | nil => intro m hm; exact ⟨m, rfl, hm⟩
  | cons op ops ih =>
    intro m hm
    obtain ⟨m1, h1, hinv1⟩ := facade_inv_apply m hm op
    obtain ⟨m2, h2, hinv2⟩ := ih m1 hinv1
    exact ⟨m2, by simp [facade_run, h1, h2], hinv2⟩

theorem facade_reachable_inv (m : EmployeeManager) (h : FacadeReachable m) : FacadeInv m := by
  obtain ⟨ops, hops⟩ := h
  obtain ⟨m2, h2, hinv⟩ := facade_inv_run ops _ facade_inv_empty
  rw [hops] at h2
  cases h2
  exact hinv

theorem find_employee_by_id_some (m : EmployeeManager) (id : uuid_t) (e : Employee) :
    find_employee_by_id m id = some e ↔ store_find m.employees id = some (some e) := by
  unfold find_employee_by_id
  cases hf : store_find m.employees id with
  | none => simp
  | some v => simp

/-- In a state kept by the facade, the test on the two looked-up records
rejects exactly when one of them is missing or the chief is a WORKER. -/
theorem rejected_pair_iff (m : EmployeeManager) (hm : FacadeInv m) (chief subordinate : uuid_t) :
    rejected_pair chief [find_employee_by_id m chief, find_employee_by_id m subordinate] =
        false ↔
      (∃ ec, find_employee_by_id m chief = some ec ∧ ec.type_ ≠ EmployeeType.WORKER) ∧
        ∃ es, find_employee_by_id m subordinate = some es := by
  cases hc : find_employee_by_id m chief with
  | none => simp [rejected_pair]
  | some ec =>
    have hidc : ec.id_ = chief := hm.keyed chief ec ((find_employee_by_id_some m chief ec).1 hc)
    cases hsb : find_employee_by_id m subordinate with
    | none => simp [rejected_pair]
    | some es =>
      have hids : es.id_ = subordinate :=
        hm.keyed subordinate es ((find_employee_by_id_some m subordinate es).1 hsb)
      by_cases hw : ec.type_ = EmployeeType.WORKER
      · simp [rejected_pair, hidc, hw]
      · by_cases hsame : subordinate = chief
        · subst hsame
          rw [hc] at hsb
          cases hsb
          simp [rejected_pair, hidc, hw]
        · simp [rejected_pair, hidc, hids, hw, hsame]

theorem workers_state_reachable : FacadeReachableUnique workers_state :=
  ⟨[.add_employee FOREMAN_DESCR 1, .add_employee FOREMAN_DESCR 2,
      .add_employee { FOREMAN_DESCR with type := .WORKER } 3,
      .add_employee { FOREMAN_DESCR with type := .WORKER } 4,
      .add_subordination 1 2], by decide, rfl⟩

theorem facade_reachable_of_unique (m : EmployeeManager) (h : FacadeReachableUnique m) :
    FacadeReachable m := by
  obtain ⟨ops, _, hops⟩ := h
  exact ⟨ops, hops⟩

/-- C21 (facade gate of `add_subordination`): in every state reachable through
the facade the call returns, and it returns true exactly when both identifiers
have a record in the store, the chief's record is not a WORKER and
`add_relation(chief, subordinate)` accepts the edge; when either identifier has
no record or the chief is a WORKER, the state (the graph included) is left as
it was. -/
theorem C21_add_subordination_gate (m : EmployeeManager) (h : FacadeReachable m)
    (chief subordinate : uuid_t) :
    ∃ b m2, add_subordination m chief subordinate = some (b, m2) ∧
      (b = true ↔
        (∃ ec, find_employee_by_id m chief = some ec ∧ ec.type_ ≠ EmployeeType.WORKER) ∧
        (∃ es, find_employee_by_id m subordinate = some es) ∧
        ∃ s2, add_relation m.relation_manager chief subordinate = some (true, s2)) ∧
      ((find_employee_by_id m chief = none ∨ find_employee_by_id m subordinate = none ∨
          ∃ ec, find_employee_by_id m chief = some ec ∧ ec.type_ = EmployeeType.WORKER) →
        m2 = m ∧ m2.relation_manager = m.relation_manager) := by
  have hm := facade_reachable_inv m h
  have hiff := rejected_pair_iff m hm chief subordinate
  by_cases hr : rejected_pair chief
      [find_employee_by_id m chief, find_employee_by_id m subordinate] = true
  · refine ⟨false, m, by simp [add_subordination, hr], ?_, fun _ => ⟨rfl, rfl⟩⟩
    constructor
    · intro hb
      exact absurd hb (by decide)
    · rintro ⟨hA, hB, _⟩
      have := hiff.2 ⟨hA, hB⟩
      rw [hr] at this
      exact absurd this (by decide)
  · have hrf : rejected_pair chief
        [find_employee_by_id m chief, find_employee_by_id m subordinate] = false := by
      simpa using hr
    obtain ⟨hA, hB⟩ := hiff.1 hrf
    obtain ⟨b, s2, hadd, _⟩ := forest_add_relation _ hm.forest chief subordinate
    refine ⟨b, { m with relation_manager := s2 }, by simp [add_subordination, hrf, hadd],
      ?_, ?_⟩
    · constructor
      · intro hb
        subst hb
        exact ⟨hA, hB, s2, hadd⟩
      · rintro ⟨_, _, s3, h3⟩
        rw [hadd] at h3
        simp only [Option.some.injEq, Prod.mk.injEq] at h3
        exact h3.1
    · rintro (hc | hs | ⟨ec, hec, hw⟩)
      · obtain ⟨ec, hec, _⟩ := hA
        rw [hc] at hec
        exact Option.noConfusion hec
      · obtain ⟨es, hes⟩ := hB
        rw [hs] at hes
        exact Option.noConfusion hes
      · obtain ⟨ec2, hec2, hnw⟩ := hA
        rw [hec] at hec2
        cases hec2
        exact absurd hw hnw

theorem C21_add_subordination_gate_witness :
    FacadeReachable workers_state ∧
      ∃ b m2, add_subordination workers_state 3 4 = some (b, m2) ∧
        (b = true ↔
          (∃ ec, find_employee_by_id workers_state 3 = some ec ∧
            ec.type_ ≠ EmployeeType.WORKER) ∧
          (∃ es, find_employee_by_id workers_state 4 = some es) ∧
          ∃ s2, add_relation workers_state.relation_manager 3 4 = some (true, s2)) ∧
        ((find_employee_by_id workers_state 3 = none ∨
            find_employee_by_id workers_state 4 = none ∨
            ∃ ec, find_employee_by_id workers_state 3 = some ec ∧
              ec.type_ = EmployeeType.WORKER) →
          m2 = workers_state ∧ m2.relation_manager = workers_state.relation_manager) :=
  ⟨facade_reachable_of_unique _ workers_state_reachable,
    C21_add_subordination_gate workers_state
      (facade_reachable_of_unique _ workers_state_reachable) 3 4⟩

theorem chief_inv_empty : ChiefInv EmployeeManager.empty [] where
  keys_used := by intro k hk; simp [EmployeeManager.empty] at hk
  chiefs := by
    intro c x h
    simp [EmployeeManager.empty, RelationManager.empty] at h

theorem chief_inv_add_employee (m : EmployeeManager) (used : List uuid_t)
    (hc : ChiefInv m used) (description : EmployeeDescr) (generated : uuid_t)
    (hfresh : generated ∉ used) :
    ChiefInv (add_employee m description generated).2 (generated :: used) where
  keys_used := by
    intro k hk
    rcases store_assign_keys_mem _ _ _ _ hk with h1 | h1
    · exact List.mem_cons_of_mem _ (hc.keys_used k h1)
    · rw [h1]
      exact List.mem_cons_self _ _
  chiefs := by
    intro c x hcx
    obtain ⟨hused, htype⟩ := hc.chiefs c x hcx
    refine ⟨List.mem_cons_of_mem _ hused, ?_⟩
    intro e he
    have hne : generated ≠ c := fun e => hfresh (e ▸ hused)
    simp only [add_employee, Employee.create, store_find_assign, if_neg hne] at he
    exact htype e he

theorem chief_inv_remove_employee (m : EmployeeManager) (used : List uuid_t)
    (hm : FacadeInv m) (hc : ChiefInv m used) (id : uuid_t) :
    ChiefInv (remove_employee m id).2 used := by
  unfold remove_employee
  cases hf : store_find m.employees id with
  | none => exact hc
  | some v =>
    constructor
    · intro k hk
      exact hc.keys_used k ((store_erase_keys_sublist _ _).subset hk)
    · intro c x hcx
      obtain ⟨hused, htype⟩ := hc.chiefs c x hcx
      refine ⟨hused, ?_⟩
      intro e he
      by_cases hk : id = c
      · subst hk
        simp only [store_find_erase_self _ _ hm.keys_nodup] at he
        exact Option.noConfusion he
      · simp only [store_find_erase_ne _ _ _ hk] at he
        exact htype e he

theorem chief_inv_add_subordination (m m2 : EmployeeManager) (used : List uuid_t)
    (hm : FacadeInv m) (hc : ChiefInv m used) (chief subordinate : uuid_t) (b : Bool)
    (h : add_subordination m chief subordinate = some (b, m2)) : ChiefInv m2 used := by
  unfold add_subordination at h
  by_cases hr : rejected_pair chief
      [find_employee_by_id m chief, find_employee_by_id m subordinate] = true
  · simp only [hr, if_true, Option.some.injEq, Prod.mk.injEq] at h
    rw [← h.2]
    exact hc
  · have hrf : rejected_pair chief
        [find_employee_by_id m chief, find_employee_by_id m subordinate] = false := by
      simpa using hr
    obtain ⟨⟨ec, hec, hnw⟩, _⟩ := (rejected_pair_iff m hm chief subordinate).1 hrf
    have hstore := (find_employee_by_id_some m chief ec).1 hec
    simp only [hrf, Bool.false_eq_true, if_false, Option.map_eq_some'] at h
    obtain ⟨⟨b1, s2⟩, hadd, heq⟩ := h
    simp only [Prod.mk.injEq] at heq
    obtain ⟨rfl, rfl⟩ := heq
    rcases add_relation_cases _ _ _ _ _ hadd with ⟨_, hs⟩ | ⟨_, hs⟩
    · rw [hs]
      exact hc
    · rw [hs]
      constructor
      · exact hc.keys_used
      · intro c x hcx
        simp only [added, multimap_insert, List.mem_append, List.mem_singleton,
          Prod.mk.injEq] at hcx
        rcases hcx with hold | ⟨rfl, rfl⟩
        · exact hc.chiefs c x hold
        · refine ⟨hc.keys_used c ?_, ?_⟩
          · by_contra hnot
            have := (store_find_none_iff _ _).2 hnot
            rw [hstore] at this
            exact Option.noConfusion this
          · intro e he
            rw [hstore] at he
            cases he
            exact hnw

theorem chief_inv_remove_subordination (m : EmployeeManager) (used : List uuid_t)
    (hc : ChiefInv m used) (chief subordinate : uuid_t) :
    ChiefInv (remove_subordination m chief subordinate).2 used := by
  unfold remove_subordination
  by_cases hr : rejected_pair chief
      [find_employee_by_id m chief, find_employee_by_id m subordinate] = true
  · simp only [hr, if_true]
    exact hc
  · simp only [hr]
    rcases remove_relation_cases m.relation_manager chief subordinate with hs | ⟨_, hs⟩
    · simp only [hs]
      exact hc
    · simp only [hs]
      constructor
      · exact hc.keys_used
      · intro c x hcx
        exact hc.chiefs c x (List.mem_of_mem_erase hcx)

theorem chief_inv_run (ops : List FacadeOp) :
    ∀ (m : EmployeeManager) (used : List uuid_t), FacadeInv m → ChiefInv m used →
      (generated_ids ops).Nodup → (∀ g ∈ generated_ids ops, g ∉ used) →
      ∀ m2, facade_run m ops = some m2 → ∃ used2, ChiefInv m2 used2 := by
  induction ops with
  | nil =>
    intro m used _ hc _ _ m2 h
    simp only [facade_run, Option.some.injEq] at h
    exact ⟨used, h ▸ hc⟩
  | cons op ops ih =>
    intro m used hm hc hnd hfresh m2 h
    obtain ⟨m1, h1, hm1⟩ := facade_inv_apply m hm op
    simp only [facade_run, h1] at h
    cases op with
    | add_employee description generated =>
      simp only [generated_ids, List.nodup_cons] at hnd
      simp only [generated_ids, List.mem_cons, forall_eq_or_imp] at hfresh
      simp only [facade_apply, Option.some.injEq] at h1
      subst h1
      refine ih _ (generated :: used) hm1
        (chief_inv_add_employee m used hc description generated hfresh.1) hnd.2 ?_ m2 h
      intro g hg hmem
      rcases List.mem_cons.1 hmem with e | e
      · exact hnd.1 (e ▸ hg)
      · exact hfresh.2 g hg e
    | remove_employee id =>
      simp only [generated_ids] at hnd hfresh
      simp only [facade_apply, Option.some.injEq] at h1
      subst h1
      exact ih _ used hm1 (chief_inv_remove_employee m used hm hc id) hnd hfresh m2 h
    | add_subordination chief subordinate =>
      simp only [generated_ids] at hnd hfresh
      simp only [facade_apply, Option.map_eq_some'] at h1
      obtain ⟨⟨b, m3⟩, hadd, heq⟩ := h1
      simp only at heq
      subst heq
      exact ih _ used hm1
        (chief_inv_add_subordination m _ used hm hc chief subordinate b hadd) hnd hfresh m2 h
    | remove_subordination chief subordinate =>
      simp only [generated_ids] at hnd hfresh
      simp only [facade_apply, Option.some.injEq] at h1
      subst h1
      exact ih _ used hm1 (chief_inv_remove_subordination m used hc chief subordinate)
        hnd hfresh m2 h

/-- C22 (the base role has no subordinates): in every state reachable through
the facade with unique identifiers, an identifier whose record is a WORKER has
no direct subordinate and no descendant, in the graph and through the facade
queries alike, and its salary is the same whatever graph the calculator
reads. -/
theorem C22_worker_has_no_subordinates (m : EmployeeManager) (h : FacadeReachableUnique m)
    (w : uuid_t) (e : Employee) (hrec : find_employee_by_id m w = some e)
    (hw : e.type_ = EmployeeType.WORKER) :
    get_direct_subordinates m.relation_manager w = [] ∧
      get_all_subordinates m.relation_manager w = some [] ∧
      m.get_direct_subordinates w = [] ∧
      m.get_all_subordinates w = some [] ∧
      ∀ (graph : RelationManager) (fuel : Nat) (date : date_t),
        calculate_month_salary ⟨m.employees, graph⟩ (fuel + 1) w date =
          calculate_month_salary ⟨m.employees, m.relation_manager⟩ (fuel + 1) w date := by
  obtain ⟨ops, hnd, hops⟩ := h
  obtain ⟨used, hc⟩ := chief_inv_run ops _ [] facade_inv_empty chief_inv_empty hnd
    (by simp) m hops
  have hstore := (find_employee_by_id_some m w e).1 hrec
  have hdirect : get_direct_subordinates m.relation_manager w = [] := by
    rw [List.eq_nil_iff_forall_not_mem]
    intro x hx
    rw [get_direct_subordinates_eq, mem_equal_range] at hx
    exact (hc.chiefs w x hx).2 e hstore hw
  have hall := get_all_subordinates_of_no_direct _ _ hdirect
  refine ⟨hdirect, hall, ?_, ?_, ?_⟩
  · simp [EmployeeManager.get_direct_subordinates, hrec, hdirect]
  · simp [EmployeeManager.get_all_subordinates, hrec, hall]
  · intro graph fuel date
    simp [calculate_month_salary, hstore, hw]

theorem C22_worker_has_no_subordinates_witness :
    FacadeReachableUnique workers_state ∧
      get_direct_subordinates workers_state.relation_manager 3 = [] ∧
      get_all_subordinates workers_state.relation_manager 3 = some [] :=
  ⟨workers_state_reachable,
    (C22_worker_has_no_subordinates workers_state workers_state_reachable 3
      ⟨⟨2026, 1, 1⟩, 200000, .WORKER, 3⟩ rfl rfl).1,
    (C22_worker_has_no_subordinates workers_state workers_state_reachable 3
      ⟨⟨2026, 1, 1⟩, 200000, .WORKER, 3⟩ rfl rfl).2.1⟩

/-- Uniqueness of the generated identifiers is what keeps a WORKER off the
chief side: if `add_employee` drew the identifier 1 a second time, the store
entry would be overwritten and a WORKER would sit on a recorded chief. -/
theorem worker_chief_under_collision :
    ∃ m, facade_run EmployeeManager.empty
        [.add_employee FOREMAN_DESCR 1, .add_employee FOREMAN_DESCR 2,
          .add_subordination 1 2,
          .add_employee { FOREMAN_DESCR with type := .WORKER } 1] = some m ∧
      (∃ e, find_employee_by_id m 1 = some e ∧ e.type_ = EmployeeType.WORKER) ∧
      get_direct_subordinates m.relation_manager 1 = [2] :=
  ⟨_, rfl, ⟨_, rfl, rfl⟩, rfl⟩

/-! ## Height of a subtree and depth of the salary recursion -/

theorem foldr_max_le (l : List Nat) (B : Nat) (h : ∀ x ∈ l, x ≤ B) : l.foldr max 0 ≤ B := by
  induction l with
  | nil => simp
  | cons a l ih =>
    simp only [List.foldr_cons]
    exact max_le (h a (List.mem_cons_self _ _)) (ih fun x hx => h x (List.mem_cons_of_mem _ hx))

theorem le_foldr_max (l : List Nat) (x : Nat) (h : x ∈ l) : x ≤ l.foldr max 0 := by
  induction l with
  | nil => simp at h
  | cons a l ih =>
    simp only [List.foldr_cons]
    rcases List.mem_cons.1 h with rfl | h1
    · exact le_max_left _ _
    · exact le_trans (ih h1) (le_max_right _ _)

theorem strict_ancestor_trans (s : RelationManager) (hs : Forest s) (a b c : uuid_t)
    (hab : strict_ancestor s a b = true) (hbc : strict_ancestor s b c = true) :
    strict_ancestor s a c = true := by
  have hc := chain_of_eq s hs c
  obtain ⟨T, hT⟩ := chief_chain_head _ _ c _ hc
  have hbT : b ∈ T := by simpa [strict_ancestor, hT] using hbc
  rw [hT] at hc
  obtain ⟨l2, h2, hsuf⟩ := chief_chain_suffix _ _ c _ hc b (List.mem_cons_of_mem _ hbT)
  have hb := chain_of_eq s hs b
  have hl2 := chief_chain_det _ _ _ b _ _ h2 hb
  subst hl2
  have hnd := chief_chain_nodup _ _ c _ hc
  have hcT : c ∉ T := (List.nodup_cons.1 hnd).1
  obtain ⟨T2, hT2⟩ := chief_chain_head _ _ b _ hb
  have haT2 : a ∈ T2 := by simpa [strict_ancestor, hT2] using hab
  have hsufT : chain_of s b <:+ T := by
    rcases List.suffix_cons_iff.1 hsuf with heq | h3
    · rw [hT2] at heq
      have : b = c := by injection heq
      exact absurd (this ▸ hbT) hcT
    · exact h3
  have : a ∈ T := hsufT.subset (by rw [hT2]; exact List.mem_cons_of_mem _ haT2)
  simpa [strict_ancestor, hT] using this

theorem mem_descendants_iff (s : RelationManager) (hs : Forest s) (id x : uuid_t) :
    x ∈ (get_all_subordinates s id).getD [] ↔ strict_ancestor s id x = true := by
  obtain ⟨r, hr, hcount, _⟩ := get_all_subordinates_forest s hs id
  rw [hr, Option.getD_some, ← List.count_pos_iff, hcount x]
  by_cases ha : strict_ancestor s id x = true <;> simp [ha]

theorem depth_le_subtree_height (s : RelationManager) (hs : Forest s) (id d : uuid_t)
    (h : strict_ancestor s id d = true) :
    (chain_of s d).length - (chain_of s id).length ≤ subtree_height s id := by
  apply le_foldr_max
  exact List.mem_map.2 ⟨d, (mem_descendants_iff s hs id d).2 h, rfl⟩

/-- The subtree below a descendant is lower than the subtree below its
ancestor by at least the number of chief steps between the two. -/
theorem subtree_height_descendant (s : RelationManager) (hs : Forest s) (id d : uuid_t)
    (h : strict_ancestor s id d = true) :
    subtree_height s d + 1 ≤ subtree_height s id := by
  have hlen := chain_of_descendant s hs id d h
  have hd := depth_le_subtree_height s hs id d h
  have hbound : subtree_height s d ≤ subtree_height s id - 1 := by
    apply foldr_max_le
    intro v hv
    obtain ⟨x, hx, rfl⟩ := List.mem_map.1 hv
    have hdx := (mem_descendants_iff s hs d x).1 hx
    have hidx := strict_ancestor_trans s hs id d x h hdx
    have h1 := depth_le_subtree_height s hs id x hidx
    have h2 := chain_of_descendant s hs d x hdx
    omega
  omega

theorem subtree_height_le (s : RelationManager) (hs : Forest s) (id : uuid_t) :
    subtree_height s id + 1 ≤ salary_fuel s := by
  have hpos : 0 < (chain_of s id).length := by
    obtain ⟨T, hT⟩ := chief_chain_head _ _ id _ (chain_of_eq s hs id)
    rw [hT]
    simp
  have : subtree_height s id ≤ s.sub_to_chief_.length := by
    apply foldr_max_le
    intro v hv
    obtain ⟨x, _, rfl⟩ := List.mem_map.1 hv
    have := chain_of_length_le s hs x
    omega
  simp only [salary_fuel]
  omega

/-- On a consistent state a salary computation returns a pair as soon as its
fuel exceeds the height of the subtree below the queried identifier. -/
theorem calculate_month_salary_height (sc : SalaryCalculator) (hc : Consistent sc)
    (date : date_t) :
    ∀ (n : Nat) (id : uuid_t) (e : Employee),
      store_find sc.employees_ id = some (some e) →
      subtree_height sc.relation_manager_ id + 1 ≤ n →
      ∃ a ok, calculate_month_salary sc n id date = .value a ok := by
  intro n
  induction n with
  | zero => intro id e _ hsize; omega
  | succ n ih =>
    intro id e hfind hsize
    have hid : e.id_ = id := hc.keyed id e hfind
    by_cases hearly : earlier date e.hire_date_
    · exact ⟨0, false, calculate_month_salary_earlier sc n id e date hfind hearly⟩
    · cases ht : e.type_ with
      | WORKER => exact ⟨_, true, calculate_month_salary_worker sc n id e date hfind ht hearly⟩
      | FOREMAN =>
        rw [calculate_month_salary_foreman sc n id e date hfind ht hearly, hid]
        have hsubs : ∀ x ∈ get_direct_subordinates sc.relation_manager_ id,
            ∃ a ok, calculate_month_salary sc n x date = .value a ok := by
          intro x hx
          obtain ⟨_, hmem⟩ := forest_direct_sub _ hc.forest id x hx
          obtain ⟨ex, hex⟩ := hc.stored x hmem
          apply ih x ex hex
          have := subtree_height_descendant _ hc.forest id x
            (strict_ancestor_of_direct _ hc.forest id x hx)
          omega
        obtain ⟨a, ok, hsum⟩ := sum_subordinates_value _ _ 0 hsubs
        rw [hsum]
        cases ok with
        | false => exact ⟨0, false, by simp⟩
        | true => exact ⟨_, true, rfl⟩
      | MANAGER =>
        rw [calculate_month_salary_manager sc n id e date hfind ht hearly, hid]
        obtain ⟨r, hr, hcount, _⟩ := get_all_subordinates_forest _ hc.forest id
        rw [hr]
        have hsubs : ∀ x ∈ r, ∃ a ok, calculate_month_salary sc n x date = .value a ok := by
          intro x hx
          have hanc : strict_ancestor sc.relation_manager_ id x = true := by
            rw [← mem_descendants_iff _ hc.forest, hr]
            exact hx
          obtain ⟨ex, hex⟩ := hc.stored x (strict_ancestor_sub _ hc.forest id x hanc)
          apply ih x ex hex
          have := subtree_height_descendant _ hc.forest id x hanc
          omega
        obtain ⟨a, ok, hsum⟩ := sum_subordinates_value _ _ 0 hsubs
        simp only [hsum]
        cases ok with
        | false => exact ⟨0, false, by simp⟩
        | true => exact ⟨_, true, rfl⟩

/-- C28 (the salary recursion terminates): on a consistent state (forest graph,
every subordinate identifier stored, records stored under their own
identifier), for every stored identifier and every date, the recursion returns
a pair at every depth allowance that exceeds the height of the subtree below
the identifier, always the same pair, which is also what the computation
started from outside returns; that height is less than the allowance the
outside call has. -/
theorem C28_salary_recursion_terminates (sc : SalaryCalculator) (hc : Consistent sc)
    (id : uuid_t) (e : Employee) (date : date_t)
    (hfind : store_find sc.employees_ id = some (some e)) :
    (∃ a ok, month_salary sc id date = .value a ok ∧
      ∀ n, subtree_height sc.relation_manager_ id + 1 ≤ n →
        calculate_month_salary sc n id date = .value a ok) ∧
      subtree_height sc.relation_manager_ id + 1 ≤ salary_fuel sc.relation_manager_ := by
  have hle := subtree_height_le _ hc.forest id
  obtain ⟨a, ok, hv⟩ := calculate_month_salary_height sc hc date
    (subtree_height sc.relation_manager_ id + 1) id e hfind (le_refl _)
  have hmono : ∀ n, subtree_height sc.relation_manager_ id + 1 ≤ n →
      calculate_month_salary sc n id date = .value a ok := by
    intro n hn
    rw [calculate_month_salary_mono sc date _ n id (by rw [hv]; simp) hn, hv]
  exact ⟨⟨a, ok, hmono _ hle, hmono⟩, hle⟩

theorem C28_salary_recursion_terminates_witness :
    Consistent manager_calculator ∧
      subtree_height manager_calculator.relation_manager_ 1 = 2 ∧
      (∃ a ok, month_salary manager_calculator 1 ⟨2037, 1, 1⟩ = .value a ok ∧
        ∀ n, subtree_height manager_calculator.relation_manager_ 1 + 1 ≤ n →
          calculate_month_salary manager_calculator n 1 ⟨2037, 1, 1⟩ = .value a ok) :=
  ⟨manager_calculator_consistent, by decide,
    (C28_salary_recursion_terminates manager_calculator manager_calculator_consistent 1
      ⟨⟨2026, 1, 1⟩, 300000, .MANAGER, 1⟩ ⟨2037, 1, 1⟩ rfl).1⟩

/-! ## Ancestor and descendant queries -/

/-- The chief chain of `x` lists exactly the identifiers reached from `x` by
zero or more `get_chief` steps. -/
theorem chief_chain_steps (s : RelationManager) :
    ∀ (n : Nat) (x : uuid_t) (l : List uuid_t),
      chief_chain s.sub_to_chief_ n x = some l →
      ∀ t, t ∈ l ↔ ∃ k, chief_steps s k x = some t := by
  intro n
  induction n with
  | zero => intro x l h; simp [chief_chain] at h
  | succ n ih =>
    intro x l h t
    simp only [chief_chain] at h
    cases hf : map_find s.sub_to_chief_ x with
    | none =>
      rw [hf] at h
      simp only [Option.some.injEq] at h
      subst h
      constructor
      · intro ht
        exact ⟨0, by simpa [chief_steps, eq_comm] using ht⟩
      · rintro ⟨k, hk⟩
        cases k with
        | zero => simpa [chief_steps, eq_comm] using hk
        | succ k => simp [chief_steps, get_chief, hf] at hk
    | some c =>
      rw [hf] at h
      simp only [Option.map_eq_some'] at h
      obtain ⟨l2, hl2, rfl⟩ := h
      constructor
      · intro ht
        rcases List.mem_cons.1 ht with rfl | ht2
        · exact ⟨0, rfl⟩
        · obtain ⟨k, hk⟩ := (ih c l2 hl2 t).1 ht2
          exact ⟨k + 1, by simpa [chief_steps, get_chief, hf] using hk⟩
      · rintro ⟨k, hk⟩
        cases k with
        | zero =>
          simp only [chief_steps, Option.some.injEq] at hk
          subst hk
          exact List.mem_cons_self _ _
        | succ k =>
          simp only [chief_steps, get_chief, hf] at hk
          exact List.mem_cons_of_mem _ ((ih c l2 hl2 t).2 ⟨k, hk⟩)

/-- On a forest `t` is a strict ancestor of `x` exactly when one or more
`get_chief` steps lead from `x` to `t`. -/
theorem strict_ancestor_steps (s : RelationManager) (hs : Forest s) (t x : uuid_t) :
    strict_ancestor s t x = true ↔ ∃ k, 0 < k ∧ chief_steps s k x = some t := by
  cases hf : map_find s.sub_to_chief_ x with
  | none =>
    have hx := chain_of_eq s hs x
    simp only [cycle_fuel, chief_chain, hf, Option.some.injEq] at hx
    constructor
    · intro h
      simp [strict_ancestor, ← hx] at h
    · rintro ⟨k, hk, hstep⟩
      cases k with
      | zero => omega
      | succ k => simp [chief_steps, get_chief, hf] at hstep
  | some c =>
    have hx := chain_of_child s hs x c hf
    have hsteps := chief_chain_steps s _ c _ (chain_of_eq s hs c) t
    simp only [strict_ancestor, hx, List.tail_cons, decide_eq_true_eq, hsteps]
    constructor
    · rintro ⟨k, hk⟩
      exact ⟨k + 1, by omega, by simpa [chief_steps, get_chief, hf] using hk⟩
    · rintro ⟨k, hk, hstep⟩
      cases k with
      | zero => omega
      | succ k =>
        simp only [chief_steps, get_chief, hf] at hstep
        exact ⟨k, hstep⟩

/-- C31 (ancestor and descendant queries agree): in every reachable state and
for all identifiers `x` and `y`, `get_all_subordinates(y)` returns a list in
which `x` occurs exactly when `x ≠ y` and one or more `get_chief` steps lead
from `x` to `y` (on such a state the steps alone already force `x ≠ y`); the
cycle walk for the pair (chief `x`, subordinate `y`) answers true exactly when
`x = y` or `x` occurs in that list, and `add_relation(x, y)` is accepted exactly
when `y` has no chief and neither of the two holds. -/
theorem C31_ancestor_descendant_agree (s : RelationManager) (h : Reachable s)
    (x y : uuid_t) :
    ∃ r, get_all_subordinates s y = some r ∧
      (x ∈ r ↔ x ≠ y ∧ ∃ n, 0 < n ∧ chief_steps s n x = some y) ∧
      ((∃ n, 0 < n ∧ chief_steps s n x = some y) → x ≠ y) ∧
      has_hierarchical_cycle s x y = some (decide (x = y ∨ x ∈ r)) ∧
      ∃ b s2, add_relation s x y = some (b, s2) ∧
        (b = true ↔ get_chief s y = none ∧ ¬(x = y ∨ x ∈ r)) := by
  have hs := reachable_forest s h
  obtain ⟨r, hr, _, _⟩ := get_all_subordinates_forest s hs y
  have hmem : x ∈ r ↔ strict_ancestor s y x = true := by
    have := mem_descendants_iff s hs y x
    rwa [hr, Option.getD_some] at this
  have hne : strict_ancestor s y x = true → x ≠ y :=
    fun hsa => ((strict_ancestor_iff s hs y x).1 hsa).1
  have hsteps := strict_ancestor_steps s hs y x
  have hchain : y ∈ chain_of s x ↔ x = y ∨ x ∈ r := by
    obtain ⟨T, hT⟩ := chief_chain_head _ _ x _ (chain_of_eq s hs x)
    rw [hmem]
    simp only [strict_ancestor, hT, List.tail_cons, decide_eq_true_eq, List.mem_cons]
    constructor
    · rintro (rfl | hy)
      · exact Or.inl rfl
      · exact Or.inr hy
    · rintro (rfl | hy)
      · exact Or.inl rfl
      · exact Or.inr hy
  refine ⟨r, hr, ?_, ?_, ?_, ?_⟩
  · rw [hmem]
    exact ⟨fun hsa => ⟨hne hsa, hsteps.1 hsa⟩, fun hx => hsteps.2 hx.2⟩
  · exact fun hx => hne (hsteps.2 hx)
  · have := has_hierarchical_cycle_loop_eq s.sub_to_chief_ y _ x _ (chain_of_eq s hs x)
    simp only [has_hierarchical_cycle, this, Option.some.injEq, decide_eq_decide]
    exact hchain
  · obtain ⟨l, hl, hadd⟩ := add_relation_forest s hs x y
    have hl2 : l = chain_of s x := chief_chain_det _ _ _ x _ _ hl (chain_of_eq s hs x)
    subst hl2
    by_cases hacc : x ≠ y ∧ map_find s.sub_to_chief_ y = none ∧ y ∉ chain_of s x
    · rw [if_pos hacc] at hadd
      refine ⟨true, _, hadd, ?_⟩
      simp only [true_iff, get_chief]
      exact ⟨hacc.2.1, fun hc => hacc.2.2 (hchain.2 hc)⟩
    · rw [if_neg hacc] at hadd
      refine ⟨false, _, hadd, ?_⟩
      constructor
      · intro hb
        exact absurd hb (by decide)
      · rintro ⟨hnone, hnc⟩
        exact absurd ⟨fun hxy => hnc (Or.inl hxy), hnone,
          fun hy => hnc (hchain.1 hy)⟩ hacc

theorem C31_ancestor_descendant_agree_witness :
    Reachable chain_state ∧
      ∃ r, get_all_subordinates chain_state 1 = some r ∧
        (4 ∈ r ↔ 4 ≠ 1 ∧ ∃ n, 0 < n ∧ chief_steps chain_state n 4 = some 1) ∧
        ((∃ n, 0 < n ∧ chief_steps chain_state n 4 = some 1) → 4 ≠ 1) ∧
        has_hierarchical_cycle chain_state 4 1 = some (decide (4 = 1 ∨ 4 ∈ r)) ∧
        ∃ b s2, add_relation chain_state 4 1 = some (b, s2) ∧
          (b = true ↔ get_chief chain_state 1 = none ∧ ¬(4 = 1 ∨ 4 ∈ r)) :=
  ⟨chain_state_reachable, C31_ancestor_descendant_agree chain_state chain_state_reachable 4 1⟩

/-! ## Independence of the order of the subordinate lists -/

theorem sum_subordinates_congr_mem (f g : uuid_t → SalaryResult) :
    ∀ (l : List uuid_t) (t : ℚ), (∀ x ∈ l, f x = g x) →
      sum_subordinates f l t = sum_subordinates g l t := by
  intro l
  induction l with
  | nil => intro t _; rfl
  | cons a l ih =>
    intro t h
    have ha := h a (List.mem_cons_self _ _)
    have hl : ∀ x ∈ l, f x = g x := fun x hx => h x (List.mem_cons_of_mem _ hx)
    simp only [sum_subordinates, ← ha]
    cases f a with
    | value salary ok =>
      cases ok with
      | true => simpa using ih _ hl
      | false => simp
    | assertion_failure => rfl
    | no_return => rfl

/-- When every listed call returns a pair and one of the flags is false, the
summation loop returns (0, false). -/
theorem sum_subordinates_false (f : uuid_t → SalaryResult) :
    ∀ (l : List uuid_t) (t : ℚ), (∀ x ∈ l, ∃ a ok, f x = .value a ok) →
      (∃ x ∈ l, ∃ a, f x = .value a false) →
      sum_subordinates f l t = .value 0 false := by
  intro l
  induction l with
  | nil =>
    intro t _ h
    obtain ⟨x, hx, _⟩ := h
    simp at hx
  | cons b l ih =>
    intro t hall hex
    obtain ⟨a, ok, hb⟩ := hall b (List.mem_cons_self _ _)
    simp only [sum_subordinates, hb]
    cases ok with
    | false => simp
    | true =>
      simp only [if_true]
      apply ih _ (fun x hx => hall x (List.mem_cons_of_mem _ hx))
      obtain ⟨x, hx, a2, hx2⟩ := hex
      rcases List.mem_cons.1 hx with rfl | hxl
      · rw [hb] at hx2
        simp at hx2
      · exact ⟨x, hxl, a2, hx2⟩

/-- When every listed call returns a pair, the summation loop returns the same
pair for every rearrangement of the list. -/
theorem sum_subordinates_perm (f : uuid_t → SalaryResult) (l1 l2 : List uuid_t) (t : ℚ)
    (hall : ∀ x ∈ l1, ∃ a ok, f x = .value a ok) (hperm : l1.Perm l2) :
    sum_subordinates f l1 t = sum_subordinates f l2 t := by
  have hall2 : ∀ x ∈ l2, ∃ a ok, f x = .value a ok :=
    fun x hx => hall x (hperm.mem_iff.2 hx)
  by_cases htrue : ∀ x ∈ l1, ∃ a, f x = .value a true
  · rw [sum_subordinates_ok f l1 t htrue,
      sum_subordinates_ok f l2 t (fun x hx => htrue x (hperm.mem_iff.2 hx)),
      (hperm.map _).sum_eq]
  · push_neg at htrue
    obtain ⟨x, hx, hnot⟩ := htrue
    have hfalse : ∃ a, f x = .value a false := by
      obtain ⟨a, ok, hfx⟩ := hall x hx
      cases ok with
      | true => exact absurd hfx (hnot a)
      | false => exact ⟨a, hfx⟩
    rw [sum_subordinates_false f l1 t hall ⟨x, hx, hfalse⟩,
      sum_subordinates_false f l2 t hall2 ⟨x, hperm.mem_iff.1 hx, hfalse⟩]

theorem chief_steps_congr (s1 s2 : RelationManager)
    (hchief : ∀ x, get_chief s1 x = get_chief s2 x) :
    ∀ (n : Nat) (x : uuid_t), chief_steps s1 n x = chief_steps s2 n x := by
  intro n
  induction n with
  | zero => intro x; rfl
  | succ n ih =>
    intro x
    simp only [chief_steps, hchief x]
    cases get_chief s2 x with
    | none => rfl
    | some c => exact ih c

theorem strict_ancestor_congr (s1 s2 : RelationManager) (h1 : Forest s1) (h2 : Forest s2)
    (hchief : ∀ x, get_chief s1 x = get_chief s2 x) (t x : uuid_t) :
    strict_ancestor s1 t x = strict_ancestor s2 t x := by
  have e1 := strict_ancestor_steps s1 h1 t x
  have e2 := strict_ancestor_steps s2 h2 t x
  simp only [chief_steps_congr s1 s2 hchief] at e1
  have : strict_ancestor s1 t x = true ↔ strict_ancestor s2 t x = true := e1.trans e2.symm
  cases ha : strict_ancestor s1 t x <;> cases hb : strict_ancestor s2 t x <;> simp_all

/-- Two forests with the same chief of every identifier list the same direct
subordinates, up to order. -/
theorem direct_subordinates_perm (s1 s2 : RelationManager) (h1 : Forest s1) (h2 : Forest s2)
    (hchief : ∀ x, get_chief s1 x = get_chief s2 x) (id : uuid_t) :
    (get_direct_subordinates s1 id).Perm (get_direct_subordinates s2 id) := by
  rw [List.perm_iff_count]
  intro x
  rw [get_direct_subordinates_eq, get_direct_subordinates_eq,
    forest_children_count s1 h1, forest_children_count s2 h2]
  have := hchief x
  simp only [get_chief] at this
  rw [this]

/-- Two forests with the same chief of every identifier list the same
descendants, up to order. -/
theorem all_subordinates_perm (s1 s2 : RelationManager) (h1 : Forest s1) (h2 : Forest s2)
    (hchief : ∀ x, get_chief s1 x = get_chief s2 x) (id : uuid_t) :
    ∃ r1 r2, get_all_subordinates s1 id = some r1 ∧ get_all_subordinates s2 id = some r2 ∧
      r1.Perm r2 := by
  obtain ⟨r1, hr1, hc1, _⟩ := get_all_subordinates_forest s1 h1 id
  obtain ⟨r2, hr2, hc2, _⟩ := get_all_subordinates_forest s2 h2 id
  refine ⟨r1, r2, hr1, hr2, ?_⟩
  rw [List.perm_iff_count]
  intro x
  rw [hc1 x, hc2 x, strict_ancestor_congr s1 s2 h1 h2 hchief]

/-- A forest that records the same chief of every identifier as a consistent
state, read with the same store, is consistent as well. -/
theorem consistent_of_same_chiefs (sc1 sc2 : SalaryCalculator) (hc1 : Consistent sc1)
    (hf2 : Forest sc2.relation_manager_) (hstore : sc2.employees_ = sc1.employees_)
    (hchief : ∀ x, get_chief sc1.relation_manager_ x = get_chief sc2.relation_manager_ x) :
    Consistent sc2 where
  forest := hf2
  keyed := by
    rw [hstore]
    exact hc1.keyed
  stored := by
    intro x hx
    rw [hstore]
    apply hc1.stored
    obtain ⟨p, hp, rfl⟩ := List.mem_map.1 hx
    obtain ⟨c, y⟩ := p
    have hcount := hf2.view c y
    have hpos : 0 < sc2.relation_manager_.chief_to_subs_.count (c, y) :=
      List.count_pos_iff.2 hp
    have hfind2 : map_find sc2.relation_manager_.sub_to_chief_ y = some c := by
      by_contra hne
      rw [if_neg hne] at hcount
      omega
    have hfind1 : map_find sc1.relation_manager_.sub_to_chief_ y = some c := by
      have := hchief y
      simp only [get_chief] at this
      rw [this]
      exact hfind2
    have hcount1 := hc1.forest.view c y
    rw [if_pos hfind1] at hcount1
    have hmem : (c, y) ∈ sc1.relation_manager_.chief_to_subs_ :=
      List.count_pos_iff.1 (by omega)
    exact List.mem_map.2 ⟨(c, y), hmem, rfl⟩

/-- On two consistent states with the same store and the same chief of every
identifier, the salary recursion returns the same result once each side has
fuel beyond the height of the subtree it reads. -/
theorem calculate_month_salary_order (sc1 sc2 : SalaryCalculator) (hc1 : Consistent sc1)
    (hc2 : Consistent sc2) (hstore : sc2.employees_ = sc1.employees_)
    (hchief : ∀ x, get_chief sc1.relation_manager_ x = get_chief sc2.relation_manager_ x)
    (date : date_t) :
    ∀ (n : Nat) (id : uuid_t) (e : Employee),
      store_find sc1.employees_ id = some (some e) →
      subtree_height sc1.relation_manager_ id + 1 ≤ n →
      ∀ n2, subtree_height sc2.relation_manager_ id + 1 ≤ n2 →
        calculate_month_salary sc1 n id date = calculate_month_salary sc2 n2 id date := by
  intro n
  induction n with
  | zero => intro id e _ hsize; omega
  | succ n ih =>
    intro id e hfind hsize n2 hsize2
    obtain ⟨m2, rfl⟩ : ∃ m2, n2 = m2 + 1 := ⟨n2 - 1, by omega⟩
    have hfind2 : store_find sc2.employees_ id = some (some e) := by rw [hstore]; exact hfind
    have hid : e.id_ = id := hc1.keyed id e hfind
    have hsub : ∀ x, strict_ancestor sc1.relation_manager_ id x = true →
        calculate_month_salary sc1 n x date = calculate_month_salary sc2 m2 x date ∧
        ∃ a ok, calculate_month_salary sc1 n x date = .value a ok := by
      intro x hanc
      have hanc2 : strict_ancestor sc2.relation_manager_ id x = true := by
        rw [← strict_ancestor_congr _ _ hc1.forest hc2.forest hchief]
        exact hanc
      obtain ⟨ex, hex⟩ := hc1.stored x (strict_ancestor_sub _ hc1.forest id x hanc)
      have hh1 := subtree_height_descendant _ hc1.forest id x hanc
      have hh2 := subtree_height_descendant _ hc2.forest id x hanc2
      exact ⟨ih x ex hex (by omega) m2 (by omega),
        calculate_month_salary_height sc1 hc1 date n x ex hex (by omega)⟩
    by_cases hearly : earlier date e.hire_date_
    · rw [calculate_month_salary_earlier sc1 n id e date hfind hearly,
        calculate_month_salary_earlier sc2 m2 id e date hfind2 hearly]
    · cases ht : e.type_ with
      | WORKER =>
        rw [calculate_month_salary_worker sc1 n id e date hfind ht hearly,
          calculate_month_salary_worker sc2 m2 id e date hfind2 ht hearly]
      | FOREMAN =>
        rw [calculate_month_salary_foreman sc1 n id e date hfind ht hearly,
          calculate_month_salary_foreman sc2 m2 id e date hfind2 ht hearly, hid]
        have hperm := direct_subordinates_perm _ _ hc1.forest hc2.forest hchief id
        have hanc : ∀ x ∈ get_direct_subordinates sc1.relation_manager_ id,
            strict_ancestor sc1.relation_manager_ id x = true :=
          fun x hx => strict_ancestor_of_direct _ hc1.forest id x hx
        have hsum : sum_subordinates (fun x => calculate_month_salary sc1 n x date)
              (get_direct_subordinates sc1.relation_manager_ id) 0 =
            sum_subordinates (fun x => calculate_month_salary sc2 m2 x date)
              (get_direct_subordinates sc2.relation_manager_ id) 0 := by
          exact (sum_subordinates_perm _ _ _ 0 (fun x hx => (hsub x (hanc x hx)).2) hperm).trans
            (sum_subordinates_congr_mem _ _ _ 0
              (fun x hx => (hsub x (hanc x (hperm.mem_iff.2 hx))).1))
        rw [hsum]
      | MANAGER =>
        rw [calculate_month_salary_manager sc1 n id e date hfind ht hearly,
          calculate_month_salary_manager sc2 m2 id e date hfind2 ht hearly, hid]
        obtain ⟨r1, r2, hr1, hr2, hperm⟩ :=
          all_subordinates_perm _ _ hc1.forest hc2.forest hchief id
        rw [hr1, hr2]
        have hanc : ∀ x ∈ r1, strict_ancestor sc1.relation_manager_ id x = true := by
          intro x hx
          rw [← mem_descendants_iff _ hc1.forest, hr1]
          exact hx
        have hsum : sum_subordinates (fun x => calculate_month_salary sc1 n x date) r1 0 =
            sum_subordinates (fun x => calculate_month_salary sc2 m2 x date) r2 0 := by
          exact (sum_subordinates_perm _ _ _ 0 (fun x hx => (hsub x (hanc x hx)).2) hperm).trans
            (sum_subordinates_congr_mem _ _ _ 0
              (fun x hx => (hsub x (hanc x (hperm.mem_iff.2 hx))).1))
        simp only [hsum]

theorem manager_calculator_reordered_reachable :
    Reachable manager_calculator_reordered.relation_manager_ :=
  ⟨[.add 2 6, .add 2 5, .add 1 4, .add 1 3, .add 1 2], by decide⟩

theorem manager_calculator_reordered_chiefs (x : uuid_t) :
    get_chief manager_calculator.relation_manager_ x =
      get_chief manager_calculator_reordered.relation_manager_ x := by
  simp only [get_chief, manager_calculator, manager_calculator_reordered, map_find]
  split_ifs <;> first | rfl | (exfalso; subst_vars; contradiction)

/-- On consistent states the salary depends on the edges, not on their order:
for a consistent state and a forest that records the same chief of every
identifier, read with the same store, the direct subordinates and the
descendants of every identifier are the same up to order, and a salary
computation started from outside returns the same result on both, for every
identifier and date: for a stored identifier a pair with the same flag and the
same amount. -/
theorem month_salary_order_independent (sc1 sc2 : SalaryCalculator) (hc1 : Consistent sc1)
    (hf2 : Forest sc2.relation_manager_) (hstore : sc2.employees_ = sc1.employees_)
    (hchief : ∀ x, get_chief sc1.relation_manager_ x = get_chief sc2.relation_manager_ x)
    (id : uuid_t) (date : date_t) :
    month_salary sc1 id date = month_salary sc2 id date ∧
      (∀ e, store_find sc1.employees_ id = some (some e) →
        ∃ a ok, month_salary sc1 id date = .value a ok ∧
          month_salary sc2 id date = .value a ok) ∧
      (get_direct_subordinates sc1.relation_manager_ id).Perm
        (get_direct_subordinates sc2.relation_manager_ id) ∧
      ∃ r1 r2, get_all_subordinates sc1.relation_manager_ id = some r1 ∧
        get_all_subordinates sc2.relation_manager_ id = some r2 ∧ r1.Perm r2 := by
  have hc2 := consistent_of_same_chiefs sc1 sc2 hc1 hf2 hstore hchief
  have heq : month_salary sc1 id date = month_salary sc2 id date := by
    cases hfind : store_find sc1.employees_ id with
    | none => simp [month_salary, salary_fuel, calculate_month_salary, hstore, hfind]
    | some p =>
      cases p with
      | none => simp [month_salary, salary_fuel, calculate_month_salary, hstore, hfind]
      | some e =>
        exact calculate_month_salary_order sc1 sc2 hc1 hc2 hstore hchief date _ id e hfind
          (subtree_height_le _ hc1.forest id) _ (subtree_height_le _ hf2 id)
  refine ⟨heq, ?_, direct_subordinates_perm _ _ hc1.forest hf2 hchief id,
    all_subordinates_perm _ _ hc1.forest hf2 hchief id⟩
  intro e hfind
  obtain ⟨a, ok, hv⟩ := month_salary_returns sc1 hc1 date id e hfind
  exact ⟨a, ok, hv, by rw [← heq, hv]⟩

/-- The manager roster with its edges added in either order: the direct
subordinates are listed in different orders and the salary is the same. -/
theorem month_salary_order_independent_rosters :
    (get_direct_subordinates manager_calculator.relation_manager_ 1).Perm
        (get_direct_subordinates manager_calculator_reordered.relation_manager_ 1) ∧
      get_direct_subordinates manager_calculator.relation_manager_ 1 ≠
        get_direct_subordinates manager_calculator_reordered.relation_manager_ 1 ∧
      month_salary manager_calculator 1 ⟨2037, 1, 1⟩ =
        month_salary manager_calculator_reordered 1 ⟨2037, 1, 1⟩ :=
  ⟨(month_salary_order_independent manager_calculator manager_calculator_reordered
      manager_calculator_consistent
      (reachable_forest _ manager_calculator_reordered_reachable) rfl
      manager_calculator_reordered_chiefs 1 ⟨2037, 1, 1⟩).2.2.1, by decide,
    (month_salary_order_independent manager_calculator manager_calculator_reordered
      manager_calculator_consistent
      (reachable_forest _ manager_calculator_reordered_reachable) rfl
      manager_calculator_reordered_chiefs 1 ⟨2037, 1, 1⟩).1⟩

/-- C32 (the salary depends on the edges, not on their order) fails on the
code once a subordinate has no record: two facade histories that differ only
in the order of two accepted `add_subordination` calls, each followed by
`remove_employee(2)`, leave the same store and the same chief of every
identifier, with 2 still recorded under FOREMAN 1; the salary query of 1 for
June 2026 then stops at the failed store assertion after one of the two
histories and returns (0, false) after the other. -/
theorem C32_histories_disagree_on_dangling :
    ∃ m1 m2, facade_run EmployeeManager.empty history_two_then_three = some m1 ∧
      facade_run EmployeeManager.empty history_three_then_two = some m2 ∧
      m1.employees = m2.employees ∧
      (∀ x, get_chief m1.relation_manager x = get_chief m2.relation_manager x) ∧
      store_find m1.employees 2 = none ∧
      get_chief m1.relation_manager 2 = some 1 ∧
      (get_direct_subordinates m1.relation_manager 1).Perm
        (get_direct_subordinates m2.relation_manager 1) ∧
      calculate_employee_salary m1 1 ⟨2026, 6, 1⟩ ≠
        calculate_employee_salary m2 1 ⟨2026, 6, 1⟩ ∧
      ((calculate_employee_salary m1 1 ⟨2026, 6, 1⟩ = .assertion_failure ∧
          calculate_employee_salary m2 1 ⟨2026, 6, 1⟩ = .value 0 false) ∨
        (calculate_employee_salary m1 1 ⟨2026, 6, 1⟩ = .value 0 false ∧
          calculate_employee_salary m2 1 ⟨2026, 6, 1⟩ = .assertion_failure)) := by
  refine ⟨_, _, rfl, rfl, rfl, ?_, rfl, rfl, List.Perm.swap 3 2 [], ?_, Or.inl ⟨rfl, rfl⟩⟩
  · intro x
    simp only [get_chief, map_find]
    split_ifs <;> rfl
  · intro h
    have h1 : SalaryResult.assertion_failure = SalaryResult.value 0 false := h
    exact SalaryResult.noConfusion h1

/-! ## The store assertions of the salary recursion -/

theorem get_all_subordinates_loop_mem (m : List (uuid_t × uuid_t)) :
    ∀ (fuel : Nat) (tower acc r : List uuid_t),
      get_all_subordinates_loop m fuel tower acc = some r →
      (∀ x ∈ acc, x ∈ m.map Prod.snd) → ∀ x ∈ r, x ∈ m.map Prod.snd := by
  intro fuel
  induction fuel with
  | zero =>
    intro tower acc r h hacc
    cases tower with
    | nil =>
      simp only [get_all_subordinates_loop, Option.some.injEq] at h
      subst h
      exact hacc
    | cons c t => simp [get_all_subordinates_loop] at h
  | succ fuel ih =>
    intro tower acc r h hacc
    cases tower with
    | nil =>
      simp only [get_all_subordinates_loop, Option.some.injEq] at h
      subst h
      exact hacc
    | cons c t =>
      simp only [get_all_subordinates_loop] at h
      apply ih _ _ r h
      intro x hx
      rcases List.mem_append.1 hx with hx1 | hx2
      · exact hacc x hx1
      · exact List.mem_map.2 ⟨(c, x), (mem_equal_range m c x).1 hx2, rfl⟩

/-- Whatever the graph, the traversal returns only identifiers recorded as
subordinates in the inverse view. -/
theorem get_all_subordinates_mem (s : RelationManager) (id : uuid_t) (r : List uuid_t)
    (h : get_all_subordinates s id = some r) :
    ∀ x ∈ r, x ∈ s.chief_to_subs_.map Prod.snd := by
  unfold get_all_subordinates at h
  split_ifs at h
  · apply get_all_subordinates_loop_mem _ _ _ _ r h
    intro x hx
    exact List.mem_map.2 ⟨(id, x), (mem_equal_range _ id x).1 hx, rfl⟩
  · simp only [Option.some.injEq] at h
    subst h
    simp

theorem get_direct_subordinates_mem (s : RelationManager) (id x : uuid_t)
    (h : x ∈ get_direct_subordinates s id) : x ∈ s.chief_to_subs_.map Prod.snd := by
  rw [get_direct_subordinates_eq, mem_equal_range] at h
  exact List.mem_map.2 ⟨(id, x), h, rfl⟩

theorem sum_subordinates_no_failure (f : uuid_t → SalaryResult) :
    ∀ (l : List uuid_t) (t : ℚ), (∀ x ∈ l, f x ≠ .assertion_failure) →
      sum_subordinates f l t ≠ .assertion_failure := by
  intro l
  induction l with
  | nil => intro t _; simp [sum_subordinates]
  | cons a l ih =>
    intro t h
    have ha := h a (List.mem_cons_self _ _)
    simp only [sum_subordinates]
    cases hfa : f a with
    | value salary ok =>
      cases ok with
      | true => simpa using ih _ (fun x hx => h x (List.mem_cons_of_mem _ hx))
      | false => simp
    | assertion_failure => exact absurd hfa ha
    | no_return => simp

/-- A false flag out of the summation loop is the false flag of one of the
listed calls, and the amount returned with it is 0. -/
theorem sum_subordinates_false_inv (f : uuid_t → SalaryResult) :
    ∀ (l : List uuid_t) (t a : ℚ), sum_subordinates f l t = .value a false →
      a = 0 ∧ ∃ x ∈ l, ∃ b, f x = .value b false := by
  intro l
  induction l with
  | nil => intro t a h; simp [sum_subordinates] at h
  | cons c l ih =>
    intro t a h
    simp only [sum_subordinates] at h
    cases hfc : f c with
    | value salary ok =>
      rw [hfc] at h
      cases ok with
      | true =>
        simp only [if_true] at h
        obtain ⟨ha, x, hx, b, hb⟩ := ih _ _ h
        exact ⟨ha, x, List.mem_cons_of_mem _ hx, b, hb⟩
      | false =>
        simp only [Bool.false_eq_true, if_false, SalaryResult.value.injEq, and_true] at h
        exact ⟨h.symm, c, List.mem_cons_self _ _, salary, hfc⟩
    | assertion_failure => rw [hfc] at h; simp at h
    | no_return => rw [hfc] at h; simp at h

/-- When every identifier the inverse view records as a subordinate has a
record, no lookup of the salary recursion started at a stored identifier
fails, at any depth. -/
theorem calculate_month_salary_no_failure (sc : SalaryCalculator)
    (hstored : ∀ x, x ∈ sc.relation_manager_.chief_to_subs_.map Prod.snd →
      ∃ e, store_find sc.employees_ x = some (some e))
    (date : date_t) :
    ∀ (fuel : Nat) (id : uuid_t) (e : Employee),
      store_find sc.employees_ id = some (some e) →
      calculate_month_salary sc fuel id date ≠ .assertion_failure := by
  intro fuel
  induction fuel with
  | zero => intro id e _; simp [calculate_month_salary]
  | succ fuel ih =>
    intro id e hfind
    by_cases hearly : earlier date e.hire_date_
    · rw [calculate_month_salary_earlier sc fuel id e date hfind hearly]
      simp
    · cases ht : e.type_ with
      | WORKER =>
        rw [calculate_month_salary_worker sc fuel id e date hfind ht hearly]
        simp
      | FOREMAN =>
        rw [calculate_month_salary_foreman sc fuel id e date hfind ht hearly]
        have hsum := sum_subordinates_no_failure
          (fun x => calculate_month_salary sc fuel x date)
          (get_direct_subordinates sc.relation_manager_ e.id_) 0
          (fun x hx => by
            obtain ⟨ex, hex⟩ := hstored x (get_direct_subordinates_mem _ _ x hx)
            exact ih x ex hex)
        cases hs : sum_subordinates (fun x => calculate_month_salary sc fuel x date)
            (get_direct_subordinates sc.relation_manager_ e.id_) 0 with
        | value total ok => cases ok <;> simp
        | assertion_failure => exact absurd hs hsum
        | no_return => simp
      | MANAGER =>
        rw [calculate_month_salary_manager sc fuel id e date hfind ht hearly]
        cases hall : get_all_subordinates sc.relation_manager_ e.id_ with
        | none => simp
        | some r =>
          have hsum := sum_subordinates_no_failure
            (fun x => calculate_month_salary sc fuel x date) r 0
            (fun x hx => by
              obtain ⟨ex, hex⟩ := hstored x (get_all_subordinates_mem _ _ r hall x hx)
              exact ih x ex hex)
          simp only
          cases hs : sum_subordinates (fun x => calculate_month_salary sc fuel x date) r 0 with
          | value total ok => cases ok <;> simp
          | assertion_failure => exact absurd hs hsum
          | no_return => simp

/-- A pair with a false flag comes only out of a date check: the amount is 0
and some stored record has a hire period later than the query period. -/
theorem calculate_month_salary_false_flag (sc : SalaryCalculator) (date : date_t) :
    ∀ (fuel : Nat) (id : uuid_t) (a : ℚ),
      calculate_month_salary sc fuel id date = .value a false →
      a = 0 ∧ ∃ x ex, store_find sc.employees_ x = some (some ex) ∧
        earlier date ex.hire_date_ := by
  intro fuel
  induction fuel with
  | zero => intro id a h; simp [calculate_month_salary] at h
  | succ fuel ih =>
    intro id a h
    cases hfind : store_find sc.employees_ id with
    | none => simp [calculate_month_salary, hfind] at h
    | some p =>
      cases p with
      | none => simp [calculate_month_salary, hfind] at h
      | some e =>
        by_cases hearly : earlier date e.hire_date_
        · rw [calculate_month_salary_earlier sc fuel id e date hfind hearly] at h
          simp only [SalaryResult.value.injEq, and_true] at h
          exact ⟨h.symm, id, e, hfind, hearly⟩
        · cases ht : e.type_ with
          | WORKER =>
            rw [calculate_month_salary_worker sc fuel id e date hfind ht hearly] at h
            simp at h
          | FOREMAN =>
            rw [calculate_month_salary_foreman sc fuel id e date hfind ht hearly] at h
            cases hs : sum_subordinates (fun x => calculate_month_salary sc fuel x date)
                (get_direct_subordinates sc.relation_manager_ e.id_) 0 with
            | value total ok =>
              rw [hs] at h
              cases ok with
              | true => simp at h
              | false =>
                simp only [Bool.false_eq_true, if_false, SalaryResult.value.injEq,
                  and_true] at h
                obtain ⟨_, x, _, b, hb⟩ := sum_subordinates_false_inv _ _ _ _ hs
                exact ⟨h.symm, (ih x b hb).2⟩
            | assertion_failure => rw [hs] at h; simp at h
            | no_return => rw [hs] at h; simp at h
          | MANAGER =>
            rw [calculate_month_salary_manager sc fuel id e date hfind ht hearly] at h
            cases hall : get_all_subordinates sc.relation_manager_ e.id_ with
            | none => rw [hall] at h; simp at h
            | some r =>
              rw [hall] at h
              simp only at h
              cases hs : sum_subordinates (fun x => calculate_month_salary sc fuel x date)
                  r 0 with
              | value total ok =>
                rw [hs] at h
                cases ok with
                | true => simp at h
                | false =>
                  simp only [Bool.false_eq_true, if_false, SalaryResult.value.injEq,
                    and_true] at h
                  obtain ⟨_, x, _, b, hb⟩ := sum_subordinates_false_inv _ _ _ _ hs
                  exact ⟨h.symm, (ih x b hb).2⟩
              | assertion_failure => rw [hs] at h; simp at h
              | no_return => rw [hs] at h; simp at h

theorem manager_calculator_recorded :
    ∀ x ∈ recorded_ids manager_calculator.relation_manager_,
      ∃ e, store_find manager_calculator.employees_ x = some (some e) := by
  intro x hx
  simp only [recorded_ids, manager_calculator, List.map, List.cons_append,
    List.nil_append, List.mem_cons, List.mem_singleton, List.not_mem_nil,
    or_false] at hx
  repeat (rcases hx with rfl | hx; exact ⟨_, rfl⟩)

/-- C33 (validity of the store-lookup assertions): when every identifier
recorded in the relation graph has a non-null record in the store and `id` has
one too, `calculate_month_salary(id, date)` meets no failed assertion, at the
top-level call or at any depth of the recursion; every record belongs to one
of the three categories the dispatch handles, and a false flag is never the
fall-through after the dispatch: it is returned with amount 0 and only when
some stored record has a hire period later than the query period. -/
theorem C33_store_assertions_hold (sc : SalaryCalculator)
    (hrec : ∀ x ∈ recorded_ids sc.relation_manager_,
      ∃ e, store_find sc.employees_ x = some (some e))
    (id : uuid_t) (e : Employee) (hfind : store_find sc.employees_ id = some (some e))
    (date : date_t) :
    (∀ fuel, calculate_month_salary sc fuel id date ≠ .assertion_failure) ∧
      month_salary sc id date ≠ .assertion_failure ∧
      (∀ k ek, store_find sc.employees_ k = some (some ek) →
        ek.type_ = EmployeeType.WORKER ∨ ek.type_ = EmployeeType.FOREMAN ∨
          ek.type_ = EmployeeType.MANAGER) ∧
      ∀ fuel a, calculate_month_salary sc fuel id date = .value a false →
        a = 0 ∧ ∃ x ex, store_find sc.employees_ x = some (some ex) ∧
          earlier date ex.hire_date_ := by
  have hstored : ∀ x, x ∈ sc.relation_manager_.chief_to_subs_.map Prod.snd →
      ∃ ex, store_find sc.employees_ x = some (some ex) :=
    fun x hx => hrec x (by simp only [recorded_ids]; exact List.mem_append_right _ hx)
  have hno := fun fuel =>
    calculate_month_salary_no_failure sc hstored date fuel id e hfind
  refine ⟨hno, hno _, ?_, fun fuel a h => calculate_month_salary_false_flag sc date fuel id a h⟩
  intro k ek _
  cases ek.type_ <;> simp

theorem C33_store_assertions_hold_witness :
    (∀ fuel, calculate_month_salary manager_calculator fuel 1 ⟨2037, 1, 1⟩ ≠
      .assertion_failure) ∧
      month_salary manager_calculator 1 ⟨2037, 1, 1⟩ ≠ .assertion_failure :=
  ⟨(C33_store_assertions_hold manager_calculator
      manager_calculator_recorded
      1 ⟨⟨2026, 1, 1⟩, 300000, .MANAGER, 1⟩ rfl ⟨2037, 1, 1⟩).1,
    (C33_store_assertions_hold manager_calculator
      manager_calculator_recorded
      1 ⟨⟨2026, 1, 1⟩, 300000, .MANAGER, 1⟩ rfl ⟨2037, 1, 1⟩).2.1⟩

/-! ## Monotonicity in tenure -/

theorem tdiv_twelve (a : Int) :
    Int.tdiv a 12 = if 0 ≤ a then a / 12 else -((-a) / 12) := by
  split_ifs with h
  · exact Int.tdiv_eq_ediv h (by decide)
  · have h1 : (-(-a)).tdiv 12 = -((-a).tdiv 12) := Int.neg_tdiv _ _
    rw [neg_neg] at h1
    rw [h1, Int.tdiv_eq_ediv (by omega) (by decide)]

theorem tdiv_twelve_mono (a b : Int) (h : a ≤ b) : Int.tdiv a 12 ≤ Int.tdiv b 12 := by
  rw [tdiv_twelve a, tdiv_twelve b]
  split_ifs <;> omega

/-- Between two query periods in calendar order the number of full years since
a hire date does not decrease. -/
theorem full_years_mono (hire p1 p2 : date_t) (hv1 : valid_month p1) (hv2 : valid_month p2)
    (hle : ¬earlier p2 p1) : full_years hire p1 ≤ full_years hire p2 := by
  apply tdiv_twelve_mono
  simp only [months_diff, normalized]
  simp only [earlier, valid_month] at hle hv1 hv2
  omega

theorem not_earlier_trans (hire p1 p2 : date_t) (h1 : ¬earlier p1 hire)
    (hle : ¬earlier p2 p1) : ¬earlier p2 hire := by
  simp only [earlier] at h1 hle ⊢
  omega

theorem worker_amount_mono (B : ℚ) (hB : 0 ≤ B) (y1 y2 : Int) (h : y1 ≤ y2) :
    B + min B (1 / 10 * (y1 : ℚ) * B) ≤ B + min B (1 / 10 * (y2 : ℚ) * B) := by
  have hc : (y1 : ℚ) ≤ (y2 : ℚ) := by exact_mod_cast h
  have : 1 / 10 * (y1 : ℚ) * B ≤ 1 / 10 * (y2 : ℚ) * B :=
    mul_le_mul_of_nonneg_right (mul_le_mul_of_nonneg_left hc (by norm_num)) hB
  exact add_le_add_left (min_le_min le_rfl this) _

theorem foreman_amount_mono (B : ℚ) (hB : 0 ≤ B) (y1 y2 : Int) (h : y1 ≤ y2) :
    B + min (B * (4 / 10)) (5 / 100 * (y1 : ℚ) * B) ≤
      B + min (B * (4 / 10)) (5 / 100 * (y2 : ℚ) * B) := by
  have hc : (y1 : ℚ) ≤ (y2 : ℚ) := by exact_mod_cast h
  have : 5 / 100 * (y1 : ℚ) * B ≤ 5 / 100 * (y2 : ℚ) * B :=
    mul_le_mul_of_nonneg_right (mul_le_mul_of_nonneg_left hc (by norm_num)) hB
  exact add_le_add_left (min_le_min le_rfl this) _

/-- With base pay nowhere negative, a computation that succeeds at a query
period succeeds at every later one, with the same fuel and an amount at least
as large. -/
theorem calculate_month_salary_tenure (sc : SalaryCalculator)
    (hbase : ∀ k e, store_find sc.employees_ k = some (some e) → 0 ≤ e.base_salary_)
    (p1 p2 : date_t) (hv1 : valid_month p1) (hv2 : valid_month p2) (hle : ¬earlier p2 p1) :
    ∀ (fuel : Nat) (id : uuid_t) (a1 : ℚ),
      calculate_month_salary sc fuel id p1 = .value a1 true →
      ∃ a2, calculate_month_salary sc fuel id p2 = .value a2 true ∧ a1 ≤ a2 := by
  intro fuel
  induction fuel with
  | zero => intro id a1 h; simp [calculate_month_salary] at h
  | succ fuel ih =>
    intro id a1 h
    cases hfind : store_find sc.employees_ id with
    | none => simp [calculate_month_salary, hfind] at h
    | some p =>
      cases p with
      | none => simp [calculate_month_salary, hfind] at h
      | some e =>
        have hB := hbase id e hfind
        by_cases hearly : earlier p1 e.hire_date_
        · rw [calculate_month_salary_earlier sc fuel id e p1 hfind hearly] at h
          simp at h
        · have hnot2 := not_earlier_trans e.hire_date_ p1 p2 hearly hle
          have hfy := full_years_mono e.hire_date_ p1 p2 hv1 hv2 hle
          have hstep : ∀ l : List uuid_t,
              (∀ x ∈ l, ∃ b, calculate_month_salary sc fuel x p1 = .value b true) →
              (∀ x ∈ l, ∃ b, calculate_month_salary sc fuel x p2 = .value b true) ∧
              (l.map (fun x => (calculate_month_salary sc fuel x p1).amount)).sum ≤
                (l.map (fun x => (calculate_month_salary sc fuel x p2).amount)).sum := by
            intro l hl
            refine ⟨fun x hx => ?_, List.sum_le_sum fun x hx => ?_⟩
            · obtain ⟨b, hb⟩ := hl x hx
              obtain ⟨b2, hb2, _⟩ := ih x b hb
              exact ⟨b2, hb2⟩
            · obtain ⟨b, hb⟩ := hl x hx
              obtain ⟨b2, hb2, hle2⟩ := ih x b hb
              simpa only [hb, hb2, SalaryResult.amount] using hle2
          cases ht : e.type_ with
          | WORKER =>
            rw [calculate_month_salary_worker sc fuel id e p1 hfind ht hearly] at h
            simp only [SalaryResult.value.injEq, and_true] at h
            subst h
            exact ⟨_, calculate_month_salary_worker sc fuel id e p2 hfind ht hnot2,
              worker_amount_mono _ hB _ _ hfy⟩
          | FOREMAN =>
            have hsubs1 : ∀ x ∈ get_direct_subordinates sc.relation_manager_ e.id_,
                ∃ b, calculate_month_salary sc fuel x p1 = .value b true := by
              rw [calculate_month_salary_foreman sc fuel id e p1 hfind ht hearly] at h
              cases hs : sum_subordinates (fun x => calculate_month_salary sc fuel x p1)
                  (get_direct_subordinates sc.relation_manager_ e.id_) 0 with
              | value total ok =>
                rw [hs] at h
                cases ok with
                | true => exact sum_subordinates_true _ _ _ _ hs
                | false => simp at h
              | assertion_failure => rw [hs] at h; simp at h
              | no_return => rw [hs] at h; simp at h
            obtain ⟨hsubs2, hsum⟩ := hstep _ hsubs1
            rw [foreman_at sc fuel id e p1 hfind ht hearly hsubs1] at h
            simp only [SalaryResult.value.injEq, and_true] at h
            subst h
            refine ⟨_, foreman_at sc fuel id e p2 hfind ht hnot2 hsubs2, ?_⟩
            exact add_le_add (foreman_amount_mono _ hB _ _ hfy)
              (mul_le_mul_of_nonneg_right hsum (by norm_num))
          | MANAGER =>
            cases hall : get_all_subordinates sc.relation_manager_ e.id_ with
            | none =>
              rw [calculate_month_salary_manager sc fuel id e p1 hfind ht hearly, hall] at h
              simp at h
            | some r =>
              have hsubs1 : ∀ x ∈ r,
                  ∃ b, calculate_month_salary sc fuel x p1 = .value b true := by
                rw [calculate_month_salary_manager sc fuel id e p1 hfind ht hearly,
                  hall] at h
                simp only at h
                cases hs : sum_subordinates (fun x => calculate_month_salary sc fuel x p1)
                    r 0 with
                | value total ok =>
                  rw [hs] at h
                  cases ok with
                  | true => exact sum_subordinates_true _ _ _ _ hs
                  | false => simp at h
                | assertion_failure => rw [hs] at h; simp at h
                | no_return => rw [hs] at h; simp at h
              obtain ⟨hsubs2, hsum⟩ := hstep _ hsubs1
              rw [manager_at sc fuel id e p1 r hfind ht hearly hall hsubs1] at h
              simp only [SalaryResult.value.injEq, and_true] at h
              subst h
              refine ⟨_, manager_at sc fuel id e p2 r hfind ht hnot2 hall hsubs2, ?_⟩
              exact add_le_add_left (mul_le_mul_of_nonneg_right hsum (by norm_num)) _

theorem manager_calculator_base_pay :
    ∀ k e, store_find manager_calculator.employees_ k = some (some e) →
      0 ≤ e.base_salary_ := by
  intro k e h
  simp only [manager_calculator, store_find] at h
  split_ifs at h <;> (simp only [Option.some.injEq] at h; subst h; norm_num)

/-- C34 (monotonicity in tenure): when no stored record has negative base pay,
for every identifier and all query periods `p1`, `p2` with months in 1..12 and
`p2` not earlier than `p1`, a salary computation that succeeds at `p1` succeeds
at `p2` with an amount at least as large; this holds on every graph. -/
theorem C34_tenure_monotone (sc : SalaryCalculator)
    (hbase : ∀ k e, store_find sc.employees_ k = some (some e) → 0 ≤ e.base_salary_)
    (p1 p2 : date_t) (hv1 : valid_month p1) (hv2 : valid_month p2) (hle : ¬earlier p2 p1)
    (id : uuid_t) (hsucc : (month_salary sc id p1).succeeded = true) :
    (month_salary sc id p2).succeeded = true ∧
      (month_salary sc id p1).amount ≤ (month_salary sc id p2).amount := by
  obtain ⟨a1, h1⟩ := (succeeded_iff _).1 hsucc
  obtain ⟨a2, h2, hle2⟩ :=
    calculate_month_salary_tenure sc hbase p1 p2 hv1 hv2 hle _ id a1 h1
  have h2b : month_salary sc id p2 = .value a2 true := h2
  rw [h1, h2b]
  exact ⟨rfl, hle2⟩

theorem C34_tenure_monotone_witness :
    (month_salary manager_calculator 1 ⟨2027, 3, 1⟩).succeeded = true ∧
      (month_salary manager_calculator 1 ⟨2037, 1, 1⟩).succeeded = true ∧
      (month_salary manager_calculator 1 ⟨2027, 3, 1⟩).amount ≤
        (month_salary manager_calculator 1 ⟨2037, 1, 1⟩).amount :=
  ⟨rfl,
    C34_tenure_monotone manager_calculator manager_calculator_base_pay ⟨2027, 3, 1⟩
      ⟨2037, 1, 1⟩ (by unfold valid_month; decide) (by unfold valid_month; decide)
      (by unfold earlier; decide) 1 rfl⟩

/-! ## Negative base pay -/

theorem full_years_hire_month (h : date_t) (d : Int) :
    full_years h ⟨h.year, h.month, d⟩ = 0 := by
  have := full_years_add h 0 d (le_refl 0)
  simpa using this

theorem not_earlier_hire_month (h : date_t) (d : Int) : ¬earlier ⟨h.year, h.month, d⟩ h := by
  simp [earlier]

/-- C35 (negative base pay turns the cap into a penalty): with base pay `B < 0`,
in the hire month a WORKER record yields success with amount `2*B`, and a
FOREMAN record without direct subordinates yields success with amount `1.4*B`;
both amounts are below `B`. -/
theorem C35_negative_base_penalty (sc : SalaryCalculator) (fuel : Nat) (id : uuid_t)
    (B : ℚ) (hy hm : Int) (hB : B < 0) (d : Int) :
    (has_record sc id EmployeeType.WORKER B hy hm →
      calculate_month_salary sc (fuel + 1) id ⟨hy, hm, d⟩ = .value (2 * B) true) ∧
    (has_record sc id EmployeeType.FOREMAN B hy hm →
      get_direct_subordinates sc.relation_manager_ id = [] →
      calculate_month_salary sc (fuel + 1) id ⟨hy, hm, d⟩ = .value (1.4 * B) true) ∧
    2 * B < B ∧ 1.4 * B < B := by
  refine ⟨?_, ?_, by linarith, by norm_num; linarith⟩
  · rintro ⟨e, hfind, ht, hb, rfl, rfl, _⟩
    rw [calculate_month_salary_worker sc fuel id e _ hfind ht
      (not_earlier_hire_month e.hire_date_ d), full_years_hire_month, hb]
    congr 1
    have : min B (1 / 10 * ((0 : Int) : ℚ) * B) = B := by
      rw [min_eq_left]
      norm_num
      exact le_of_lt hB
    rw [this]
    ring
  · rintro ⟨e, hfind, ht, hb, rfl, rfl, hid⟩ hnone
    rw [foreman_at sc fuel id e _ hfind ht (not_earlier_hire_month e.hire_date_ d)
      (by rw [hid, hnone]; simp), full_years_hire_month, hb, hid, hnone]
    congr 1
    have : min (B * (4 / 10)) (5 / 100 * ((0 : Int) : ℚ) * B) = B * (4 / 10) := by
      rw [min_eq_left]
      norm_num
      linarith
    rw [this]
    norm_num
    ring

theorem C35_negative_base_penalty_witness :
    calculate_month_salary negative_pay_calculator 1 1 ⟨2026, 1, 15⟩ =
        .value (2 * (-1000)) true ∧
      calculate_month_salary negative_pay_calculator 1 2 ⟨2026, 1, 15⟩ =
        .value (1.4 * (-1000)) true :=
  ⟨(C35_negative_base_penalty negative_pay_calculator 0 1 (-1000) 2026 1 (by norm_num)
      15).1 ⟨_, rfl, rfl, rfl, rfl, rfl, rfl⟩,
    (C35_negative_base_penalty negative_pay_calculator 0 2 (-1000) 2026 1 (by norm_num)
      15).2.1 ⟨_, rfl, rfl, rfl, rfl, rfl, rfl⟩ rfl⟩

/-! ## A salary computation racing with a change of the graph -/

/-- C25 (salary consistency under concurrent mutation) fails on the code:
`add_subordination` holds the facade mutex only while it validates the pair
and calls `add_relation` after releasing it, so the `add_relation(2, 3)` of a
second thread can run inside a `calculate_employee_salary(1, date)` that holds
the facade mutex.  When it runs after MANAGER 1 has read its descendants and
before the recursive calls, the amount is 306210: neither 306000, the salary
on the state before the call, nor 309210, the salary on the state after it. -/
theorem C25_salary_across_concurrent_add :
    facade_run EmployeeManager.empty
        [.add_employee MANAGER_DESCR 1, .add_employee FOREMAN_DESCR 2,
          .add_employee WORKER_DESCR 3, .add_subordination 1 2] = some racing_before ∧
      rejected_pair 2
        [find_employee_by_id racing_before 2, find_employee_by_id racing_before 3] = false ∧
      add_relation racing_before.relation_manager 2 3 =
        some (true, racing_after.relation_manager) ∧
      add_subordination racing_before 2 3 = some (true, racing_after) ∧
      calculate_employee_salary racing_before 1 ⟨2026, 1, 1⟩ = .value 306000 true ∧
      calculate_employee_salary racing_after 1 ⟨2026, 1, 1⟩ = .value 309210 true ∧
      calculate_manager_salary_across racing_before.employees
          racing_before.relation_manager racing_before.relation_manager 2
          ⟨⟨2026, 1, 1⟩, 300000, .MANAGER, 1⟩ ⟨2026, 1, 1⟩ = .value 306000 true ∧
      calculate_manager_salary_across racing_before.employees
          racing_after.relation_manager racing_after.relation_manager 2
          ⟨⟨2026, 1, 1⟩, 300000, .MANAGER, 1⟩ ⟨2026, 1, 1⟩ = .value 309210 true ∧
      calculate_manager_salary_across racing_before.employees
          racing_before.relation_manager racing_after.relation_manager 2
          ⟨⟨2026, 1, 1⟩, 300000, .MANAGER, 1⟩ ⟨2026, 1, 1⟩ = .value 306210 true := by
  refine ⟨rfl, rfl, rfl, rfl, ?_, ?_, ?_, ?_, ?_⟩ <;>
    norm_num [calculate_employee_salary, find_employee_by_id, month_salary, salary_fuel,
      EmployeeManager.salary_calculator, calculate_manager_salary_across, racing_before,
      racing_after, calculate_month_salary, store_find, calculate_manager_salary,
      calculate_foreman_salary, calculate_worker_salary, get_all_subordinates,
      get_all_subordinates_loop, multimap_contains, equal_range, get_direct_subordinates,
      sum_subordinates, date_lt, normalized, full_years, months_diff, Int.tdiv]

end employee
